import Mathlib

/-!
Verification development for the OOXML slide-injection engine of the
`ai_health_check_report` repository.  The definitions below are shallow
embeddings of the corresponding functions of `src/merged.js` (the
canonical, most defensive variant of the injection logic, which is the
variant the specification describes): ID allocation, slide-ID-list
rebuilding, asset cloning with memoization, content-type registration,
placeholder substitution and POSIX part-path resolution.
-/

namespace AiHealthCheck

set_option maxHeartbeats 1000000

/-! ## Slide-ID / relationship-ID allocation

`merged.js` lines 1101-1140 (`buildSlideEntries`) allocate, for every
pending new slide, a slide ID with
`while (existingSlideIds.has(nextSlideId) || nextSlideId <= 256) nextSlideId++`
and a relationship ID with `while (existingRelIds.has(nextRelId)) nextRelId++`,
inserting each handed-out ID into the corresponding existing-ID set before
moving on.  The `while` loops are embedded with explicit fuel; the wrappers
supply fuel that is always sufficient (proved below), so the embedded
functions agree with the JavaScript loops. -/

/-- The loop `while (existingSlideIds.has(next) || next <= 256) next++`
from `buildSlideEntries` (merged.js line 1107), with explicit fuel. -/
def nextFreeSlideIdAux (existing : Finset ℕ) : ℕ → ℕ → ℕ
  | 0, next => next
  | fuel + 1, next =>
    if next ∈ existing ∨ next ≤ 256 then nextFreeSlideIdAux existing fuel (next + 1)
    else next

/-- Fuel that always suffices for the slide-ID search loop: one more than
the number of blocked candidates (existing IDs together with 0..256). -/
def slideIdFuel (existing : Finset ℕ) : ℕ :=
  (existing ∪ Finset.range 257).card + 1

/-- The slide-ID allocation loop of `buildSlideEntries`. -/
def nextFreeSlideId (existing : Finset ℕ) (next : ℕ) : ℕ :=
  nextFreeSlideIdAux existing (slideIdFuel existing) next

/-- The loop `while (existingRelIds.has(next)) next++` from
`buildSlideEntries` (merged.js line 1116), with explicit fuel. -/
def nextFreeRelIdAux (existing : Finset ℕ) : ℕ → ℕ → ℕ
  | 0, next => next
  | fuel + 1, next =>
    if next ∈ existing then nextFreeRelIdAux existing fuel (next + 1)
    else next

/-- Fuel that always suffices for the relationship-ID search loop. -/
def relIdFuel (existing : Finset ℕ) : ℕ :=
  existing.card + 1

/-- The relationship-ID allocation loop of `buildSlideEntries`. -/
def nextFreeRelId (existing : Finset ℕ) (next : ℕ) : ℕ :=
  nextFreeRelIdAux existing (relIdFuel existing) next

/-- A pending new-slide record as pushed by `copyTemplateSlide`
(merged.js line 684): the new slide's file number and its position
string, one of "start" / "middle" / "end". -/
structure SlideRec where
  slideNumber : ℕ
  position : String
  deriving DecidableEq, Repr

/-- A new-slide record after `buildSlideEntries` has assigned its slide
ID and relationship ID (merged.js lines 1113, 1119). -/
structure AllocatedSlide where
  slideNumber : ℕ
  position : String
  slideId : ℕ
  relId : String
  deriving DecidableEq, Repr

/-- The allocator fields of the run state built by `initializeState`
(merged.js lines 560-633) that `buildSlideEntries` reads and writes:
the scraped existing slide-ID and relationship-ID sets plus the two
monotone cursors. -/
structure AllocState where
  existingSlideIds : Finset ℕ
  nextSlideId : ℕ
  existingRelIds : Finset ℕ
  nextRelId : ℕ
  deriving DecidableEq

/-- One iteration of the `state.newSlides.map` body in `buildSlideEntries`
(merged.js lines 1106-1122): allocate a fresh slide ID (inserted into the
existing set at once), then a fresh relationship ID likewise. -/
def allocOne (r : SlideRec) (st : AllocState) : AllocatedSlide × AllocState :=
  let sid := nextFreeSlideId st.existingSlideIds st.nextSlideId
  let st1 : AllocState :=
    { st with existingSlideIds := insert sid st.existingSlideIds, nextSlideId := sid + 1 }
  let rid := nextFreeRelId st1.existingRelIds st1.nextRelId
  let st2 : AllocState :=
    { st1 with existingRelIds := insert rid st1.existingRelIds, nextRelId := rid + 1 }
  ({ slideNumber := r.slideNumber, position := r.position, slideId := sid,
     relId := "rId" ++ toString rid }, st2)

/-- The `state.newSlides.map` loop of `buildSlideEntries` threading the
mutable allocator state. -/
def allocSlides : List SlideRec → AllocState → List AllocatedSlide × AllocState
  | [], st => ([], st)
  | r :: rs, st =>
    let p := allocOne r st
    let q := allocSlides rs p.2
    (p.1 :: q.1, q.2)

/-- `entryFor` from `buildSlideEntries` (merged.js line 1124): the
serialized `<p:sldId>` entry of a newly allocated slide. -/
def entryFor (s : AllocatedSlide) : String :=
  "    <p:sldId id=\"" ++ toString s.slideId ++ "\" r:id=\"" ++ s.relId ++ "\"/>"

/-- `buildSlideEntries` (merged.js lines 1101-1140) at the level of
slide-ID-list entries: the existing entries are the trimmed non-blank
lines of the `<p:sldIdLst>` body, and the rebuilt body is
start-positioned new entries, then the existing entries, then
middle-positioned, then end-positioned new entries (line 1137).
Returns the rebuilt entry list together with the allocated records and
the final allocator state. -/
def buildSlideEntries (existingEntries : List String) (newSlides : List SlideRec)
    (st : AllocState) : List String × List AllocatedSlide × AllocState :=
  let p := allocSlides newSlides st
  let startEntries := (p.1.filter (fun s => s.position = "start")).map entryFor
  let middleEntries := (p.1.filter (fun s => s.position = "middle")).map entryFor
  let endEntries := (p.1.filter (fun s => s.position = "end")).map entryFor
  (startEntries ++ existingEntries ++ middleEntries ++ endEntries, p.1, p.2)

/-! ### Allocation-loop correctness -/

theorem nextFreeSlideIdAux_spec (existing : Finset ℕ) :
    ∀ fuel next,
      ((existing ∪ Finset.range 257).filter (fun n => next ≤ n)).card < fuel →
      nextFreeSlideIdAux existing fuel next ∉ existing ∧
        256 < nextFreeSlideIdAux existing fuel next ∧
        next ≤ nextFreeSlideIdAux existing fuel next := by
  intro fuel
  induction fuel with
  | zero => intro next h; exact absurd h (by simp)
  | succ fuel ih =>
    intro next h
    by_cases hbad : next ∈ existing ∨ next ≤ 256
    · have hmem : next ∈ (existing ∪ Finset.range 257).filter (fun n => next ≤ n) := by
        simp only [Finset.mem_filter, Finset.mem_union, Finset.mem_range]
        refine ⟨?_, le_refl next⟩
        rcases hbad with hb | hb
        · exact Or.inl hb
        · exact Or.inr (Nat.lt_succ_of_le hb)
      have hsub :
          (existing ∪ Finset.range 257).filter (fun n => next + 1 ≤ n) =
            ((existing ∪ Finset.range 257).filter (fun n => next ≤ n)).erase next := by
        ext m
        simp only [Finset.mem_filter, Finset.mem_erase]
        constructor
        · intro hm
          exact ⟨by omega, hm.1, by omega⟩
        · intro hm
          exact ⟨hm.2.1, by omega⟩
      have hcard :
          ((existing ∪ Finset.range 257).filter (fun n => next + 1 ≤ n)).card < fuel := by
        rw [hsub]
        have h1 := Finset.card_erase_of_mem hmem
        have h2 := Finset.card_pos.mpr ⟨next, hmem⟩
        omega
      have hre : nextFreeSlideIdAux existing (fuel + 1) next =
          nextFreeSlideIdAux existing fuel (next + 1) := by
        rw [nextFreeSlideIdAux, if_pos hbad]
      have := ih (next + 1) hcard
      rw [hre]
      exact ⟨this.1, this.2.1, le_trans (Nat.le_succ next) this.2.2⟩
    · have hre : nextFreeSlideIdAux existing (fuel + 1) next = next := by
        rw [nextFreeSlideIdAux, if_neg hbad]
      rw [hre]
      push_neg at hbad
      exact ⟨hbad.1, by omega, le_refl next⟩

theorem nextFreeSlideId_spec (existing : Finset ℕ) (next : ℕ) :
    nextFreeSlideId existing next ∉ existing ∧
      256 < nextFreeSlideId existing next ∧ next ≤ nextFreeSlideId existing next := by
  refine nextFreeSlideIdAux_spec existing (slideIdFuel existing) next ?_
  have := Finset.card_filter_le (existing ∪ Finset.range 257) (fun n => next ≤ n)
  simp only [slideIdFuel]
  omega

theorem nextFreeRelIdAux_spec (existing : Finset ℕ) :
    ∀ fuel next,
      (existing.filter (fun n => next ≤ n)).card < fuel →
      nextFreeRelIdAux existing fuel next ∉ existing ∧
        next ≤ nextFreeRelIdAux existing fuel next := by
  intro fuel
  induction fuel with
  | zero => intro next h; exact absurd h (by simp)
  | succ fuel ih =>
    intro next h
    by_cases hbad : next ∈ existing
    · have hmem : next ∈ existing.filter (fun n => next ≤ n) := by
        simp [Finset.mem_filter, hbad]
      have hsub :
          existing.filter (fun n => next + 1 ≤ n) =
            (existing.filter (fun n => next ≤ n)).erase next := by
        ext m
        simp only [Finset.mem_filter, Finset.mem_erase]
        constructor
        · intro hm; exact ⟨by omega, hm.1, by omega⟩
        · intro hm; exact ⟨hm.2.1, by omega⟩
      have hcard : (existing.filter (fun n => next + 1 ≤ n)).card < fuel := by
        rw [hsub]
        have h1 := Finset.card_erase_of_mem hmem
        have h2 := Finset.card_pos.mpr ⟨next, hmem⟩
        omega
      have hre : nextFreeRelIdAux existing (fuel + 1) next =
          nextFreeRelIdAux existing fuel (next + 1) := by
        rw [nextFreeRelIdAux, if_pos hbad]
      have := ih (next + 1) hcard
      rw [hre]
      exact ⟨this.1, le_trans (Nat.le_succ next) this.2⟩
    · have hre : nextFreeRelIdAux existing (fuel + 1) next = next := by
        rw [nextFreeRelIdAux, if_neg hbad]
      rw [hre]
      exact ⟨hbad, le_refl next⟩

theorem nextFreeRelId_spec (existing : Finset ℕ) (next : ℕ) :
    nextFreeRelId existing next ∉ existing ∧ next ≤ nextFreeRelId existing next := by
  refine nextFreeRelIdAux_spec existing (relIdFuel existing) next ?_
  have := Finset.card_filter_le existing (fun n => next ≤ n)
  simp only [relIdFuel]
  omega

theorem allocSlides_spec :
    ∀ (rs : List SlideRec) (st : AllocState),
      ((allocSlides rs st).1.map (fun a => a.slideId)).Nodup ∧
        (∀ a ∈ (allocSlides rs st).1,
          a.slideId ∉ st.existingSlideIds ∧ 256 < a.slideId ∧
            a.slideId ∈ (allocSlides rs st).2.existingSlideIds) ∧
        st.existingSlideIds ⊆ (allocSlides rs st).2.existingSlideIds := by
  intro rs
  induction rs with
  | nil => intro st; simp [allocSlides]
  | cons r rs ih =>
    intro st
    have hsid := nextFreeSlideId_spec st.existingSlideIds st.nextSlideId
    have hstep :
        allocSlides (r :: rs) st =
          ((allocOne r st).1 :: (allocSlides rs (allocOne r st).2).1,
            (allocSlides rs (allocOne r st).2).2) := by
      simp [allocSlides]
    have hslide1 :
        (allocOne r st).1.slideId = nextFreeSlideId st.existingSlideIds st.nextSlideId := by
      simp [allocOne]
    have hset :
        (allocOne r st).2.existingSlideIds =
          insert (nextFreeSlideId st.existingSlideIds st.nextSlideId) st.existingSlideIds := by
      simp [allocOne]
    obtain ⟨ihnodup, ihmem, ihsub⟩ := ih (allocOne r st).2
    have hsubfinal :
        st.existingSlideIds ⊆ (allocSlides rs (allocOne r st).2).2.existingSlideIds := by
      intro x hx
      exact ihsub (by rw [hset]; exact Finset.mem_insert_of_mem hx)
    have hheadmem :
        (allocOne r st).1.slideId ∈ (allocSlides rs (allocOne r st).2).2.existingSlideIds := by
      apply ihsub
      rw [hset, hslide1]
      exact Finset.mem_insert_self _ _
    refine ⟨?_, ?_, ?_⟩
    · rw [hstep]
      simp only [List.map_cons, List.nodup_cons]
      refine ⟨?_, ihnodup⟩
      intro hmem
      simp only [List.mem_map] at hmem
      obtain ⟨a, ha, haeq⟩ := hmem
      have := (ihmem a ha).1
      rw [hset] at this
      exact this (by rw [haeq, hslide1]; exact Finset.mem_insert_self _ _)
    · rw [hstep]
      intro a ha
      rcases List.mem_cons.mp ha with rfl | hatail
      · exact ⟨by rw [hslide1]; exact hsid.1, by rw [hslide1]; exact hsid.2.1, hheadmem⟩
      · obtain ⟨h1, h2, h3⟩ := ihmem a hatail
        refine ⟨fun hc => h1 ?_, h2, h3⟩
        rw [hset]
        exact Finset.mem_insert_of_mem hc
    · rw [hstep]
      exact hsubfinal

/-- **C1.** In every run, the slide IDs allocated by `buildSlideEntries`
(one per pending slide record) are pairwise distinct, disjoint from the
pre-existing slide-ID set `S` scraped by `initializeState`, strictly
greater than 256, and each one is inserted into the existing-ID set
(hence is a member of the final existing-ID set) before the next
allocation, so it can never be reissued within the run. -/
theorem C1_slide_id_allocation (existingEntries : List String)
    (newSlides : List SlideRec) (st : AllocState) :
    (((buildSlideEntries existingEntries newSlides st).2.1.map
        (fun a => a.slideId)).Nodup) ∧
      (∀ a ∈ (buildSlideEntries existingEntries newSlides st).2.1,
        a.slideId ∉ st.existingSlideIds ∧ 256 < a.slideId ∧
          a.slideId ∈
            (buildSlideEntries existingEntries newSlides st).2.2.existingSlideIds) := by
  have h := allocSlides_spec newSlides st
  have h1 : (buildSlideEntries existingEntries newSlides st).2.1 =
      (allocSlides newSlides st).1 := by
    simp [buildSlideEntries]
  have h2 : (buildSlideEntries existingEntries newSlides st).2.2 =
      (allocSlides newSlides st).2 := by
    simp [buildSlideEntries]
  rw [h1, h2]
  exact ⟨h.1, h.2.1⟩

/-- **C2.** The slide-ID list rebuilt by `buildSlideEntries` is exactly:
all new entries with position "start" (in order), then the original
pre-existing entries unchanged and in their original order, then the
"middle" entries, then the "end" entries; in particular existing entries
`[A, B]` together with new records `{start: [S1], end: [E1, E2]}` yield
exactly `[S1, A, B, E1, E2]`. -/
theorem C2_rebuilt_slide_list_order (A B : String) (n1 n2 n3 : ℕ) (st : AllocState) :
    (∀ (existingEntries : List String) (newSlides : List SlideRec) (st' : AllocState),
      (buildSlideEntries existingEntries newSlides st').1 =
        ((allocSlides newSlides st').1.filter (fun s => s.position = "start")).map entryFor
          ++ existingEntries
          ++ ((allocSlides newSlides st').1.filter
                (fun s => s.position = "middle")).map entryFor
          ++ ((allocSlides newSlides st').1.filter
                (fun s => s.position = "end")).map entryFor) ∧
    ∃ a1 a2 a3 : AllocatedSlide,
      (allocSlides [⟨n1, "start"⟩, ⟨n2, "end"⟩, ⟨n3, "end"⟩] st).1 = [a1, a2, a3] ∧
        a1.slideNumber = n1 ∧ a1.position = "start" ∧
        a2.slideNumber = n2 ∧ a2.position = "end" ∧
        a3.slideNumber = n3 ∧ a3.position = "end" ∧
        (buildSlideEntries [A, B] [⟨n1, "start"⟩, ⟨n2, "end"⟩, ⟨n3, "end"⟩] st).1 =
          [entryFor a1, A, B, entryFor a2, entryFor a3] := by
  constructor
  · intro existingEntries newSlides st'
    simp [buildSlideEntries]
  · refine ⟨(allocOne ⟨n1, "start"⟩ st).1,
      (allocOne ⟨n2, "end"⟩ (allocOne ⟨n1, "start"⟩ st).2).1,
      (allocOne ⟨n3, "end"⟩ (allocOne ⟨n2, "end"⟩ (allocOne ⟨n1, "start"⟩ st).2).2).1,
      ?_, ?_, ?_, ?_, ?_, ?_, ?_, ?_⟩
    · simp [allocSlides]
    · simp [allocOne]
    · simp [allocOne]
    · simp [allocOne]
    · simp [allocOne]
    · simp [allocOne]
    · simp [allocOne]
    · simp [buildSlideEntries, allocSlides, allocOne, List.filter]

/-! ## XML value escaping (`escapeXmlValue`, merged.js lines 1314-1323)

The JavaScript function first strips the control characters forbidden in
XML 1.0 with `.replace(/[\x00-\x08\x0B\x0C\x0E-\x1F]/g, "")` and then
performs five sequential global single-character replacements, ampersand
first.  Each single-character `String.replace(/c/g, r)` is embedded as
`replaceCharBy c r` on character lists. -/

/-- The character class `[\x00-\x08\x0B\x0C\x0E-\x1F]` of the stripping
pass of `escapeXmlValue`. -/
def isForbiddenControl (c : Char) : Bool :=
  (c.toNat ≤ 0x08) || (c.toNat = 0x0B) || (c.toNat = 0x0C) ||
    (0x0E ≤ c.toNat && c.toNat ≤ 0x1F)

/-- JavaScript `String.replace(/c/g, r)` for a single character `c`:
every occurrence of `c` is replaced by `r`. -/
def replaceCharBy (c : Char) (r : List Char) : List Char → List Char
  | [] => []
  | a :: rest =>
    if a = c then r ++ replaceCharBy c r rest else a :: replaceCharBy c r rest

/-- `escapeXmlValue` (merged.js lines 1314-1323): falsy (empty) values
return the empty string; otherwise strip forbidden control characters,
then escape `&`, `<`, `>`, `"`, `'` in that order. -/
def escapeXmlValue (value : String) : String :=
  if value = "" then ""
  else
    let cs0 := value.toList.filter (fun c => !(isForbiddenControl c))
    let cs1 := replaceCharBy '&' "&amp;".toList cs0
    let cs2 := replaceCharBy '<' "&lt;".toList cs1
    let cs3 := replaceCharBy '>' "&gt;".toList cs2
    let cs4 := replaceCharBy '"' "&quot;".toList cs3
    let cs5 := replaceCharBy '\x27' "&apos;".toList cs4
    String.mk cs5

/-- The net effect of the five sequential escape passes on one character:
a simultaneous entity substitution. -/
def xmlEntity (c : Char) : List Char :=
  if c = '&' then "&amp;".toList
  else if c = '<' then "&lt;".toList
  else if c = '>' then "&gt;".toList
  else if c = '"' then "&quot;".toList
  else if c = '\x27' then "&apos;".toList
  else [c]

theorem replaceCharBy_append (c : Char) (r xs ys : List Char) :
    replaceCharBy c r (xs ++ ys) = replaceCharBy c r xs ++ replaceCharBy c r ys := by
  induction xs with
  | nil => simp [replaceCharBy]
  | cons a xs ih =>
    by_cases h : a = c
    · simp [replaceCharBy, h, ih]
    · simp [replaceCharBy, h, ih]

theorem escape_chain_eq (cs : List Char) :
    replaceCharBy '\x27' "&apos;".toList
        (replaceCharBy '"' "&quot;".toList
          (replaceCharBy '>' "&gt;".toList
            (replaceCharBy '<' "&lt;".toList
              (replaceCharBy '&' "&amp;".toList cs)))) =
      cs.flatMap xmlEntity := by
  induction cs with
  | nil => simp [replaceCharBy]
  | cons a cs ih =>
    have hstep :
        replaceCharBy '&' "&amp;".toList (a :: cs) =
          (if a = '&' then "&amp;".toList else [a]) ++
            replaceCharBy '&' "&amp;".toList cs := by
      by_cases h : a = '&' <;> simp [replaceCharBy, h]
    rw [hstep, replaceCharBy_append, replaceCharBy_append, replaceCharBy_append,
      replaceCharBy_append, ih]
    have hhead :
        replaceCharBy '\x27' "&apos;".toList
            (replaceCharBy '"' "&quot;".toList
              (replaceCharBy '>' "&gt;".toList
                (replaceCharBy '<' "&lt;".toList
                  (if a = '&' then "&amp;".toList else [a])))) =
          xmlEntity a := by
      by_cases h1 : a = '&'
      · subst h1; decide
      · by_cases h2 : a = '<'
        · subst h2; decide
        · by_cases h3 : a = '>'
          · subst h3; decide
          · by_cases h4 : a = '"'
            · subst h4; decide
            · by_cases h5 : a = '\x27'
              · subst h5; decide
              · simp [replaceCharBy, h1, h2, h3, h4, h5, xmlEntity]
    rw [hhead]
    simp [List.flatMap_cons]

/-- **C8.** `escapeXmlValue` first strips every control character
forbidden in XML 1.0 (0x00-0x08, 0x0B-0x0C, 0x0E-0x1F) and then escapes
`&`, `<`, `>`, `"`, `'` as their entities, ampersand first, so the net
effect is a single simultaneous entity substitution on the stripped text
and no entity is ever double-escaped; in particular a value containing
`&`, `<`, `>` (and a forbidden control character) yields exactly the
escaped entities. -/
theorem C8_escapeXmlValue_strips_then_escapes :
    (∀ value : String,
      (escapeXmlValue value).toList =
        (value.toList.filter (fun c => !(isForbiddenControl c))).flatMap xmlEntity) ∧
      escapeXmlValue "A&B<C>\x01D\"E\x27F" = "A&amp;B&lt;C&gt;D&quot;E&apos;F" := by
  constructor
  · intro value
    by_cases h : value = ""
    · subst h; simp [escapeXmlValue]
    · simp only [escapeXmlValue, if_neg h, String.toList]
      exact escape_chain_eq _
  · decide

/-! ## POSIX part-path resolution (merged.js lines 1254-1265)

`resolveRelationshipPath` and `relativePath` are thin wrappers around
Node's `path.posix.dirname` / `join` / `normalize` / `relative`.  Those
library routines are embedded here segment-wise for the slash-separated
relative part paths the engine works on: `split("/")`, segment
normalization (dropping empty and `.` segments, `..` popping a previous
segment), `join("/")`, and `relative` as the usual
common-prefix/parent-steps computation. -/

/-- `".."` as a segment. -/
def dotdot : List Char := ['.', '.']

/-- `"."` as a segment. -/
def dotSeg : List Char := ['.']

/-- Split a character list at `'/'` (the segment decomposition performed
by `path.posix` routines).  Always returns at least one segment. -/
def splitSegsAux (cur : List Char) : List Char → List (List Char)
  | [] => [cur.reverse]
  | c :: rest =>
    if c = '/' then cur.reverse :: splitSegsAux [] rest
    else splitSegsAux (c :: cur) rest

/-- Segment decomposition of a path. -/
def splitSegs (l : List Char) : List (List Char) := splitSegsAux [] l

/-- Join segments with `'/'` separators. -/
def joinSegsChars : List (List Char) → List Char
  | [] => []
  | [s] => s
  | s :: rest => s ++ '/' :: joinSegsChars rest

/-- `path.posix.normalize` segment processing for relative paths: empty
and `"."` segments are dropped, `".."` pops the previous segment when
one is available and is kept otherwise. -/
def normSegsAux (acc : List (List Char)) : List (List Char) → List (List Char)
  | [] => acc.reverse
  | seg :: rest =>
    if seg = [] ∨ seg = dotSeg then normSegsAux acc rest
    else if seg = dotdot then
      match acc with
      | [] => normSegsAux [dotdot] rest
      | top :: accRest =>
        if top = dotdot then normSegsAux (dotdot :: top :: accRest) rest
        else normSegsAux accRest rest
    else normSegsAux (seg :: acc) rest

/-- `path.posix.normalize` on a relative part path (empty result becomes
`"."`, as in Node). -/
def posixNormalize (s : String) : String :=
  let r := joinSegsChars (normSegsAux [] (splitSegs s.toList))
  if r = [] then "." else String.mk r

/-- `path.posix.dirname` for the relative part paths used by the engine:
everything before the last `'/'`, or `"."` when there is no slash. -/
def posixDirname (s : String) : String :=
  let segs := splitSegs s.toList
  if segs.length ≤ 1 then "." else String.mk (joinSegsChars segs.dropLast)

/-- Length of the common segment-wise prefix of two paths. -/
def commonCount : List (List Char) → List (List Char) → ℕ
  | a :: as, b :: bs => if a = b then commonCount as bs + 1 else 0
  | _, _ => 0

/-- `path.posix.relative` on the relative part paths used by the engine:
normalize both paths, drop the common segment prefix, climb with `".."`
once per remaining source segment, then descend into the remaining
target segments. -/
def posixRelative (f t : String) : String :=
  let fs := normSegsAux [] (splitSegs f.toList)
  let ts := normSegsAux [] (splitSegs t.toList)
  let c := commonCount fs ts
  String.mk (joinSegsChars (List.replicate (fs.length - c) dotdot ++ ts.drop c))

/-- `resolveRelationshipPath` (merged.js lines 1254-1257):
`path.posix.normalize(path.posix.join(path.posix.dirname(from), target))`,
where `join` of two non-empty components concatenates with a slash
before normalizing. -/
def resolveRelationshipPath (fromPath target : String) : String :=
  posixNormalize (posixDirname fromPath ++ "/" ++ target)

/-- The `.replace(/^\.\//g, "")` step of `relativePath`: the regex is
anchored, so exactly one leading `"./"` is removed. -/
def stripDotSlash (cs : List Char) : List Char :=
  if cs.take 2 = ['.', '/'] then cs.drop 2 else cs

/-- The `.replace(/\\/g, "/")` step of `relativePath`. -/
def backslashToSlash (cs : List Char) : List Char :=
  cs.map (fun c => if c = '\\' then '/' else c)

/-- `relativePath` (merged.js lines 1259-1265): `path.posix.relative`
from the directory of `fromPath` to `toPath`, backslashes replaced by
slashes, then one leading `"./"` stripped. -/
def relativePath (fromPath toPath : String) : String :=
  String.mk (stripDotSlash (backslashToSlash
    (posixRelative (posixDirname fromPath) toPath).toList))

/-! ### Path lemmas -/

theorem splitSegsAux_ne_nil (l : List Char) : ∀ cur, splitSegsAux cur l ≠ [] := by
  induction l with
  | nil => intro cur; simp [splitSegsAux]
  | cons c rest ih =>
    intro cur
    by_cases h : c = '/'
    · simp [splitSegsAux, h]
    · simp only [splitSegsAux, if_neg h]
      exact ih (c :: cur)

theorem joinSegsChars_cons (s : List Char) (rest : List (List Char)) (h : rest ≠ []) :
    joinSegsChars (s :: rest) = s ++ '/' :: joinSegsChars rest := by
  match rest, h with
  | r :: rs, _ => rfl

theorem join_splitSegsAux (l : List Char) :
    ∀ cur, joinSegsChars (splitSegsAux cur l) = cur.reverse ++ l := by
  induction l with
  | nil => intro cur; simp [splitSegsAux, joinSegsChars]
  | cons c rest ih =>
    intro cur
    by_cases h : c = '/'
    · subst h
      rw [splitSegsAux, if_pos rfl,
        joinSegsChars_cons _ _ (splitSegsAux_ne_nil rest []), ih []]
      simp
    · rw [splitSegsAux, if_neg h, ih (c :: cur)]
      simp

theorem join_splitSegs (l : List Char) : joinSegsChars (splitSegs l) = l := by
  rw [splitSegs, join_splitSegsAux]
  simp

theorem splitSegsAux_append_noslash (s : List Char) (hs : '/' ∉ s) :
    ∀ cur rest, splitSegsAux cur (s ++ rest) = splitSegsAux (s.reverse ++ cur) rest := by
  induction s with
  | nil => intro cur rest; simp
  | cons c s ih =>
    intro cur rest
    have hc : c ≠ '/' := fun h => hs (by simp [h])
    have hs' : '/' ∉ s := fun h => hs (by simp [h])
    rw [List.cons_append, splitSegsAux, if_neg (fun h => hc (by rw [h])), ih hs']
    simp

theorem splitSegs_join_good :
    ∀ ds : List (List Char), ds ≠ [] → (∀ s ∈ ds, '/' ∉ s) →
      splitSegs (joinSegsChars ds) = ds := by
  intro ds
  induction ds with
  | nil => intro h; exact absurd rfl h
  | cons s ds ih =>
    intro _ hgood
    by_cases hds : ds = []
    · subst hds
      show splitSegsAux [] (joinSegsChars [s]) = [s]
      have : joinSegsChars [s] = s ++ [] := by simp [joinSegsChars]
      rw [this, splitSegsAux_append_noslash s (hgood s (by simp)) [] []]
      simp [splitSegsAux]
    · rw [joinSegsChars_cons s ds hds]
      show splitSegsAux [] (s ++ '/' :: joinSegsChars ds) = s :: ds
      rw [splitSegsAux_append_noslash s (hgood s (by simp)) [] ('/' :: joinSegsChars ds)]
      rw [splitSegsAux, if_pos rfl]
      have := ih hds (fun t ht => hgood t (by simp [ht]))
      rw [splitSegs] at this
      rw [this]
      simp

theorem splitSegs_join_slash (ds : List (List Char)) (y : List Char)
    (hne : ds ≠ []) (hgood : ∀ s ∈ ds, '/' ∉ s) :
    splitSegs (joinSegsChars ds ++ '/' :: y) = ds ++ splitSegs y := by
  induction ds with
  | nil => exact absurd rfl hne
  | cons s ds ih =>
    by_cases hds : ds = []
    · subst hds
      have hj : joinSegsChars [s] = s := by simp [joinSegsChars]
      rw [hj]
      show splitSegsAux [] (s ++ '/' :: y) = [s] ++ splitSegs y
      rw [splitSegsAux_append_noslash s (hgood s (by simp)) [] ('/' :: y),
        splitSegsAux, if_pos rfl]
      simp [splitSegs]
    · rw [joinSegsChars_cons s ds hds]
      show splitSegsAux [] ((s ++ '/' :: joinSegsChars ds) ++ '/' :: y) = _
      rw [List.cons_append, List.append_assoc]
      rw [splitSegsAux_append_noslash s (hgood s (by simp)) []]
      rw [List.cons_append, splitSegsAux, if_pos rfl]
      have := ih hds (fun t ht => hgood t (by simp [ht]))
      rw [splitSegs] at this
      rw [this]
      simp

theorem normSegsAux_nil (acc : List (List Char)) : normSegsAux acc [] = acc.reverse := rfl

theorem normSegsAux_cons (acc : List (List Char)) (seg : List Char)
    (rest : List (List Char)) :
    normSegsAux acc (seg :: rest) =
      if seg = [] ∨ seg = dotSeg then normSegsAux acc rest
      else if seg = dotdot then
        (match acc with
          | [] => normSegsAux [dotdot] rest
          | top :: accRest =>
            if top = dotdot then normSegsAux (dotdot :: top :: accRest) rest
            else normSegsAux accRest rest)
      else normSegsAux (seg :: acc) rest := rfl

theorem normSegsAux_goodSegs :
    ∀ (segs : List (List Char)) (acc : List (List Char)) (rest : List (List Char)),
      (∀ s ∈ segs, s ≠ [] ∧ s ≠ dotSeg ∧ s ≠ dotdot) →
      normSegsAux acc (segs ++ rest) = normSegsAux (segs.reverse ++ acc) rest := by
  intro segs
  induction segs with
  | nil => intro acc rest _; rfl
  | cons s segs ih =>
    intro acc rest hgood
    obtain ⟨h1, h2, h3⟩ := hgood s (by simp)
    rw [List.cons_append, normSegsAux_cons, if_neg (by simp [h1, h2]), if_neg h3,
      ih (s :: acc) rest (fun t ht => hgood t (by simp [ht]))]
    simp

theorem normSegsAux_pop :
    ∀ (pre acc rest : List (List Char)),
      (∀ s ∈ pre, s ≠ dotdot) →
      normSegsAux (pre ++ acc) (List.replicate pre.length dotdot ++ rest) =
        normSegsAux acc rest := by
  intro pre
  induction pre with
  | nil => intro acc rest _; rfl
  | cons p pre ih =>
    intro acc rest hgood
    have hdd : (dotdot : List Char) ≠ [] ∧ (dotdot : List Char) ≠ dotSeg := by
      constructor <;> simp [dotdot, dotSeg]
    rw [List.length_cons, List.replicate_succ, List.cons_append, List.cons_append,
      normSegsAux_cons, if_neg (by simp [hdd.1, hdd.2]), if_pos rfl]
    simp only
    rw [if_neg (hgood p (by simp))]
    exact ih acc rest (fun t ht => hgood t (by simp [ht]))

theorem commonCount_le_left : ∀ a b : List (List Char), commonCount a b ≤ a.length := by
  intro a
  induction a with
  | nil => intro b; cases b <;> simp [commonCount]
  | cons x a ih =>
    intro b
    cases b with
    | nil => simp [commonCount]
    | cons y b =>
      by_cases h : x = y
      · rw [commonCount, if_pos h]
        have := ih b
        simp only [List.length_cons]
        omega
      · rw [commonCount, if_neg h]
        omega

theorem commonCount_le_right : ∀ a b : List (List Char), commonCount a b ≤ b.length := by
  intro a
  induction a with
  | nil => intro b; cases b <;> simp [commonCount]
  | cons x a ih =>
    intro b
    cases b with
    | nil => simp [commonCount]
    | cons y b =>
      by_cases h : x = y
      · rw [commonCount, if_pos h]
        have := ih b
        simp only [List.length_cons]
        omega
      · rw [commonCount, if_neg h]
        omega

theorem take_commonCount_eq :
    ∀ a b : List (List Char), a.take (commonCount a b) = b.take (commonCount a b) := by
  intro a
  induction a with
  | nil => intro b; cases b <;> simp [commonCount]
  | cons x a ih =>
    intro b
    cases b with
    | nil => simp [commonCount]
    | cons y b =>
      by_cases h : x = y
      · rw [commonCount, if_pos h]
        simp [List.take_succ_cons, h, ih b]
      · rw [commonCount, if_neg h]
        simp

theorem mem_joinSegsChars :
    ∀ (segs : List (List Char)) (c : Char),
      c ∈ joinSegsChars segs → c = '/' ∨ ∃ s ∈ segs, c ∈ s := by
  intro segs
  induction segs with
  | nil => intro c hc; simp [joinSegsChars] at hc
  | cons s segs ih =>
    intro c hc
    by_cases hsegs : segs = []
    · subst hsegs
      simp only [joinSegsChars] at hc
      exact Or.inr ⟨s, by simp, hc⟩
    · rw [joinSegsChars_cons s segs hsegs] at hc
      rcases List.mem_append.mp hc with h | h
      · exact Or.inr ⟨s, by simp, h⟩
      · rcases List.mem_cons.mp h with h | h
        · exact Or.inl h
        · rcases ih c h with h | ⟨t, ht, hct⟩
          · exact Or.inl h
          · exact Or.inr ⟨t, by simp [ht], hct⟩

theorem joinSegsChars_ne_nil (segs : List (List Char)) (hne : segs ≠ [])
    (hs : ∀ s ∈ segs, s ≠ []) : joinSegsChars segs ≠ [] := by
  match segs, hne with
  | [s], _ =>
    simpa [joinSegsChars] using hs s (by simp)
  | s :: t :: rest, _ =>
    rw [joinSegsChars_cons s (t :: rest) (by simp)]
    simp

theorem backslashToSlash_not_mem (cs : List Char) : '\\' ∉ backslashToSlash cs := by
  intro h
  rw [backslashToSlash] at h
  rcases List.mem_map.mp h with ⟨c, _, hc⟩
  by_cases hb : c = '\\' <;> simp [hb] at hc

theorem backslashToSlash_eq_self : ∀ cs : List Char, '\\' ∉ cs →
    backslashToSlash cs = cs := by
  intro cs
  induction cs with
  | nil => intro _; rfl
  | cons c cs ih =>
    intro h
    have hc : c ≠ '\\' := fun hcc => h (by simp [hcc])
    have ht := ih (fun hm => h (by simp [hm]))
    rw [backslashToSlash, List.map_cons, if_neg hc]
    rw [backslashToSlash] at ht
    rw [ht]

theorem stripDotSlash_subset (cs : List Char) : ∀ c ∈ stripDotSlash cs, c ∈ cs := by
  intro c hc
  rw [stripDotSlash] at hc
  split at hc
  · exact List.drop_subset 2 cs hc
  · exact hc

theorem join_take2_ne_dotSlash (R : List (List Char))
    (h : ∀ s ∈ R, s ≠ [] ∧ s ≠ dotSeg ∧ '/' ∉ s) :
    (joinSegsChars R).take 2 ≠ ['.', '/'] := by
  cases R with
  | nil => simp [joinSegsChars]
  | cons r R =>
    obtain ⟨hr1, hr2, hr3⟩ := h r (by simp)
    match r, hr1 with
    | [c], _ =>
      have hc : c ≠ '.' := by
        intro hcc; exact hr2 (by simp [hcc, dotSeg])
      by_cases hR : R = []
      · subst hR
        simp [joinSegsChars, hc]
      · rw [joinSegsChars_cons [c] R hR]
        simp [hc]
    | c1 :: c2 :: r', _ =>
      have hc2 : c2 ≠ '/' := fun hcc => hr3 (by simp [hcc])
      by_cases hR : R = []
      · subst hR
        simp [joinSegsChars, hc2]
      · rw [joinSegsChars_cons _ R hR]
        simp [hc2]

theorem stripDotSlash_eq_self (R : List (List Char))
    (h : ∀ s ∈ R, s ≠ [] ∧ s ≠ dotSeg ∧ '/' ∉ s) :
    stripDotSlash (joinSegsChars R) = joinSegsChars R := by
  rw [stripDotSlash, if_neg (join_take2_ne_dotSlash R h)]

theorem mk_toList (l : List Char) : (String.mk l).toList = l := rfl

theorem mk_of_toList (s : String) : String.mk s.toList = s := rfl

theorem normSegsAux_id (segs : List (List Char))
    (h : ∀ s ∈ segs, s ≠ [] ∧ s ≠ dotSeg ∧ s ≠ dotdot) :
    normSegsAux [] segs = segs := by
  have := normSegsAux_goodSegs segs [] [] h
  simpa [normSegsAux_nil] using this

theorem splitSegsAux_no_slash :
    ∀ (l cur : List Char), (∀ x ∈ cur, x ≠ '/') →
      ∀ s ∈ splitSegsAux cur l, '/' ∉ s := by
  intro l
  induction l with
  | nil =>
    intro cur hcur s hs
    simp only [splitSegsAux, List.mem_singleton] at hs
    subst hs
    intro hmem
    exact hcur '/' (List.mem_reverse.mp hmem) rfl
  | cons c rest ih =>
    intro cur hcur s hs
    by_cases hc : c = '/'
    · rw [splitSegsAux, if_pos hc] at hs
      rcases List.mem_cons.mp hs with rfl | hs'
      · intro hmem
        exact hcur '/' (List.mem_reverse.mp hmem) rfl
      · exact ih [] (by simp) s hs'
    · rw [splitSegsAux, if_neg hc] at hs
      refine ih (c :: cur) ?_ s hs
      intro x hx
      rcases List.mem_cons.mp hx with rfl | hx'
      · exact hc
      · exact hcur x hx'

theorem splitSegs_no_slash (l : List Char) : ∀ s ∈ splitSegs l, '/' ∉ s :=
  splitSegsAux_no_slash l [] (by simp)

theorem splitSegsAux_chars :
    ∀ (l cur : List Char) (s : List Char), s ∈ splitSegsAux cur l →
      ∀ x ∈ s, x ∈ cur ∨ x ∈ l := by
  intro l
  induction l with
  | nil =>
    intro cur s hs x hx
    simp only [splitSegsAux, List.mem_singleton] at hs
    subst hs
    exact Or.inl (List.mem_reverse.mp hx)
  | cons c rest ih =>
    intro cur s hs x hx
    by_cases hc : c = '/'
    · rw [splitSegsAux, if_pos hc] at hs
      rcases List.mem_cons.mp hs with rfl | hs'
      · exact Or.inl (List.mem_reverse.mp hx)
      · rcases ih [] s hs' x hx with h | h
        · simp at h
        · exact Or.inr (by simp [h])
    · rw [splitSegsAux, if_neg hc] at hs
      rcases ih (c :: cur) s hs x hx with h | h
      · rcases List.mem_cons.mp h with rfl | h'
        · exact Or.inr (by simp)
        · exact Or.inl h'
      · exact Or.inr (by simp [h])

theorem normSegsAux_mem :
    ∀ (segs acc : List (List Char)) (s : List Char),
      s ∈ normSegsAux acc segs → s ∈ acc ∨ s ∈ segs ∨ s = dotdot := by
  intro segs
  induction segs with
  | nil =>
    intro acc s hs
    rw [normSegsAux_nil] at hs
    exact Or.inl (List.mem_reverse.mp hs)
  | cons seg rest ih =>
    intro acc s hs
    rw [normSegsAux_cons] at hs
    by_cases h1 : seg = [] ∨ seg = dotSeg
    · rw [if_pos h1] at hs
      rcases ih acc s hs with h | h | h
      · exact Or.inl h
      · exact Or.inr (Or.inl (by simp [h]))
      · exact Or.inr (Or.inr h)
    · rw [if_neg h1] at hs
      by_cases h2 : seg = dotdot
      · rw [if_pos h2] at hs
        cases acc with
        | nil =>
          rcases ih [dotdot] s hs with h | h | h
          · exact Or.inr (Or.inr (List.mem_singleton.mp h))
          · exact Or.inr (Or.inl (by simp [h]))
          · exact Or.inr (Or.inr h)
        | cons top accRest =>
          dsimp only at hs
          by_cases h3 : top = dotdot
          · rw [if_pos h3] at hs
            rcases ih (dotdot :: top :: accRest) s hs with h | h | h
            · rcases List.mem_cons.mp h with rfl | h'
              · exact Or.inr (Or.inr rfl)
              · exact Or.inl h'
            · exact Or.inr (Or.inl (by simp [h]))
            · exact Or.inr (Or.inr h)
          · rw [if_neg h3] at hs
            rcases ih accRest s hs with h | h | h
            · exact Or.inl (by simp [h])
            · exact Or.inr (Or.inl (by simp [h]))
            · exact Or.inr (Or.inr h)
      · rw [if_neg h2] at hs
        rcases ih (seg :: acc) s hs with h | h | h
        · rcases List.mem_cons.mp h with rfl | h'
          · exact Or.inr (Or.inl (by simp))
          · exact Or.inl h'
        · exact Or.inr (Or.inl (by simp [h]))
        · exact Or.inr (Or.inr h)

theorem normSegsAux_ne_nil_dot :
    ∀ (segs acc : List (List Char)),
      (∀ x ∈ acc, x ≠ [] ∧ x ≠ dotSeg) →
      ∀ s ∈ normSegsAux acc segs, s ≠ [] ∧ s ≠ dotSeg := by
  intro segs
  induction segs with
  | nil =>
    intro acc hacc s hs
    rw [normSegsAux_nil] at hs
    exact hacc s (List.mem_reverse.mp hs)
  | cons seg rest ih =>
    intro acc hacc s hs
    rw [normSegsAux_cons] at hs
    have hdd : (dotdot : List Char) ≠ [] ∧ (dotdot : List Char) ≠ dotSeg := by
      constructor <;> simp [dotdot, dotSeg]
    by_cases h1 : seg = [] ∨ seg = dotSeg
    · rw [if_pos h1] at hs
      exact ih acc hacc s hs
    · rw [if_neg h1] at hs
      push_neg at h1
      by_cases h2 : seg = dotdot
      · rw [if_pos h2] at hs
        cases acc with
        | nil =>
          refine ih [dotdot] ?_ s hs
          intro x hx
          rw [List.mem_singleton.mp hx]
          exact hdd
        | cons top accRest =>
          dsimp only at hs
          by_cases h3 : top = dotdot
          · rw [if_pos h3] at hs
            refine ih (dotdot :: top :: accRest) ?_ s hs
            intro x hx
            rcases List.mem_cons.mp hx with rfl | hx'
            · exact hdd
            · exact hacc x hx'
          · rw [if_neg h3] at hs
            refine ih accRest ?_ s hs
            intro x hx
            exact hacc x (by simp [hx])
      · rw [if_neg h2] at hs
        refine ih (seg :: acc) ?_ s hs
        intro x hx
        rcases List.mem_cons.mp hx with rfl | hx'
        · exact h1
        · exact hacc x hx'

theorem norm_resolve_core (ds ts : List (List Char))
    (hds : ∀ s ∈ ds, s ≠ [] ∧ s ≠ dotSeg ∧ s ≠ dotdot)
    (hts : ∀ s ∈ ts, s ≠ [] ∧ s ≠ dotSeg ∧ s ≠ dotdot) :
    normSegsAux []
      (ds ++ (List.replicate (ds.length - commonCount ds ts) dotdot ++
        ts.drop (commonCount ds ts))) = ts := by
  have hc1 := commonCount_le_left ds ts
  have htake := take_commonCount_eq ds ts
  rw [normSegsAux_goodSegs ds [] _ hds]
  have hrev : ds.reverse ++ [] =
      (ds.drop (commonCount ds ts)).reverse ++ (ds.take (commonCount ds ts)).reverse := by
    rw [List.append_nil, ← List.reverse_append, List.take_append_drop]
  rw [hrev]
  have hlen : (ds.drop (commonCount ds ts)).reverse.length =
      ds.length - commonCount ds ts := by
    simp
  rw [← hlen]
  rw [normSegsAux_pop (ds.drop (commonCount ds ts)).reverse
    (ds.take (commonCount ds ts)).reverse (ts.drop (commonCount ds ts))
    (fun s hsm => (hds s (List.drop_subset _ ds (List.mem_reverse.mp hsm))).2.2)]
  have h2 := normSegsAux_goodSegs (ts.drop (commonCount ds ts))
    (ds.take (commonCount ds ts)).reverse []
    (fun s hsm => hts s (List.drop_subset _ ts hsm))
  rw [List.append_nil] at h2
  rw [h2, normSegsAux_nil]
  rw [List.reverse_append, List.reverse_reverse, List.reverse_reverse]
  rw [htake, List.take_append_drop]

/-- A clean path segment: non-empty, not `"."`, not `".."`, no slash and
no backslash.  Part paths such as `ppt/slides/slide3.xml` consist of
such segments. -/
def goodSeg (s : List Char) : Prop :=
  s ≠ [] ∧ s ≠ dotSeg ∧ s ≠ dotdot ∧ '/' ∉ s ∧ '\\' ∉ s

instance (s : List Char) : Decidable (goodSeg s) := by
  unfold goodSeg
  infer_instance

theorem posixDirname_eq (fromPath : String) (ds : List (List Char)) (base : List Char)
    (hfrom : splitSegs fromPath.toList = ds ++ [base]) (hds : ds ≠ []) :
    posixDirname fromPath = String.mk (joinSegsChars ds) := by
  rw [posixDirname, hfrom]
  have hlen : (ds ++ [base]).length = ds.length + 1 := by simp
  have hge : 1 ≤ ds.length := List.length_pos.mpr hds
  rw [if_neg (by omega), List.dropLast_concat]

theorem relativePath_eq (fromPath toPath : String) (ds : List (List Char))
    (base : List Char) (ts : List (List Char))
    (hfrom : splitSegs fromPath.toList = ds ++ [base])
    (hds : ds ≠ []) (hdsGood : ∀ s ∈ ds, goodSeg s)
    (hto : splitSegs toPath.toList = ts) (htsGood : ∀ s ∈ ts, goodSeg s) :
    relativePath fromPath toPath =
      String.mk (joinSegsChars
        (List.replicate (ds.length - commonCount ds ts) dotdot ++
          ts.drop (commonCount ds ts))) := by
  have hdir := posixDirname_eq fromPath ds base hfrom hds
  have hdsG3 : ∀ s ∈ ds, s ≠ [] ∧ s ≠ dotSeg ∧ s ≠ dotdot :=
    fun s hsm => ⟨(hdsGood s hsm).1, (hdsGood s hsm).2.1, (hdsGood s hsm).2.2.1⟩
  have htsG3 : ∀ s ∈ ts, s ≠ [] ∧ s ≠ dotSeg ∧ s ≠ dotdot :=
    fun s hsm => ⟨(htsGood s hsm).1, (htsGood s hsm).2.1, (htsGood s hsm).2.2.1⟩
  have hrel : posixRelative (posixDirname fromPath) toPath =
      String.mk (joinSegsChars
        (List.replicate (ds.length - commonCount ds ts) dotdot ++
          ts.drop (commonCount ds ts))) := by
    rw [hdir, posixRelative, mk_toList,
      splitSegs_join_good ds hds (fun s hsm => (hdsGood s hsm).2.2.2.1), hto,
      normSegsAux_id ds hdsG3, normSegsAux_id ts htsG3]
  have hRGood : ∀ s ∈ (List.replicate (ds.length - commonCount ds ts) dotdot ++
      ts.drop (commonCount ds ts)), s ≠ [] ∧ s ≠ dotSeg ∧ '/' ∉ s := by
    intro s hsm
    rcases List.mem_append.mp hsm with h | h
    · rw [List.eq_of_mem_replicate h]
      refine ⟨by simp [dotdot], by simp [dotdot, dotSeg], by simp [dotdot]⟩
    · have := htsGood s (List.drop_subset _ ts h)
      exact ⟨this.1, this.2.1, this.2.2.2.1⟩
  have hnoBS : '\\' ∉ joinSegsChars (List.replicate (ds.length - commonCount ds ts)
      dotdot ++ ts.drop (commonCount ds ts)) := by
    intro hmem
    rcases mem_joinSegsChars _ _ hmem with h | ⟨s, hsm, hcs⟩
    · exact absurd h (by decide)
    · rcases List.mem_append.mp hsm with h | h
      · rw [List.eq_of_mem_replicate h] at hcs
        simp [dotdot] at hcs
      · exact (htsGood s (List.drop_subset _ ts h)).2.2.2.2 hcs
  rw [relativePath, hrel, mk_toList, backslashToSlash_eq_self _ hnoBS,
    stripDotSlash_eq_self _ hRGood]

/-- **C10.** `resolveRelationshipPath` and `relativePath` are mutually
inverse: for every part path `fromPath` lying in a subdirectory of the
package (its segment decomposition is `ds ++ [base]` with `ds` non-empty
and clean) and every normalized part path `toPath` (non-empty clean
segments, no `"."`/`".."`),
`resolveRelationshipPath fromPath (relativePath fromPath toPath) = toPath`;
moreover `relativePath` never emits a backslash, and (for inputs free of
backslashes) its result never starts with `"./"`. -/
theorem C10_resolve_relativize_inverse (fromPath toPath : String)
    (ds : List (List Char)) (base : List Char) (ts : List (List Char))
    (hfrom : splitSegs fromPath.toList = ds ++ [base])
    (hds : ds ≠ []) (hdsGood : ∀ s ∈ ds, goodSeg s)
    (hto : splitSegs toPath.toList = ts)
    (hts : ts ≠ []) (htsGood : ∀ s ∈ ts, goodSeg s) :
    resolveRelationshipPath fromPath (relativePath fromPath toPath) = toPath ∧
      (∀ f t : String, '\\' ∉ (relativePath f t).toList) ∧
      (∀ f t : String, '\\' ∉ f.toList → '\\' ∉ t.toList →
        (relativePath f t).toList.take 2 ≠ ['.', '/']) := by
  have hdsG3 : ∀ s ∈ ds, s ≠ [] ∧ s ≠ dotSeg ∧ s ≠ dotdot :=
    fun s hsm => ⟨(hdsGood s hsm).1, (hdsGood s hsm).2.1, (hdsGood s hsm).2.2.1⟩
  have htsG3 : ∀ s ∈ ts, s ≠ [] ∧ s ≠ dotSeg ∧ s ≠ dotdot :=
    fun s hsm => ⟨(htsGood s hsm).1, (htsGood s hsm).2.1, (htsGood s hsm).2.2.1⟩
  have hc1 := commonCount_le_left ds ts
  have hc2 := commonCount_le_right ds ts
  have htake := take_commonCount_eq ds ts
  have hrel := relativePath_eq fromPath toPath ds base ts hfrom hds hdsGood hto htsGood
  have htoMk : String.mk (joinSegsChars ts) = toPath := by
    have := join_splitSegs toPath.toList
    rw [hto] at this
    rw [this, mk_of_toList]
  refine ⟨?_, ?_, ?_⟩
  · rw [resolveRelationshipPath, hrel,
      posixDirname_eq fromPath ds base hfrom hds]
    have hcat :
        (String.mk (joinSegsChars ds) ++ "/" ++
          String.mk (joinSegsChars
            (List.replicate (ds.length - commonCount ds ts) dotdot ++
              ts.drop (commonCount ds ts)))).toList =
          joinSegsChars ds ++ '/' ::
            joinSegsChars (List.replicate (ds.length - commonCount ds ts) dotdot ++
              ts.drop (commonCount ds ts)) := by
      show (String.mk (joinSegsChars ds) ++ "/" ++ String.mk _).data = _
      rw [String.data_append, String.data_append]
      show joinSegsChars ds ++ ['/'] ++ _ = _
      rw [List.append_assoc]
      rfl
    rw [posixNormalize, hcat]
    by_cases hR : (List.replicate (ds.length - commonCount ds ts) dotdot ++
        ts.drop (commonCount ds ts)) = []
    · have h1 : ds.length - commonCount ds ts = 0 := by
        rcases List.append_eq_nil.mp hR with ⟨h1, _⟩
        simpa using congrArg List.length h1
      have h2 : ts.drop (commonCount ds ts) = [] := (List.append_eq_nil.mp hR).2
      have h2' : ts.length ≤ commonCount ds ts := by
        have := congrArg List.length h2
        simp at this
        omega
      have hdts : ds = ts := by
        have hta : ds.take (commonCount ds ts) = ds := by
          apply List.take_of_length_le
          omega
        have htb : ts.take (commonCount ds ts) = ts := List.take_of_length_le h2'
        rw [← hta, htake, htb]
      rw [hR]
      have hsplit : splitSegs (joinSegsChars ds ++ '/' :: joinSegsChars []) =
          ds ++ [[]] := by
        have : joinSegsChars ([] : List (List Char)) = [] := rfl
        rw [this]
        rw [splitSegs_join_slash ds [] hds (fun s hsm => (hdsGood s hsm).2.2.2.1)]
        rfl
      rw [hsplit, normSegsAux_goodSegs ds [] [[]] hdsG3, normSegsAux_cons,
        if_pos (Or.inl rfl), normSegsAux_nil]
      simp only [List.append_nil, List.reverse_reverse]
      rw [if_neg (joinSegsChars_ne_nil ds hds (fun s hsm => (hdsGood s hsm).1))]
      rw [hdts, htoMk]
    · have hRslash : ∀ s ∈ (List.replicate (ds.length - commonCount ds ts) dotdot ++
          ts.drop (commonCount ds ts)), '/' ∉ s := by
        intro s hsm
        rcases List.mem_append.mp hsm with h | h
        · rw [List.eq_of_mem_replicate h]; simp [dotdot]
        · exact (htsGood s (List.drop_subset _ ts h)).2.2.2.1
      rw [splitSegs_join_slash ds _ hds (fun s hsm => (hdsGood s hsm).2.2.2.1),
        splitSegs_join_good _ hR hRslash, norm_resolve_core ds ts hdsG3 htsG3]
      rw [if_neg (joinSegsChars_ne_nil ts hts (fun s hsm => (htsGood s hsm).1))]
      exact htoMk
  · intro f t
    rw [relativePath, mk_toList]
    intro hmem
    exact backslashToSlash_not_mem _ (stripDotSlash_subset _ _ hmem)
  · intro f t hf ht
    rw [relativePath, mk_toList]
    have hsplitF : ∀ s ∈ splitSegs (posixDirname f).toList, '\\' ∉ s := by
      intro s hsm hx
      have hchars := splitSegsAux_chars (posixDirname f).toList [] s hsm '\\' hx
      rcases hchars with h | h
      · simp at h
      · rw [posixDirname] at h
        by_cases hlen : (splitSegs f.toList).length ≤ 1
        · rw [if_pos hlen] at h
          revert h
          decide
        · rw [if_neg hlen, mk_toList] at h
          rcases mem_joinSegsChars _ _ h with h' | ⟨u, hu, hcu⟩
          · exact absurd h' (by decide)
          · have := splitSegsAux_chars f.toList [] u
              (List.dropLast_subset _ hu) '\\' hcu
            rcases this with h'' | h''
            · simp at h''
            · exact hf h''
    have hsplitT : ∀ s ∈ splitSegs t.toList, '\\' ∉ s := by
      intro s hsm hx
      rcases splitSegsAux_chars t.toList [] s hsm '\\' hx with h | h
      · simp at h
      · exact ht h
    set fs := normSegsAux [] (splitSegs (posixDirname f).toList) with hfs
    set ts' := normSegsAux [] (splitSegs t.toList) with hts'
    have hRprops : ∀ s ∈ (List.replicate (fs.length - commonCount fs ts') dotdot ++
        ts'.drop (commonCount fs ts')),
        s ≠ [] ∧ s ≠ dotSeg ∧ '/' ∉ s ∧ '\\' ∉ s := by
      intro s hsm
      rcases List.mem_append.mp hsm with h | h
      · rw [List.eq_of_mem_replicate h]
        exact ⟨by simp [dotdot], by simp [dotdot, dotSeg], by simp [dotdot],
          by simp [dotdot]⟩
      · have hmem' : s ∈ ts' := List.drop_subset _ ts' h
        have hne := normSegsAux_ne_nil_dot (splitSegs t.toList) [] (by simp) s hmem'
        have hcases := normSegsAux_mem (splitSegs t.toList) [] s hmem'
        refine ⟨hne.1, hne.2, ?_, ?_⟩
        · rcases hcases with hh | hh | hh
          · simp at hh
          · exact splitSegs_no_slash t.toList s hh
          · rw [hh]; simp [dotdot]
        · rcases hcases with hh | hh | hh
          · simp at hh
          · exact hsplitT s hh
          · rw [hh]; simp [dotdot]
    have hnoBS : '\\' ∉ joinSegsChars (List.replicate (fs.length - commonCount fs ts')
        dotdot ++ ts'.drop (commonCount fs ts')) := by
      intro hmem
      rcases mem_joinSegsChars _ _ hmem with h | ⟨s, hsm, hcs⟩
      · exact absurd h (by decide)
      · exact (hRprops s hsm).2.2.2 hcs
    show (stripDotSlash (backslashToSlash (posixRelative (posixDirname f) t).toList)).take 2 ≠ _
    rw [posixRelative, mk_toList, ← hfs, ← hts', backslashToSlash_eq_self _ hnoBS,
      stripDotSlash_eq_self _ (fun s hsm =>
        ⟨(hRprops s hsm).1, (hRprops s hsm).2.1, (hRprops s hsm).2.2.1⟩)]
    exact join_take2_ne_dotSlash _ (fun s hsm =>
      ⟨(hRprops s hsm).1, (hRprops s hsm).2.1, (hRprops s hsm).2.2.1⟩)

/-- Witness for C10 at a concrete input: a slide part and a media part. -/
theorem C10_witness :
    resolveRelationshipPath "ppt/slides/slide5.xml"
        (relativePath "ppt/slides/slide5.xml" "ppt/media/template_media_3.png") =
      "ppt/media/template_media_3.png" :=
  (C10_resolve_relativize_inverse "ppt/slides/slide5.xml"
    "ppt/media/template_media_3.png"
    ["ppt".toList, "slides".toList] "slide5.xml".toList
    ["ppt".toList, "media".toList, "template_media_3.png".toList]
    (by decide) (by decide) (by decide) (by decide) (by decide) (by decide)).1

/-! ## Package model and asset cloning (merged.js lines 770-1047)

The PizZip container is modelled as an association list from part path to
part content.  Relationship parts are stored structurally
(`Content.rels`): `parseRelationships` / `buildRelationshipsXml`
(merged.js lines 1217-1252) are a regex parse / serialize pair whose XML
round-trip is abstracted away, so a relationship part's content is its
parsed relationship list. -/

/-- One `<Relationship Id=".." Type=".." Target=".."/>` triple.  The
source attribute names are `Id`, `Type`, `Target`. -/
structure Rel where
  relId : String
  relType : String
  target : String
  deriving DecidableEq, Repr

/-- Content of one zip part: XML text, binary media bytes, or a parsed
relationships part. -/
inductive Content
  | text (s : String)
  | binary (b : List Nat)
  | rels (rs : List Rel)
  deriving DecidableEq, Repr

/-- A PizZip container: part path to content, later writes shadowing
earlier ones. -/
abbrev Zip : Type := List (String × Content)

/-- `zip.file(path)` lookup. -/
def zipFile : Zip → String → Option Content
  | [], _ => none
  | e :: z, p => if e.1 = p then some e.2 else zipFile z p

/-- Dropping a path before overwriting it. -/
def zipRemove : Zip → String → Zip
  | [], _ => []
  | e :: z, p => if e.1 = p then zipRemove z p else e :: zipRemove z p

/-- `zip.file(path, content)` write: silently overwrites. -/
def zipPut (z : Zip) (p : String) (c : Content) : Zip :=
  (p, c) :: zipRemove z p

/-- Association-list lookup for the JavaScript `Map`s of the run state. -/
def lookupA {α : Type} : List (String × α) → String → Option α
  | [], _ => none
  | e :: m, k => if e.1 = k then some e.2 else lookupA m k

/-- `Map.set` for a key that is not present: append. -/
def insertA {α : Type} (m : List (String × α)) (k : String) (v : α) :
    List (String × α) :=
  m ++ [(k, v)]

/-- An entry of `[Content_Types].xml`: a `<Default>` (keyed by
extension) or an `<Override>` (keyed by part name).  The working string
copy of merged.js is modelled by its entry list; `ensureDefaultContentType`
inserts right after the `<Types>` open tag (front) while
`ensureContentType` inserts before `</Types>` (back). -/
inductive CTEntry
  | ctDefault (extension : String) (contentType : String)
  | ctOverride (partName : String) (contentType : String)
  deriving DecidableEq, Repr

/-- Case-insensitive string comparison, mirroring the `i` flag of the
`ensureContentType` / `ensureDefaultContentType` matching regexes. -/
def eqCI (a b : String) : Bool :=
  a.toList.map Char.toLower = b.toList.map Char.toLower

/-- Whether one entry is a `<Default>` for the given (lower-cased)
extension, compared case-insensitively. -/
def defaultMatches (ext : String) : CTEntry → Bool
  | .ctDefault x _ => eqCI x ext
  | .ctOverride _ _ => false

/-- Whether one entry is an `<Override>` for the given part name,
compared case-insensitively. -/
def overrideMatches (partName : String) : CTEntry → Bool
  | .ctDefault _ _ => false
  | .ctOverride p _ => eqCI p partName

/-- Whether some `<Default Extension="ext">` entry matches (merged.js
line 1013). -/
def hasDefaultFor (entries : List CTEntry) (ext : String) : Bool :=
  entries.any (defaultMatches ext)

/-- Whether some `<Override PartName="partName">` entry matches
(merged.js line 1031). -/
def hasOverrideFor (entries : List CTEntry) (partName : String) : Bool :=
  entries.any (overrideMatches partName)

/-- The `extension.replace(/^\./, "")` step. -/
def stripLeadingDot (s : String) : String :=
  if s.toList.take 1 = ['.'] then String.mk (s.toList.drop 1) else s

/-- Lowercasing, as in `.toLowerCase()`. -/
def lowerStr (s : String) : String := String.mk (s.toList.map Char.toLower)

/-- `ensureDefaultContentType` (merged.js lines 1008-1027). -/
def ensureDefaultContentType (entries : List CTEntry) (extension contentType : String) :
    List CTEntry :=
  let ext := lowerStr (stripLeadingDot extension)
  if hasDefaultFor entries ext then entries
  else .ctDefault ext contentType :: entries

/-- `ensureContentType` (merged.js lines 1029-1047). -/
def ensureContentType (entries : List CTEntry) (partName contentType : String) :
    List CTEntry :=
  if hasOverrideFor entries partName then entries
  else entries ++ [.ctOverride partName contentType]

/-- The relationship-type URIs (`REL_TYPES`, merged.js lines 474-485). -/
def REL_TYPE_slide : String :=
  "http://schemas.openxmlformats.org/officeDocument/2006/relationships/slide"

def REL_TYPE_slideLayout : String :=
  "http://schemas.openxmlformats.org/officeDocument/2006/relationships/slideLayout"

def REL_TYPE_slideMaster : String :=
  "http://schemas.openxmlformats.org/officeDocument/2006/relationships/slideMaster"

def REL_TYPE_theme : String :=
  "http://schemas.openxmlformats.org/officeDocument/2006/relationships/theme"

def REL_TYPE_image : String :=
  "http://schemas.openxmlformats.org/officeDocument/2006/relationships/image"

/-- The content-type strings (`CONTENT_TYPES`, merged.js lines 464-472). -/
def CONTENT_TYPE_slide : String :=
  "application/vnd.openxmlformats-officedocument.presentationml.slide+xml"

def CONTENT_TYPE_slideLayout : String :=
  "application/vnd.openxmlformats-officedocument.presentationml.slideLayout+xml"

def CONTENT_TYPE_slideMaster : String :=
  "application/vnd.openxmlformats-officedocument.presentationml.slideMaster+xml"

def CONTENT_TYPE_theme : String :=
  "application/vnd.openxmlformats-officedocument.theme+xml"

def CONTENT_TYPE_notesSlide : String :=
  "application/vnd.openxmlformats-officedocument.presentationml.notesSlide+xml"

/-- The `{newPath, themePath}` info record returned by
`ensureMasterAssets`. -/
structure MasterInfo where
  newPath : String
  themePath : Option String
  deriving DecidableEq, Repr

/-- The cloning fields of the run state created by `initializeState`:
the four memoization maps keyed by source path in the template package,
the file-number counters, the working copy of `[Content_Types].xml`, the
list of newly cloned masters, the growing output package, and the
console warnings emitted so far. -/
structure CloneState where
  layoutMap : List (String × String)
  masterMap : List (String × MasterInfo)
  themeMap : List (String × String)
  mediaMap : List (String × String)
  nextLayoutNumber : ℕ
  nextMasterNumber : ℕ
  nextThemeNumber : ℕ
  mediaCounter : ℕ
  contentTypes : List CTEntry
  newMastersList : List MasterInfo
  output : Zip
  warnings : List String
  deriving DecidableEq, Repr

/-- `parseRelationships` (merged.js lines 1217-1231) on structurally
stored relationship content; non-relationship content has no
`<Relationship/>` matches. -/
def parseRelationships : Content → List Rel
  | .rels rs => rs
  | _ => []

/-- `path.posix.basename`: the last `/`-separated segment. -/
def basenameStr (p : String) : String :=
  String.mk ((splitSegs p.toList).getLastD [])

/-- `layoutRelationshipsPath` (merged.js lines 1267-1270). -/
def layoutRelationshipsPath (layoutPath : String) : String :=
  "ppt/slideLayouts/_rels/" ++ basenameStr layoutPath ++ ".rels"

/-- `masterRelationshipsPath` (merged.js lines 1272-1275). -/
def masterRelationshipsPath (masterPath : String) : String :=
  "ppt/slideMasters/_rels/" ++ basenameStr masterPath ++ ".rels"

/-- `path.extname`: the extension of the basename, empty when the
basename has no dot or only a leading dot. -/
def extnameStr (p : String) : String :=
  let base := (splitSegs p.toList).getLastD []
  let afterRev := base.reverse.takeWhile (fun c => c ≠ '.')
  if afterRev.length = base.length then ""
  else if afterRev.length + 1 = base.length then ""
  else String.mk ('.' :: afterRev.reverse)

/-- Prefix test on strings (JavaScript `String.startsWith`). -/
def strStartsWith (s pre : String) : Bool :=
  pre.toList.isPrefixOf s.toList

/-- `copyMediaFile` (merged.js lines 965-980): memoized by source path;
a missing source is warned about and the original path returned with no
write; otherwise the bytes are copied to a fresh
`ppt/media/template_media_<n><ext>` name which is memoized. -/
def copyMediaFile (templateZip : Zip) (sourcePath : String) (st : CloneState) :
    String × CloneState :=
  match lookupA st.mediaMap sourcePath with
  | some newName => (newName, st)
  | none =>
    match zipFile templateZip sourcePath with
    | none =>
      (sourcePath,
        { st with warnings :=
            ("⚠️ 模板中引用了不存在的资源：" ++ sourcePath ++ "，已跳过复制。") ::
              st.warnings })
    | some file =>
      let ext0 := extnameStr sourcePath
      let ext := if ext0 = "" then ".bin" else ext0
      let newName := "ppt/media/template_media_" ++ toString st.mediaCounter ++ ext
      (newName,
        { st with
          mediaCounter := st.mediaCounter + 1,
          output := zipPut st.output newName file,
          mediaMap := insertA st.mediaMap sourcePath newName })

/-- `copyGenericPart` (merged.js lines 982-1005): copies a part under
`ppt/` verbatim to the same path unless the output already has it, and
registers the notes-slide content type for notes parts; always returns
the source path. -/
def copyGenericPart (templateZip : Zip) (sourcePath : String) (st : CloneState) :
    String × CloneState :=
  if !(strStartsWith sourcePath "ppt/") then (sourcePath, st)
  else if (zipFile st.output sourcePath).isSome then (sourcePath, st)
  else
    let st1 :=
      match zipFile templateZip sourcePath with
      | some part => { st with output := zipPut st.output sourcePath part }
      | none => st
    let st2 :=
      if strStartsWith sourcePath "ppt/notesSlides/" then
        { st1 with contentTypes :=
            ensureContentType st1.contentTypes ("/" ++ sourcePath) CONTENT_TYPE_notesSlide }
      else st1
    (sourcePath, st2)

/-- `ensureThemeAssets` (merged.js lines 943-963). -/
def ensureThemeAssets (templateZip : Zip) (templateThemePath : String)
    (st : CloneState) : Except String (String × CloneState) :=
  match lookupA st.themeMap templateThemePath with
  | some newPath => .ok (newPath, st)
  | none =>
    match zipFile templateZip templateThemePath with
    | none => .error ("模板缺少主题文件：" ++ templateThemePath)
    | some themeFile =>
      let newThemePath := "ppt/theme/theme" ++ toString st.nextThemeNumber ++ ".xml"
      .ok (newThemePath,
        { st with
          nextThemeNumber := st.nextThemeNumber + 1,
          output := zipPut st.output newThemePath themeFile,
          contentTypes :=
            ensureContentType st.contentTypes ("/" ++ newThemePath) CONTENT_TYPE_theme,
          themeMap := insertA st.themeMap templateThemePath newThemePath })

/-- The `relItems.map` body of `copyLayoutFromMaster` (merged.js lines
905-933), threading the run state left to right. -/
def processLayoutRels (templateZip : Zip)
    (templateLayoutPath newLayoutPath newMasterPath : String) :
    List Rel → CloneState → List Rel × CloneState
  | [], st => ([], st)
  | rel :: rest, st =>
    if rel.relType = REL_TYPE_slideMaster then
      let rel' := { rel with target := relativePath newLayoutPath newMasterPath }
      let q := processLayoutRels templateZip templateLayoutPath newLayoutPath
        newMasterPath rest st
      (rel' :: q.1, q.2)
    else if rel.relType = REL_TYPE_image then
      let mediaPath := resolveRelationshipPath templateLayoutPath rel.target
      let p := copyMediaFile templateZip mediaPath st
      let rel' := { rel with target := relativePath newLayoutPath p.1 }
      let q := processLayoutRels templateZip templateLayoutPath newLayoutPath
        newMasterPath rest p.2
      (rel' :: q.1, q.2)
    else
      let absolute := resolveRelationshipPath templateLayoutPath rel.target
      let p := copyGenericPart templateZip absolute st
      let rel' := { rel with target := relativePath newLayoutPath p.1 }
      let q := processLayoutRels templateZip templateLayoutPath newLayoutPath
        newMasterPath rest p.2
      (rel' :: q.1, q.2)

/-- `copyLayoutFromMaster` (merged.js lines 882-941): clone a layout
under a fresh `slideLayoutN.xml` name, rewrite its `slideMaster`
relationship to the (already cloned) master's new path, clone referenced
media/generic parts, and memoize. -/
def copyLayoutFromMaster (templateZip : Zip)
    (templateLayoutPath newMasterPath : String) (st : CloneState) :
    Except String (String × CloneState) :=
  match lookupA st.layoutMap templateLayoutPath with
  | some newPath => .ok (newPath, st)
  | none =>
    match zipFile templateZip templateLayoutPath with
    | none => .error ("模板缺少布局文件：" ++ templateLayoutPath)
    | some layoutFile =>
      let newLayoutPath :=
        "ppt/slideLayouts/slideLayout" ++ toString st.nextLayoutNumber ++ ".xml"
      let st1 := { st with
        nextLayoutNumber := st.nextLayoutNumber + 1,
        output := zipPut st.output newLayoutPath layoutFile,
        contentTypes :=
          ensureContentType st.contentTypes ("/" ++ newLayoutPath)
            CONTENT_TYPE_slideLayout }
      let newRelsPath := layoutRelationshipsPath newLayoutPath
      let st2 :=
        match zipFile templateZip (layoutRelationshipsPath templateLayoutPath) with
        | some relFile =>
          let p := processLayoutRels templateZip templateLayoutPath newLayoutPath
            newMasterPath (parseRelationships relFile) st1
          { p.2 with output := zipPut p.2.output newRelsPath (Content.rels p.1) }
        | none =>
          { st1 with output := zipPut st1.output newRelsPath (Content.rels []) }
      .ok (newLayoutPath,
        { st2 with layoutMap := insertA st2.layoutMap templateLayoutPath newLayoutPath })

/-- The `relItems.map` body of `ensureMasterAssets` (merged.js lines
828-867), threading the run state and the last-seen theme info. -/
def processMasterRels (templateZip : Zip) (templateMasterPath newMasterPath : String) :
    List Rel → Option String → CloneState →
      Except String (List Rel × Option String × CloneState)
  | [], themeInfo, st => .ok ([], themeInfo, st)
  | rel :: rest, themeInfo, st =>
    if rel.relType = REL_TYPE_theme then
      match ensureThemeAssets templateZip
        (resolveRelationshipPath templateMasterPath rel.target) st with
      | .error e => .error e
      | .ok (newThemePath, st') =>
        let rel' := { rel with target := relativePath newMasterPath newThemePath }
        match processMasterRels templateZip templateMasterPath newMasterPath rest
          (some newThemePath) st' with
        | .error e => .error e
        | .ok (rs, ti, st'') => .ok (rel' :: rs, ti, st'')
    else if rel.relType = REL_TYPE_slideLayout then
      match copyLayoutFromMaster templateZip
        (resolveRelationshipPath templateMasterPath rel.target) newMasterPath st with
      | .error e => .error e
      | .ok (newLayoutPath, st') =>
        let rel' := { rel with target := relativePath newMasterPath newLayoutPath }
        match processMasterRels templateZip templateMasterPath newMasterPath rest
          themeInfo st' with
        | .error e => .error e
        | .ok (rs, ti, st'') => .ok (rel' :: rs, ti, st'')
    else
      let p := copyGenericPart templateZip
        (resolveRelationshipPath templateMasterPath rel.target) st
      let rel' := { rel with target := relativePath newMasterPath p.1 }
      match processMasterRels templateZip templateMasterPath newMasterPath rest
        themeInfo p.2 with
      | .error e => .error e
      | .ok (rs, ti, st'') => .ok (rel' :: rs, ti, st'')

/-- `ensureMasterAssets` (merged.js lines 805-880): clone a master under
a fresh `slideMasterN.xml` name, clone its theme and its layouts while
rewriting the relationship targets, and memoize `{newPath, themePath}`. -/
def ensureMasterAssets (templateZip : Zip) (templateMasterPath : String)
    (st : CloneState) : Except String (MasterInfo × CloneState) :=
  match lookupA st.masterMap templateMasterPath with
  | some info => .ok (info, st)
  | none =>
    match zipFile templateZip templateMasterPath with
    | none => .error ("模板缺少母版文件：" ++ templateMasterPath)
    | some masterFile =>
      let newMasterPath :=
        "ppt/slideMasters/slideMaster" ++ toString st.nextMasterNumber ++ ".xml"
      let st1 := { st with
        nextMasterNumber := st.nextMasterNumber + 1,
        output := zipPut st.output newMasterPath masterFile,
        contentTypes :=
          ensureContentType st.contentTypes ("/" ++ newMasterPath)
            CONTENT_TYPE_slideMaster }
      let newMasterRelsPath := masterRelationshipsPath newMasterPath
      match zipFile templateZip (masterRelationshipsPath templateMasterPath) with
      | some relFile =>
        match processMasterRels templateZip templateMasterPath newMasterPath
          (parseRelationships relFile) none st1 with
        | .error e => .error e
        | .ok (updated, themeInfo, st2) =>
          let info : MasterInfo := { newPath := newMasterPath, themePath := themeInfo }
          .ok (info,
            { st2 with
              output := zipPut st2.output newMasterRelsPath (Content.rels updated),
              masterMap := insertA st2.masterMap templateMasterPath info,
              newMastersList := st2.newMastersList ++ [info] })
      | none =>
        let info : MasterInfo := { newPath := newMasterPath, themePath := none }
        .ok (info,
          { st1 with
            output := zipPut st1.output newMasterRelsPath (Content.rels []),
            masterMap := insertA st1.masterMap templateMasterPath info,
            newMastersList := st1.newMastersList ++ [info] })

/-- `ensureLayoutAssets` (merged.js lines 770-803): a layout is cloned
by first cloning its master (which clones the master's theme and all the
master's layouts, this one included); missing layout relationships or a
missing `slideMaster` relationship raise errors, as does a master whose
relationship list does not mention the layout. -/
def ensureLayoutAssets (templateZip : Zip) (templateLayoutPath : String)
    (st : CloneState) : Except String (String × CloneState) :=
  match lookupA st.layoutMap templateLayoutPath with
  | some newPath => .ok (newPath, st)
  | none =>
    match zipFile templateZip (layoutRelationshipsPath templateLayoutPath) with
    | none =>
      .error ("模板布局缺少关系文件：" ++ layoutRelationshipsPath templateLayoutPath)
    | some relFile =>
      match (parseRelationships relFile).find?
        (fun rel => rel.relType = REL_TYPE_slideMaster) with
      | none => .error ("布局文件未关联母版：" ++ templateLayoutPath)
      | some masterRel =>
        match ensureMasterAssets templateZip
          (resolveRelationshipPath templateLayoutPath masterRel.target) st with
        | .error e => .error e
        | .ok (_, st') =>
          match lookupA st'.layoutMap templateLayoutPath with
          | none => .error ("复制布局失败：" ++ templateLayoutPath)
          | some newPath => .ok (newPath, st')

/-! ### Package-model lemmas -/

theorem zipFile_zipPut_self (z : Zip) (p : String) (c : Content) :
    zipFile (zipPut z p c) p = some c := by
  simp [zipFile, zipPut]

theorem zipFile_zipRemove_ne (z : Zip) (p q : String) (h : q ≠ p) :
    zipFile (zipRemove z p) q = zipFile z q := by
  induction z with
  | nil => rfl
  | cons e z ih =>
    by_cases hp : e.1 = p
    · have hq : ¬ (e.1 = q) := fun hc => h (hc ▸ hp)
      rw [zipRemove, if_pos hp, zipFile, if_neg hq]
      exact ih
    · rw [zipRemove, if_neg hp]
      by_cases hq : e.1 = q
      · rw [zipFile, if_pos hq, zipFile, if_pos hq]
      · rw [zipFile, if_neg hq, zipFile, if_neg hq]
        exact ih

theorem zipFile_zipPut_ne (z : Zip) (p q : String) (c : Content) (h : q ≠ p) :
    zipFile (zipPut z p c) q = zipFile z q := by
  rw [zipPut, zipFile, if_neg (by simpa using fun hc => h hc.symm)]
  exact zipFile_zipRemove_ne z p q h

theorem zipPut_isSome_mono (z : Zip) (p q : String) (c : Content)
    (h : (zipFile z q).isSome) : (zipFile (zipPut z p c) q).isSome := by
  by_cases hq : q = p
  · subst hq; rw [zipFile_zipPut_self]; rfl
  · rw [zipFile_zipPut_ne z p q c hq]; exact h

theorem lookupA_insertA_self {α : Type} (m : List (String × α)) (k : String) (v : α)
    (h : lookupA m k = none) : lookupA (insertA m k v) k = some v := by
  induction m with
  | nil => simp [lookupA, insertA]
  | cons e m ih =>
    by_cases hk : e.1 = k
    · rw [lookupA, if_pos hk] at h
      exact absurd h (by simp)
    · rw [lookupA, if_neg hk] at h
      rw [insertA, List.cons_append, lookupA, if_neg hk]
      exact ih h

theorem lookupA_insertA_of_some {α : Type} (m : List (String × α)) (k k' : String)
    (v v' : α) (h : lookupA m k = some v) :
    lookupA (insertA m k' v') k = some v := by
  induction m with
  | nil => simp [lookupA] at h
  | cons e m ih =>
    by_cases hk : e.1 = k
    · rw [lookupA, if_pos hk] at h
      rw [insertA, List.cons_append, lookupA, if_pos hk]
      exact h
    · rw [lookupA, if_neg hk] at h
      rw [insertA, List.cons_append, lookupA, if_neg hk]
      exact ih h

/-- **C6.** A media source path referenced by a relationship but absent
from the template package makes `copyMediaFile` log a warning and return
the original source path: no error is raised, nothing is written to the
output package, and no memoization entry is created, so the cloned
relationship stays pointed at the original (now-dangling) path. -/
theorem C6_missing_media_warn_and_skip (templateZip : Zip) (sourcePath : String)
    (st : CloneState)
    (hmemo : lookupA st.mediaMap sourcePath = none)
    (hmissing : zipFile templateZip sourcePath = none) :
    copyMediaFile templateZip sourcePath st =
      (sourcePath,
        { st with warnings :=
            ("⚠️ 模板中引用了不存在的资源：" ++ sourcePath ++ "，已跳过复制。") ::
              st.warnings }) := by
  rw [copyMediaFile, hmemo, hmissing]

/-- Witness for C6: a single-part template without the referenced image;
the state is otherwise untouched and the output stays empty. -/
theorem C6_witness :
    copyMediaFile [("ppt/slides/slide1.xml", Content.text "<p:sld/>")]
        "ppt/media/image9.png"
        ⟨[], [], [], [], 1, 1, 1, 1, [], [], [], []⟩ =
      ("ppt/media/image9.png",
        ⟨[], [], [], [], 1, 1, 1, 1, [], [], [],
          ["⚠️ 模板中引用了不存在的资源：ppt/media/image9.png，已跳过复制。"]⟩) := by
  rw [C6_missing_media_warn_and_skip _ _ _ (by decide) (by decide)]
  rfl

/-! ### Memoization-map preservation through the cloning helpers -/

theorem copyMediaFile_masterMap (tz : Zip) (s : String) (st : CloneState) :
    ((copyMediaFile tz s st).2).masterMap = st.masterMap := by
  unfold copyMediaFile
  split
  · rfl
  · split <;> rfl

theorem copyMediaFile_layoutMap (tz : Zip) (s : String) (st : CloneState) :
    ((copyMediaFile tz s st).2).layoutMap = st.layoutMap := by
  unfold copyMediaFile
  split
  · rfl
  · split <;> rfl

theorem copyMediaFile_contentTypes (tz : Zip) (s : String) (st : CloneState) :
    ((copyMediaFile tz s st).2).contentTypes = st.contentTypes := by
  unfold copyMediaFile
  split
  · rfl
  · split <;> rfl

theorem copyGenericPart_masterMap (tz : Zip) (s : String) (st : CloneState) :
    ((copyGenericPart tz s st).2).masterMap = st.masterMap := by
  simp only [copyGenericPart]
  split
  · rfl
  · split
    · rfl
    · split <;> split <;> rfl

theorem copyGenericPart_layoutMap (tz : Zip) (s : String) (st : CloneState) :
    ((copyGenericPart tz s st).2).layoutMap = st.layoutMap := by
  simp only [copyGenericPart]
  split
  · rfl
  · split
    · rfl
    · split <;> split <;> rfl

theorem ensureThemeAssets_ok_masterMap (tz : Zip) (p : String) (st : CloneState)
    (r : String) (st' : CloneState) (h : ensureThemeAssets tz p st = .ok (r, st')) :
    st'.masterMap = st.masterMap := by
  unfold ensureThemeAssets at h
  split at h
  · cases h; rfl
  · split at h
    · cases h
    · cases h; rfl

theorem processLayoutRels_masterMap (tz : Zip) (tlp nlp nmp : String) :
    ∀ (rels : List Rel) (st : CloneState),
      ((processLayoutRels tz tlp nlp nmp rels st).2).masterMap = st.masterMap := by
  intro rels
  induction rels with
  | nil => intro st; rfl
  | cons rel rest ih =>
    intro st
    rw [processLayoutRels]
    split
    · exact ih st
    · split
      · rw [ih]
        exact copyMediaFile_masterMap _ _ _
      · rw [ih]
        exact copyGenericPart_masterMap _ _ _

theorem processLayoutRels_layoutMap (tz : Zip) (tlp nlp nmp : String) :
    ∀ (rels : List Rel) (st : CloneState),
      ((processLayoutRels tz tlp nlp nmp rels st).2).layoutMap = st.layoutMap := by
  intro rels
  induction rels with
  | nil => intro st; rfl
  | cons rel rest ih =>
    intro st
    rw [processLayoutRels]
    split
    · exact ih st
    · split
      · rw [ih]
        exact copyMediaFile_layoutMap _ _ _
      · rw [ih]
        exact copyGenericPart_layoutMap _ _ _

theorem copyLayoutFromMaster_ok_masterMap (tz : Zip) (p nmp : String)
    (st : CloneState) (r : String) (st' : CloneState)
    (h : copyLayoutFromMaster tz p nmp st = .ok (r, st')) :
    st'.masterMap = st.masterMap := by
  unfold copyLayoutFromMaster at h
  split at h
  · cases h; rfl
  · split at h
    · cases h
    · cases h
      split
      · simp only
        rw [processLayoutRels_masterMap]
      · rfl

theorem processMasterRels_ok_masterMap (tz : Zip) (tmp nmp : String) :
    ∀ (rels : List Rel) (ti : Option String) (st : CloneState)
      (rs : List Rel) (ti' : Option String) (st'' : CloneState),
      processMasterRels tz tmp nmp rels ti st = .ok (rs, ti', st'') →
      st''.masterMap = st.masterMap := by
  intro rels
  induction rels with
  | nil =>
    intro ti st rs ti' st'' h
    cases h; rfl
  | cons rel rest ih =>
    intro ti st rs ti' st'' h
    rw [processMasterRels] at h
    split at h
    · split at h
      · cases h
      · split at h
        · cases h
        · rename_i theme st1 _ rs1 ti1 st1' hrec
          cases h
          rw [ih _ _ _ _ _ hrec]
          exact ensureThemeAssets_ok_masterMap _ _ _ _ _ (by assumption)
    · split at h
      · split at h
        · cases h
        · split at h
          · cases h
          · rename_i nlp st1 _ rs1 ti1 st1' hrec
            cases h
            rw [ih _ _ _ _ _ hrec]
            exact copyLayoutFromMaster_ok_masterMap _ _ _ _ _ _ (by assumption)
      · dsimp only at h
        split at h
        · cases h
        · rename_i rs1 ti1 st1' hrec
          cases h
          rw [ih _ _ _ _ _ hrec]
          exact copyGenericPart_masterMap _ _ _

/-! ### Output-presence monotonicity: cloning only ever adds parts -/

theorem copyMediaFile_presence (tz : Zip) (s : String) (st : CloneState) (q : String)
    (h : (zipFile st.output q).isSome) :
    (zipFile ((copyMediaFile tz s st).2).output q).isSome := by
  unfold copyMediaFile
  split
  · exact h
  · split
    · exact h
    · exact zipPut_isSome_mono _ _ _ _ h

theorem copyGenericPart_presence (tz : Zip) (s : String) (st : CloneState) (q : String)
    (h : (zipFile st.output q).isSome) :
    (zipFile ((copyGenericPart tz s st).2).output q).isSome := by
  simp only [copyGenericPart]
  split
  · exact h
  · split
    · exact h
    · dsimp only
      split <;> split <;>
        first
          | exact zipPut_isSome_mono _ _ _ _ h
          | exact h

theorem ensureThemeAssets_ok_presence (tz : Zip) (p : String) (st : CloneState)
    (r : String) (st' : CloneState) (q : String)
    (h : ensureThemeAssets tz p st = .ok (r, st'))
    (hq : (zipFile st.output q).isSome) : (zipFile st'.output q).isSome := by
  unfold ensureThemeAssets at h
  split at h
  · cases h; exact hq
  · split at h
    · cases h
    · cases h; exact zipPut_isSome_mono _ _ _ _ hq

theorem processLayoutRels_presence (tz : Zip) (tlp nlp nmp : String) :
    ∀ (rels : List Rel) (st : CloneState) (q : String),
      (zipFile st.output q).isSome →
      (zipFile ((processLayoutRels tz tlp nlp nmp rels st).2).output q).isSome := by
  intro rels
  induction rels with
  | nil => intro st q h; exact h
  | cons rel rest ih =>
    intro st q h
    rw [processLayoutRels]
    split
    · exact ih st q h
    · split
      · exact ih _ q (copyMediaFile_presence _ _ _ _ h)
      · exact ih _ q (copyGenericPart_presence _ _ _ _ h)

theorem copyLayoutFromMaster_ok_presence (tz : Zip) (p nmp : String)
    (st : CloneState) (r : String) (st' : CloneState) (q : String)
    (h : copyLayoutFromMaster tz p nmp st = .ok (r, st'))
    (hq : (zipFile st.output q).isSome) : (zipFile st'.output q).isSome := by
  unfold copyLayoutFromMaster at h
  split at h
  · cases h; exact hq
  · split at h
    · cases h
    · cases h
      split
      · simp only
        exact zipPut_isSome_mono _ _ _ _
          (processLayoutRels_presence _ _ _ _ _ _ _
            (zipPut_isSome_mono _ _ _ _ hq))
      · exact zipPut_isSome_mono _ _ _ _ (zipPut_isSome_mono _ _ _ _ hq)

theorem processMasterRels_ok_presence (tz : Zip) (tmp nmp : String) :
    ∀ (rels : List Rel) (ti : Option String) (st : CloneState)
      (rs : List Rel) (ti' : Option String) (st'' : CloneState) (q : String),
      processMasterRels tz tmp nmp rels ti st = .ok (rs, ti', st'') →
      (zipFile st.output q).isSome → (zipFile st''.output q).isSome := by
  intro rels
  induction rels with
  | nil =>
    intro ti st rs ti' st'' q h hq
    cases h; exact hq
  | cons rel rest ih =>
    intro ti st rs ti' st'' q h hq
    rw [processMasterRels] at h
    split at h
    · split at h
      · cases h
      · split at h
        · cases h
        · rename_i theme st1 _ rs1 ti1 st1' hrec
          cases h
          exact ih _ _ _ _ _ _ hrec
            (ensureThemeAssets_ok_presence _ _ _ _ _ _ (by assumption) hq)
    · split at h
      · split at h
        · cases h
        · split at h
          · cases h
          · rename_i nlp st1 _ rs1 ti1 st1' hrec
            cases h
            exact ih _ _ _ _ _ _ hrec
              (copyLayoutFromMaster_ok_presence _ _ _ _ _ _ _ (by assumption) hq)
      · dsimp only at h
        split at h
        · cases h
        · rename_i rs1 ti1 st1' hrec
          cases h
          exact ih _ _ _ _ _ _ hrec (copyGenericPart_presence _ _ _ _ hq)

/-- **C4.** Within one run every clone operation is idempotent per
source path: cloning the same media / theme / master / layout source
twice yields the same new output path both times, the second call being
answered from the memoization map with the run state (in particular the
output package) left exactly unchanged, and the part content is written
once, on the first call. -/
theorem C4_clone_idempotent (tz : Zip) :
    (∀ (s : String) (st : CloneState) (c : Content),
      lookupA st.mediaMap s = none → zipFile tz s = some c →
      copyMediaFile tz s ((copyMediaFile tz s st).2) = copyMediaFile tz s st ∧
        zipFile ((copyMediaFile tz s st).2).output (copyMediaFile tz s st).1 = some c) ∧
    (∀ (p : String) (st : CloneState) (r : String) (st' : CloneState),
      lookupA st.themeMap p = none →
      ensureThemeAssets tz p st = .ok (r, st') →
      ensureThemeAssets tz p st' = .ok (r, st') ∧ (zipFile st'.output r).isSome) ∧
    (∀ (p : String) (st : CloneState) (info : MasterInfo) (st' : CloneState),
      ensureMasterAssets tz p st = .ok (info, st') →
      ensureMasterAssets tz p st' = .ok (info, st')) ∧
    (∀ (p nmp : String) (st : CloneState) (r : String) (st' : CloneState),
      copyLayoutFromMaster tz p nmp st = .ok (r, st') →
      copyLayoutFromMaster tz p nmp st' = .ok (r, st')) ∧
    (∀ (p : String) (st : CloneState) (r : String) (st' : CloneState),
      ensureLayoutAssets tz p st = .ok (r, st') →
      ensureLayoutAssets tz p st' = .ok (r, st')) := by
  refine ⟨?media, ?theme, ?master, ?layout, ?ensLayout⟩
  case media =>
    intro s st c hmemo hc
    have h1 : copyMediaFile tz s st =
        ("ppt/media/template_media_" ++ toString st.mediaCounter ++
            (if extnameStr s = "" then ".bin" else extnameStr s),
          { st with
            mediaCounter := st.mediaCounter + 1,
            output := zipPut st.output
              ("ppt/media/template_media_" ++ toString st.mediaCounter ++
                (if extnameStr s = "" then ".bin" else extnameStr s)) c,
            mediaMap := insertA st.mediaMap s
              ("ppt/media/template_media_" ++ toString st.mediaCounter ++
                (if extnameStr s = "" then ".bin" else extnameStr s)) }) := by
      rw [copyMediaFile, hmemo, hc]
    constructor
    · rw [h1, copyMediaFile]
      have h2 : lookupA
          ({ st with
            mediaCounter := st.mediaCounter + 1,
            output := zipPut st.output
              ("ppt/media/template_media_" ++ toString st.mediaCounter ++
                (if extnameStr s = "" then ".bin" else extnameStr s)) c,
            mediaMap := insertA st.mediaMap s
              ("ppt/media/template_media_" ++ toString st.mediaCounter ++
                (if extnameStr s = "" then ".bin" else extnameStr s)) } :
              CloneState).mediaMap s =
          some ("ppt/media/template_media_" ++ toString st.mediaCounter ++
            (if extnameStr s = "" then ".bin" else extnameStr s)) := by
        exact lookupA_insertA_self _ _ _ hmemo
      rw [h2]
    · rw [h1]
      exact zipFile_zipPut_self _ _ _
  case theme =>
    intro p st r st' hmemo h
    unfold ensureThemeAssets at h
    split at h
    · rename_i np hnp
      rw [hmemo] at hnp
      cases hnp
    · split at h
      · cases h
      · rename_i f hzf
        rw [Except.ok.injEq, Prod.mk.injEq] at h
        obtain ⟨hr, hs⟩ := h
        subst hr
        subst hs
        constructor
        · unfold ensureThemeAssets
          have h2 := lookupA_insertA_self st.themeMap p
            ("ppt/theme/theme" ++ toString st.nextThemeNumber ++ ".xml") hmemo
          dsimp only
          rw [h2]
        · dsimp only
          rw [zipFile_zipPut_self]
          rfl
  case master =>
    intro p st info st' h
    unfold ensureMasterAssets at h
    split at h
    · rename_i info0 hm
      rw [Except.ok.injEq, Prod.mk.injEq] at h
      obtain ⟨hi, hs⟩ := h
      subst hi
      subst hs
      unfold ensureMasterAssets
      rw [hm]
    · rename_i hm
      split at h
      · cases h
      · rename_i mf hz
        dsimp only at h
        split at h
        · rename_i rf hrels
          split at h
          · cases h
          · rename_i updated themeInfo st2 hrec
            rw [Except.ok.injEq, Prod.mk.injEq] at h
            obtain ⟨hi, hs⟩ := h
            subst hi
            subst hs
            unfold ensureMasterAssets
            have hm2 : lookupA st2.masterMap p = none := by
              rw [processMasterRels_ok_masterMap _ _ _ _ _ _ _ _ _ hrec]
              exact hm
            have h2 := lookupA_insertA_self st2.masterMap p
              (⟨"ppt/slideMasters/slideMaster" ++ toString st.nextMasterNumber ++
                ".xml", themeInfo⟩ : MasterInfo) hm2
            dsimp only
            rw [h2]
        · rename_i hrels
          rw [Except.ok.injEq, Prod.mk.injEq] at h
          obtain ⟨hi, hs⟩ := h
          subst hi
          subst hs
          unfold ensureMasterAssets
          have h2 := lookupA_insertA_self st.masterMap p
            (⟨"ppt/slideMasters/slideMaster" ++ toString st.nextMasterNumber ++
              ".xml", none⟩ : MasterInfo) hm
          dsimp only
          rw [h2]
  case layout =>
    intro p nmp st r st' h
    unfold copyLayoutFromMaster at h
    split at h
    · rename_i np hnp
      rw [Except.ok.injEq, Prod.mk.injEq] at h
      obtain ⟨hi, hs⟩ := h
      subst hi
      subst hs
      unfold copyLayoutFromMaster
      rw [hnp]
    · rename_i hm
      split at h
      · cases h
      · rename_i lf hz
        dsimp only at h
        split at h
        · rename_i rf hrels
          rw [Except.ok.injEq, Prod.mk.injEq] at h
          obtain ⟨hi, hs⟩ := h
          subst hi
          subst hs
          unfold copyLayoutFromMaster
          dsimp only
          rw [processLayoutRels_layoutMap]
          dsimp only
          rw [lookupA_insertA_self st.layoutMap p
            ("ppt/slideLayouts/slideLayout" ++ toString st.nextLayoutNumber ++ ".xml") hm]
        · rename_i hrels
          rw [Except.ok.injEq, Prod.mk.injEq] at h
          obtain ⟨hi, hs⟩ := h
          subst hi
          subst hs
          unfold copyLayoutFromMaster
          dsimp only
          rw [lookupA_insertA_self st.layoutMap p
            ("ppt/slideLayouts/slideLayout" ++ toString st.nextLayoutNumber ++ ".xml") hm]
  case ensLayout =>
    intro p st r st' h
    unfold ensureLayoutAssets at h
    split at h
    · rename_i np hnp
      rw [Except.ok.injEq, Prod.mk.injEq] at h
      obtain ⟨hi, hs⟩ := h
      subst hi
      subst hs
      unfold ensureLayoutAssets
      rw [hnp]
    · split at h
      · cases h
      · split at h
        · cases h
        · split at h
          · cases h
          · split at h
            · cases h
            · rename_i np hnp
              rw [Except.ok.injEq, Prod.mk.injEq] at h
              obtain ⟨hi, hs⟩ := h
              subst hi
              subst hs
              unfold ensureLayoutAssets
              rw [hnp]

/-- Whether an `Except` value is a success. -/
def exceptOk {ε α : Type} : Except ε α → Bool
  | .ok _ => true
  | .error _ => false

/-- A minimal concrete template package: a theme, a master referencing
theme and layout, a layout referencing its master, and one media file. -/
def cloneTpl : Zip := [
  ("ppt/theme/theme1.xml", .text "<a:theme/>"),
  ("ppt/slideMasters/slideMaster1.xml", .text "<p:sldMaster/>"),
  ("ppt/slideMasters/_rels/slideMaster1.xml.rels", .rels [
    ⟨"rId1", REL_TYPE_theme, "../theme/theme1.xml"⟩,
    ⟨"rId2", REL_TYPE_slideLayout, "../slideLayouts/slideLayout1.xml"⟩]),
  ("ppt/slideLayouts/slideLayout1.xml", .text "<p:sldLayout/>"),
  ("ppt/slideLayouts/_rels/slideLayout1.xml.rels", .rels [
    ⟨"rId1", REL_TYPE_slideMaster, "../slideMasters/slideMaster1.xml"⟩]),
  ("ppt/media/image1.png", .binary [1, 2, 3])]

/-- A fresh run state over an empty output package. -/
def cloneSt0 : CloneState := ⟨[], [], [], [], 1, 1, 1, 1, [], [], [], []⟩

/-- Witness for C4: on the concrete template, cloning the layout twice
returns the same path and state, and cloning the media file twice
returns the same result with the bytes written on the first call. -/
theorem C4_witness :
    (∃ r st', ensureLayoutAssets cloneTpl "ppt/slideLayouts/slideLayout1.xml" cloneSt0 =
        Except.ok (r, st') ∧
      ensureLayoutAssets cloneTpl "ppt/slideLayouts/slideLayout1.xml" st' =
        Except.ok (r, st')) ∧
    copyMediaFile cloneTpl "ppt/media/image1.png"
        ((copyMediaFile cloneTpl "ppt/media/image1.png" cloneSt0).2) =
      copyMediaFile cloneTpl "ppt/media/image1.png" cloneSt0 ∧
    zipFile ((copyMediaFile cloneTpl "ppt/media/image1.png" cloneSt0).2).output
        (copyMediaFile cloneTpl "ppt/media/image1.png" cloneSt0).1 =
      some (Content.binary [1, 2, 3]) := by
  refine ⟨?_, ?_, ?_⟩
  · cases hEq : ensureLayoutAssets cloneTpl "ppt/slideLayouts/slideLayout1.xml" cloneSt0 with
    | error e =>
      have hok : exceptOk
          (ensureLayoutAssets cloneTpl "ppt/slideLayouts/slideLayout1.xml" cloneSt0) =
            true := by decide
      rw [hEq] at hok
      cases hok
    | ok v =>
      exact ⟨v.1, v.2, rfl,
        (C4_clone_idempotent cloneTpl).2.2.2.2 _ _ v.1 v.2 (by rw [hEq])⟩
  · exact ((C4_clone_idempotent cloneTpl).1 "ppt/media/image1.png" cloneSt0
      (Content.binary [1, 2, 3]) (by decide) (by decide)).1
  · exact ((C4_clone_idempotent cloneTpl).1 "ppt/media/image1.png" cloneSt0
      (Content.binary [1, 2, 3]) (by decide) (by decide)).2

/-! ### Content-type bookkeeping (claim C5) -/

/-- Number of `<Override>` entries for a part name (case-insensitive). -/
def countOverride (entries : List CTEntry) (name : String) : ℕ :=
  (entries.filter (overrideMatches name)).length

/-- The four registration loops of `updatePresentationDocuments`
(merged.js lines 1063-1086) as one item list: every new slide part, then
every cloned layout, master and theme part. -/
def contentTypeItems (newSlides : List ℕ)
    (layoutPaths masterPaths themePaths : List String) : List (String × String) :=
  newSlides.map (fun n => ("/ppt/slides/slide" ++ toString n ++ ".xml",
      CONTENT_TYPE_slide)) ++
    layoutPaths.map (fun p => ("/" ++ p, CONTENT_TYPE_slideLayout)) ++
    masterPaths.map (fun p => ("/" ++ p, CONTENT_TYPE_slideMaster)) ++
    themePaths.map (fun p => ("/" ++ p, CONTENT_TYPE_theme))

/-- Sequential `ensureContentType` registration. -/
def ensureAll (entries : List CTEntry) (items : List (String × String)) : List CTEntry :=
  items.foldl (fun acc it => ensureContentType acc it.1 it.2) entries

/-- The content-type registration phase of `updatePresentationDocuments`. -/
def updateContentTypesPhase (newSlides : List ℕ)
    (layoutPaths masterPaths themePaths : List String)
    (entries : List CTEntry) : List CTEntry :=
  ensureAll entries (contentTypeItems newSlides layoutPaths masterPaths themePaths)

theorem eqCI_refl (a : String) : eqCI a a = true := by
  simp [eqCI]

theorem overrideMatches_congr (p q : String) (h : eqCI p q = true) (e : CTEntry) :
    overrideMatches p e = overrideMatches q e := by
  cases e with
  | ctDefault x ct => rfl
  | ctOverride x ct =>
    simp only [eqCI, decide_eq_true_eq] at h
    simp only [overrideMatches, eqCI]
    rw [h]

theorem countOverride_congr (entries : List CTEntry) (p q : String)
    (h : eqCI p q = true) : countOverride entries p = countOverride entries q := by
  unfold countOverride
  rw [List.filter_congr (fun e _ => overrideMatches_congr p q h e)]

theorem countOverride_zero_iff (entries : List CTEntry) (name : String) :
    countOverride entries name = 0 ↔ hasOverrideFor entries name = false := by
  unfold countOverride hasOverrideFor
  induction entries with
  | nil => simp
  | cons e entries ih =>
    by_cases hm : overrideMatches name e = true
    · simp [List.filter_cons, List.any_cons, hm]
    · rw [Bool.not_eq_true] at hm
      simp [List.filter_cons, List.any_cons, hm, ih]

theorem countOverride_append (a b : List CTEntry) (name : String) :
    countOverride (a ++ b) name = countOverride a name + countOverride b name := by
  unfold countOverride
  rw [List.filter_append, List.length_append]

theorem ensureContentType_count (entries : List CTEntry) (p ct q : String) :
    countOverride (ensureContentType entries p ct) q =
      if hasOverrideFor entries p then countOverride entries q
      else countOverride entries q + (if eqCI p q then 1 else 0) := by
  unfold ensureContentType
  by_cases h : hasOverrideFor entries p = true
  · rw [if_pos h, if_pos h]
  · rw [Bool.not_eq_true] at h
    rw [if_neg (by simp [h]), if_neg (by simp [h]), countOverride_append]
    congr 1
    unfold countOverride
    by_cases hq : eqCI p q = true
    · rw [if_pos hq]
      simp [List.filter_cons, overrideMatches, hq]
    · rw [Bool.not_eq_true] at hq
      rw [if_neg (by simp [hq])]
      simp [List.filter_cons, overrideMatches, hq]

theorem ensureContentType_count_mono (entries : List CTEntry) (p ct q : String) :
    countOverride entries q ≤ countOverride (ensureContentType entries p ct) q := by
  rw [ensureContentType_count]
  split
  · exact le_refl _
  · split <;> omega

theorem ensureContentType_le_one (entries : List CTEntry) (p ct : String)
    (hle : ∀ name, countOverride entries name ≤ 1) :
    (∀ name, countOverride (ensureContentType entries p ct) name ≤ 1) ∧
      countOverride (ensureContentType entries p ct) p = 1 := by
  constructor
  · intro name
    rw [ensureContentType_count]
    by_cases h : hasOverrideFor entries p = true
    · rw [if_pos h]
      exact hle name
    · rw [Bool.not_eq_true] at h
      rw [if_neg (by simp [h])]
      by_cases hq : eqCI p name = true
      · rw [if_pos hq]
        have h0 : countOverride entries p = 0 := (countOverride_zero_iff _ _).mpr h
        rw [← countOverride_congr entries p name hq, h0]
      · rw [Bool.not_eq_true] at hq
        rw [if_neg (by simp [hq])]
        have := hle name
        omega
  · rw [ensureContentType_count]
    by_cases h : hasOverrideFor entries p = true
    · rw [if_pos h]
      have h1 := hle p
      have h0 : ¬ (countOverride entries p = 0) := by
        intro hc
        rw [(countOverride_zero_iff _ _).mp hc] at h
        cases h
      omega
    · rw [Bool.not_eq_true] at h
      rw [if_neg (by simp [h]), if_pos (eqCI_refl p),
        (countOverride_zero_iff entries p).mpr h]

theorem ensureAll_count_mono (items : List (String × String)) :
    ∀ (entries : List CTEntry) (q : String),
      countOverride entries q ≤ countOverride (ensureAll entries items) q := by
  induction items with
  | nil => intro entries q; exact le_refl _
  | cons it items ih =>
    intro entries q
    unfold ensureAll
    rw [List.foldl_cons]
    exact le_trans (ensureContentType_count_mono entries it.1 it.2 q)
      (ih (ensureContentType entries it.1 it.2) q)

theorem ensureAll_spec (items : List (String × String)) :
    ∀ (entries : List CTEntry),
      (∀ name, countOverride entries name ≤ 1) →
      (∀ name, countOverride (ensureAll entries items) name ≤ 1) ∧
        (∀ it ∈ items, countOverride (ensureAll entries items) it.1 = 1) := by
  induction items with
  | nil =>
    intro entries hle
    exact ⟨hle, by simp⟩
  | cons it items ih =>
    intro entries hle
    have hstep := ensureContentType_le_one entries it.1 it.2 hle
    have hrest := ih (ensureContentType entries it.1 it.2) hstep.1
    have hfold : ensureAll entries (it :: items) =
        ensureAll (ensureContentType entries it.1 it.2) items := by
      unfold ensureAll
      rw [List.foldl_cons]
    constructor
    · intro name
      rw [hfold]
      exact hrest.1 name
    · intro jt hjt
      rcases List.mem_cons.mp hjt with rfl | hmem
      · rw [hfold]
        have hmono := ensureAll_count_mono items (ensureContentType entries jt.1 jt.2) jt.1
        have h1 := hstep.2
        have h2 := hrest.1 jt.1
        omega
      · rw [hfold]
        exact hrest.2 jt hmem

/-- **C5** (amended). Content-type registration is idempotent and
complete for part overrides: a part name (or media extension) that
already has an `<Override>` (`<Default>`) entry is left untouched by
`ensureContentType` (`ensureDefaultContentType`), re-registration
changes nothing, and after the registration phase of
`updatePresentationDocuments` every newly introduced slide, layout,
master and theme part has exactly one `<Override>` entry (assuming the
working copy started with no duplicate entries).  Media is different:
`copyMediaFile` registers no content type at all (final conjunct), so a
media extension newly used by template-media cloning gains no
`<Default>` entry from the cloning or finalize path — only the separate
image-injection helper (merged.js line 1485) ever adds one.  The
counterexample refutes the original claim's media-`<Default>` clause. -/
theorem C5_content_type_completeness (entries : List CTEntry)
    (partName ct extension : String) (newSlides : List ℕ)
    (layoutPaths masterPaths themePaths : List String) :
    (hasOverrideFor entries partName = true →
      ensureContentType entries partName ct = entries) ∧
    (hasDefaultFor entries (lowerStr (stripLeadingDot extension)) = true →
      ensureDefaultContentType entries extension ct = entries) ∧
    (ensureContentType (ensureContentType entries partName ct) partName ct =
      ensureContentType entries partName ct) ∧
    (ensureDefaultContentType (ensureDefaultContentType entries extension ct)
        extension ct =
      ensureDefaultContentType entries extension ct) ∧
    ((∀ name, countOverride entries name ≤ 1) →
      (∀ name, countOverride (updateContentTypesPhase newSlides layoutPaths
        masterPaths themePaths entries) name ≤ 1) ∧
      (∀ n ∈ newSlides, countOverride (updateContentTypesPhase newSlides layoutPaths
        masterPaths themePaths entries)
        ("/ppt/slides/slide" ++ toString n ++ ".xml") = 1) ∧
      (∀ p ∈ layoutPaths, countOverride (updateContentTypesPhase newSlides layoutPaths
        masterPaths themePaths entries) ("/" ++ p) = 1) ∧
      (∀ p ∈ masterPaths, countOverride (updateContentTypesPhase newSlides layoutPaths
        masterPaths themePaths entries) ("/" ++ p) = 1) ∧
      (∀ p ∈ themePaths, countOverride (updateContentTypesPhase newSlides layoutPaths
        masterPaths themePaths entries) ("/" ++ p) = 1)) ∧
    (∀ (tz : Zip) (p : String) (st : CloneState),
      ((copyMediaFile tz p st).2).contentTypes = st.contentTypes) := by
  refine ⟨?_, ?_, ?_, ?_, ?_, ?_⟩
  · intro h
    unfold ensureContentType
    rw [if_pos h]
  · intro h
    unfold ensureDefaultContentType
    rw [if_pos h]
  · by_cases h : hasOverrideFor entries partName = true
    · have he : ensureContentType entries partName ct = entries := by
        unfold ensureContentType
        rw [if_pos h]
      rw [he]
      exact he
    · rw [Bool.not_eq_true] at h
      have h2 : hasOverrideFor (ensureContentType entries partName ct) partName = true := by
        unfold ensureContentType
        rw [if_neg (by simp [h])]
        unfold hasOverrideFor
        rw [List.any_append]
        simp [overrideMatches, eqCI_refl]
      show (if hasOverrideFor (ensureContentType entries partName ct) partName = true then
          ensureContentType entries partName ct
        else ensureContentType entries partName ct ++
          [CTEntry.ctOverride partName ct]) = ensureContentType entries partName ct
      rw [if_pos h2]
  · by_cases h : hasDefaultFor entries (lowerStr (stripLeadingDot extension)) = true
    · have he : ensureDefaultContentType entries extension ct = entries := by
        show (if hasDefaultFor entries (lowerStr (stripLeadingDot extension)) = true then
            entries
          else CTEntry.ctDefault (lowerStr (stripLeadingDot extension)) ct :: entries) =
            entries
        rw [if_pos h]
      rw [he]
      exact he
    · rw [Bool.not_eq_true] at h
      have h2 : hasDefaultFor (ensureDefaultContentType entries extension ct)
          (lowerStr (stripLeadingDot extension)) = true := by
        show hasDefaultFor
            (if hasDefaultFor entries (lowerStr (stripLeadingDot extension)) = true then
              entries
            else CTEntry.ctDefault (lowerStr (stripLeadingDot extension)) ct :: entries)
            (lowerStr (stripLeadingDot extension)) = true
        rw [if_neg (by simp [h])]
        unfold hasDefaultFor
        rw [List.any_cons]
        simp [defaultMatches, eqCI_refl]
      show (if hasDefaultFor (ensureDefaultContentType entries extension ct)
            (lowerStr (stripLeadingDot extension)) = true then
          ensureDefaultContentType entries extension ct
        else CTEntry.ctDefault (lowerStr (stripLeadingDot extension)) ct ::
          ensureDefaultContentType entries extension ct) =
          ensureDefaultContentType entries extension ct
      rw [if_pos h2]
  · intro hle
    have hspec := ensureAll_spec
      (contentTypeItems newSlides layoutPaths masterPaths themePaths) entries hle
    refine ⟨hspec.1, ?_, ?_, ?_, ?_⟩
    · intro n hn
      exact hspec.2 ("/ppt/slides/slide" ++ toString n ++ ".xml", CONTENT_TYPE_slide)
        (by unfold contentTypeItems
            simp only [List.mem_append, List.mem_map]
            exact Or.inl (Or.inl (Or.inl ⟨n, hn, rfl⟩)))
    · intro p hp
      exact hspec.2 ("/" ++ p, CONTENT_TYPE_slideLayout)
        (by unfold contentTypeItems
            simp only [List.mem_append, List.mem_map]
            exact Or.inl (Or.inl (Or.inr ⟨p, hp, rfl⟩)))
    · intro p hp
      exact hspec.2 ("/" ++ p, CONTENT_TYPE_slideMaster)
        (by unfold contentTypeItems
            simp only [List.mem_append, List.mem_map]
            exact Or.inl (Or.inr ⟨p, hp, rfl⟩))
    · intro p hp
      exact hspec.2 ("/" ++ p, CONTENT_TYPE_theme)
        (by unfold contentTypeItems
            simp only [List.mem_append, List.mem_map]
            exact Or.inr ⟨p, hp, rfl⟩)
  · exact copyMediaFile_contentTypes

/-- Witness for C5: registering one new slide, layout, master and theme
into an initially empty content-types copy yields exactly one entry
each, and re-registering an already present part name changes nothing. -/
theorem C5_witness :
    ensureContentType (ensureContentType [] "/ppt/slides/slide4.xml" CONTENT_TYPE_slide)
        "/ppt/slides/slide4.xml" CONTENT_TYPE_slide =
      ensureContentType [] "/ppt/slides/slide4.xml" CONTENT_TYPE_slide ∧
    countOverride (updateContentTypesPhase [4] ["ppt/slideLayouts/slideLayout2.xml"]
        ["ppt/slideMasters/slideMaster2.xml"] ["ppt/theme/theme2.xml"] [])
      "/ppt/slides/slide4.xml" = 1 ∧
    countOverride (updateContentTypesPhase [4] ["ppt/slideLayouts/slideLayout2.xml"]
        ["ppt/slideMasters/slideMaster2.xml"] ["ppt/theme/theme2.xml"] [])
      "/ppt/theme/theme2.xml" = 1 := by
  refine ⟨?_, ?_, ?_⟩
  · exact (C5_content_type_completeness [] "/ppt/slides/slide4.xml" CONTENT_TYPE_slide
      ".png" [4] ["ppt/slideLayouts/slideLayout2.xml"]
      ["ppt/slideMasters/slideMaster2.xml"] ["ppt/theme/theme2.xml"]).2.2.1
  · exact ((C5_content_type_completeness [] "/ppt/slides/slide4.xml" CONTENT_TYPE_slide
      ".png" [4] ["ppt/slideLayouts/slideLayout2.xml"]
      ["ppt/slideMasters/slideMaster2.xml"] ["ppt/theme/theme2.xml"]).2.2.2.2.1
      (by intro name; simp [countOverride])).2.1 4 (by decide)
  · exact ((C5_content_type_completeness [] "/ppt/slides/slide4.xml" CONTENT_TYPE_slide
      ".png" [4] ["ppt/slideLayouts/slideLayout2.xml"]
      ["ppt/slideMasters/slideMaster2.xml"] ["ppt/theme/theme2.xml"]).2.2.2.2.1
      (by intro name; simp [countOverride])).2.2.2.2 "ppt/theme/theme2.xml" (by decide)

/-- A minimal template holding one media part whose extension `xyz` has
no `<Default>` entry, and a fresh clone state whose content-types copy
holds the two stock defaults. -/
def mediaTpl : Zip := [("ppt/media/pic1.xyz", Content.binary [1, 2])]

def mediaSt0 : CloneState :=
  ⟨[], [], [], [], 1, 1, 1, 1,
    [.ctDefault "xml" "application/xml",
     .ctDefault "rels" "application/vnd.openxmlformats-package.relationships+xml"],
    [], [], []⟩

/-- Counterexample to C5 as stated: cloning the template media part
`ppt/media/pic1.xyz` writes its bytes under a fresh
`ppt/media/template_media_1.xyz` name — so the extension `xyz` is newly
used by the output package — yet after the content-type registration
phase of `updatePresentationDocuments` there is still no `<Default>`
entry for `xyz`: `copyMediaFile` (merged.js lines 965-980) never calls
`ensureDefaultContentType`, and neither does the finalize phase. -/
theorem C5_counterexample :
    (copyMediaFile mediaTpl "ppt/media/pic1.xyz" mediaSt0).1 =
      "ppt/media/template_media_1.xyz" ∧
    (zipFile (copyMediaFile mediaTpl "ppt/media/pic1.xyz" mediaSt0).2.output
      "ppt/media/template_media_1.xyz").isSome = true ∧
    hasDefaultFor
      (updateContentTypesPhase [9] ["ppt/slideLayouts/slideLayout2.xml"]
        ["ppt/slideMasters/slideMaster2.xml"] ["ppt/theme/theme2.xml"]
        (copyMediaFile mediaTpl "ppt/media/pic1.xyz" mediaSt0).2.contentTypes)
      "xyz" = false := by
  refine ⟨by decide, by decide, by decide⟩

/-! ### Theme bookkeeping for claim C3 -/

/-- Every memoized theme clone has its cloned part present in the output
package.  This holds of a fresh run state (empty theme map) and is
preserved by every cloning helper. -/
def ThemeInvariant (st : CloneState) : Prop :=
  ∀ k v, lookupA st.themeMap k = some v → (zipFile st.output v).isSome

theorem lookupA_insertA_cases {α : Type} (m : List (String × α)) (k : String) (v : α)
    (q : String) (w : α) (h : lookupA (insertA m k v) q = some w) :
    lookupA m q = some w ∨ w = v := by
  induction m with
  | nil =>
    rw [insertA, List.nil_append, lookupA] at h
    split at h
    · cases h; exact Or.inr rfl
    · cases h
  | cons e m ih =>
    rw [insertA, List.cons_append, lookupA] at h
    split at h
    · rename_i hk
      cases h
      exact Or.inl (by rw [lookupA, if_pos hk])
    · rename_i hk
      rcases ih h with h' | h'
      · exact Or.inl (by rw [lookupA, if_neg hk]; exact h')
      · exact Or.inr h'

theorem copyMediaFile_themeMap (tz : Zip) (s : String) (st : CloneState) :
    ((copyMediaFile tz s st).2).themeMap = st.themeMap := by
  unfold copyMediaFile
  split
  · rfl
  · split <;> rfl

theorem copyGenericPart_themeMap (tz : Zip) (s : String) (st : CloneState) :
    ((copyGenericPart tz s st).2).themeMap = st.themeMap := by
  simp only [copyGenericPart]
  split
  · rfl
  · split
    · rfl
    · dsimp only
      split <;> split <;> rfl

theorem copyMediaFile_inv (tz : Zip) (s : String) (st : CloneState)
    (h : ThemeInvariant st) : ThemeInvariant ((copyMediaFile tz s st).2) := by
  intro k v hk
  rw [copyMediaFile_themeMap] at hk
  exact copyMediaFile_presence tz s st v (h k v hk)

theorem copyGenericPart_inv (tz : Zip) (s : String) (st : CloneState)
    (h : ThemeInvariant st) : ThemeInvariant ((copyGenericPart tz s st).2) := by
  intro k v hk
  rw [copyGenericPart_themeMap] at hk
  exact copyGenericPart_presence tz s st v (h k v hk)

theorem ensureThemeAssets_ok_inv (tz : Zip) (p : String) (st : CloneState)
    (r : String) (st' : CloneState) (hinv : ThemeInvariant st)
    (h : ensureThemeAssets tz p st = .ok (r, st')) :
    ThemeInvariant st' ∧ (zipFile st'.output r).isSome := by
  unfold ensureThemeAssets at h
  split at h
  · rename_i np hnp
    rw [Except.ok.injEq, Prod.mk.injEq] at h
    obtain ⟨hr, hs⟩ := h
    subst hr
    subst hs
    exact ⟨hinv, hinv p np hnp⟩
  · split at h
    · cases h
    · rename_i f hzf
      rw [Except.ok.injEq, Prod.mk.injEq] at h
      obtain ⟨hr, hs⟩ := h
      subst hr
      subst hs
      constructor
      · intro k v hk
        dsimp only at hk
        rcases lookupA_insertA_cases st.themeMap p _ k v hk with h' | h'
        · exact zipPut_isSome_mono _ _ _ _ (hinv k v h')
        · subst h'
          dsimp only
          rw [zipFile_zipPut_self]
          rfl
      · dsimp only
        rw [zipFile_zipPut_self]
        rfl

theorem processLayoutRels_themeMap (tz : Zip) (tlp nlp nmp : String) :
    ∀ (rels : List Rel) (st : CloneState),
      ((processLayoutRels tz tlp nlp nmp rels st).2).themeMap = st.themeMap := by
  intro rels
  induction rels with
  | nil => intro st; rfl
  | cons rel rest ih =>
    intro st
    rw [processLayoutRels]
    split
    · exact ih st
    · split
      · rw [ih]
        exact copyMediaFile_themeMap _ _ _
      · rw [ih]
        exact copyGenericPart_themeMap _ _ _

theorem processLayoutRels_inv (tz : Zip) (tlp nlp nmp : String) :
    ∀ (rels : List Rel) (st : CloneState), ThemeInvariant st →
      ThemeInvariant ((processLayoutRels tz tlp nlp nmp rels st).2) := by
  intro rels
  induction rels with
  | nil => intro st h; exact h
  | cons rel rest ih =>
    intro st h
    rw [processLayoutRels]
    split
    · exact ih st h
    · split
      · exact ih _ (copyMediaFile_inv _ _ _ h)
      · exact ih _ (copyGenericPart_inv _ _ _ h)

theorem copyLayoutFromMaster_ok_themeMap (tz : Zip) (p nmp : String)
    (st : CloneState) (r : String) (st' : CloneState)
    (h : copyLayoutFromMaster tz p nmp st = .ok (r, st')) :
    st'.themeMap = st.themeMap := by
  unfold copyLayoutFromMaster at h
  split at h
  · cases h; rfl
  · split at h
    · cases h
    · cases h
      split
      · simp only
        rw [processLayoutRels_themeMap]
      · rfl

theorem copyLayoutFromMaster_ok_inv (tz : Zip) (p nmp : String)
    (st : CloneState) (r : String) (st' : CloneState) (hinv : ThemeInvariant st)
    (h : copyLayoutFromMaster tz p nmp st = .ok (r, st')) :
    ThemeInvariant st' := by
  intro k v hk
  rw [copyLayoutFromMaster_ok_themeMap tz p nmp st r st' h] at hk
  exact copyLayoutFromMaster_ok_presence tz p nmp st r st' v h (hinv k v hk)

theorem processMasterRels_theme (tz : Zip) (tmp nmp : String) :
    ∀ (rels : List Rel) (ti : Option String) (st : CloneState)
      (rs : List Rel) (ti' : Option String) (st'' : CloneState),
      processMasterRels tz tmp nmp rels ti st = .ok (rs, ti', st'') →
      ThemeInvariant st →
      (∀ t, ti = some t → (zipFile st.output t).isSome) →
      ThemeInvariant st'' ∧
        (∀ t, ti' = some t → (zipFile st''.output t).isSome) ∧
        (((∃ rel ∈ rels, rel.relType = REL_TYPE_theme) ∨ ti ≠ none) → ti' ≠ none) := by
  intro rels
  induction rels with
  | nil =>
    intro ti st rs ti' st'' h hinv hti
    cases h
    refine ⟨hinv, hti, ?_⟩
    rintro (⟨rel, hmem, _⟩ | hne)
    · simp at hmem
    · exact hne
  | cons rel rest ih =>
    intro ti st rs ti' st'' h hinv hti
    rw [processMasterRels] at h
    split at h
    · rename_i hth
      split at h
      · cases h
      · rename_i theme st1 hok
        split at h
        · cases h
        · rename_i rs1 ti1 st1' hrec
          cases h
          have hstep := ensureThemeAssets_ok_inv tz _ st theme st1 hinv hok
          have := ih _ _ _ _ _ hrec hstep.1
            (by intro t ht; cases ht; exact hstep.2)
          refine ⟨this.1, this.2.1, ?_⟩
          intro _
          exact this.2.2 (Or.inr (by simp))
    · split at h
      · split at h
        · cases h
        · rename_i nlp st1 hok
          split at h
          · cases h
          · rename_i rs1 ti1 st1' hrec
            cases h
            have hinv1 := copyLayoutFromMaster_ok_inv tz _ nmp st nlp st1 hinv hok
            have hti1 : ∀ t, ti = some t → (zipFile st1.output t).isSome := by
              intro t ht
              exact copyLayoutFromMaster_ok_presence tz _ nmp st nlp st1 t hok (hti t ht)
            have := ih _ _ _ _ _ hrec hinv1 hti1
            refine ⟨this.1, this.2.1, ?_⟩
            rintro (⟨r', hmem, hr'⟩ | hne)
            · rcases List.mem_cons.mp hmem with rfl | hmem'
              · rename_i hth _
                exact absurd hr' hth
              · exact this.2.2 (Or.inl ⟨r', hmem', hr'⟩)
            · exact this.2.2 (Or.inr hne)
      · dsimp only at h
        split at h
        · cases h
        · rename_i rs1 ti1 st1' hrec
          cases h
          have hinv1 := copyGenericPart_inv tz
            (resolveRelationshipPath tmp rel.target) st hinv
          have hti1 : ∀ t, ti = some t → (zipFile ((copyGenericPart tz
              (resolveRelationshipPath tmp rel.target) st).2).output t).isSome := by
            intro t ht
            exact copyGenericPart_presence tz
              (resolveRelationshipPath tmp rel.target) st t (hti t ht)
          have := ih _ _ _ _ _ hrec hinv1 hti1
          refine ⟨this.1, this.2.1, ?_⟩
          rintro (⟨r', hmem, hr'⟩ | hne)
          · rcases List.mem_cons.mp hmem with rfl | hmem'
            · rename_i hth _
              exact absurd hr' hth
            · exact this.2.2 (Or.inl ⟨r', hmem', hr'⟩)
          · exact this.2.2 (Or.inr hne)

theorem ensureMasterAssets_ok_lookup (tz : Zip) (p : String) (st : CloneState)
    (info : MasterInfo) (st' : CloneState)
    (h : ensureMasterAssets tz p st = .ok (info, st')) :
    lookupA st'.masterMap p = some info := by
  unfold ensureMasterAssets at h
  split at h
  · rename_i info0 hm
    rw [Except.ok.injEq, Prod.mk.injEq] at h
    obtain ⟨hi, hs⟩ := h
    subst hi
    subst hs
    exact hm
  · rename_i hm
    split at h
    · cases h
    · rename_i mf hz
      dsimp only at h
      split at h
      · rename_i rf hrels
        split at h
        · cases h
        · rename_i updated themeInfo st2 hrec
          rw [Except.ok.injEq, Prod.mk.injEq] at h
          obtain ⟨hi, hs⟩ := h
          subst hi
          subst hs
          have hm2 : lookupA st2.masterMap p = none := by
            rw [processMasterRels_ok_masterMap _ _ _ _ _ _ _ _ _ hrec]
            exact hm
          exact lookupA_insertA_self st2.masterMap p
            (⟨"ppt/slideMasters/slideMaster" ++ toString st.nextMasterNumber ++
              ".xml", themeInfo⟩ : MasterInfo) hm2
      · rename_i hrels
        rw [Except.ok.injEq, Prod.mk.injEq] at h
        obtain ⟨hi, hs⟩ := h
        subst hi
        subst hs
        exact lookupA_insertA_self st.masterMap p
          (⟨"ppt/slideMasters/slideMaster" ++ toString st.nextMasterNumber ++
            ".xml", none⟩ : MasterInfo) hm

theorem ensureMasterAssets_theme (tz : Zip) (p : String) (st : CloneState)
    (info : MasterInfo) (st' : CloneState) (mrf : Content)
    (hm : lookupA st.masterMap p = none)
    (hinv : ThemeInvariant st)
    (h : ensureMasterAssets tz p st = .ok (info, st'))
    (hmrf : zipFile tz (masterRelationshipsPath p) = some mrf)
    (hex : ∃ trel ∈ parseRelationships mrf, trel.relType = REL_TYPE_theme) :
    ∃ t, info.themePath = some t ∧ (zipFile st'.output t).isSome := by
  unfold ensureMasterAssets at h
  split at h
  · rename_i info0 hm0
    rw [hm] at hm0
    cases hm0
  · split at h
    · cases h
    · rename_i mf hz
      dsimp only at h
      split at h
      · rename_i rf hrels
        rw [hmrf] at hrels
        cases hrels
        split at h
        · cases h
        · rename_i updated themeInfo st2 hrec
          rw [Except.ok.injEq, Prod.mk.injEq] at h
          obtain ⟨hi, hs⟩ := h
          subst hi
          subst hs
          have hinv1 : ThemeInvariant
              ({ st with
                nextMasterNumber := st.nextMasterNumber + 1,
                output := zipPut st.output
                  ("ppt/slideMasters/slideMaster" ++ toString st.nextMasterNumber ++
                    ".xml") mf,
                contentTypes := ensureContentType st.contentTypes
                  ("/" ++ ("ppt/slideMasters/slideMaster" ++
                    toString st.nextMasterNumber ++ ".xml"))
                  CONTENT_TYPE_slideMaster } : CloneState) := by
            intro k v hk
            exact zipPut_isSome_mono _ _ _ _ (hinv k v hk)
          have hthm := processMasterRels_theme tz p _ _ _ _ _ _ _ hrec hinv1
            (by intro t ht; cases ht)
          have hsome : themeInfo ≠ none := hthm.2.2 (Or.inl hex)
          match themeInfo, hsome with
          | some t, _ =>
            refine ⟨t, rfl, ?_⟩
            exact zipPut_isSome_mono _ _ _ _ (hthm.2.1 t rfl)
      · rename_i hrels
        rw [hmrf] at hrels
        cases hrels

theorem processLayoutRels_slideMaster_target (tz : Zip) (tlp nlp nmp : String) :
    ∀ (rels : List Rel) (st : CloneState) (rel' : Rel),
      rel' ∈ (processLayoutRels tz tlp nlp nmp rels st).1 →
      rel'.relType = REL_TYPE_slideMaster →
      rel'.target = relativePath nlp nmp := by
  intro rels
  induction rels with
  | nil =>
    intro st rel' hmem
    simp [processLayoutRels] at hmem
  | cons rel rest ih =>
    intro st rel' hmem htype
    rw [processLayoutRels] at hmem
    split at hmem
    · rename_i hsm
      rcases List.mem_cons.mp hmem with rfl | hmem'
      · rfl
      · exact ih _ rel' hmem' htype
    · rename_i hsm
      split at hmem
      · rcases List.mem_cons.mp hmem with rfl | hmem'
        · exact absurd htype hsm
        · exact ih _ rel' hmem' htype
      · rcases List.mem_cons.mp hmem with rfl | hmem'
        · exact absurd htype hsm
        · exact ih _ rel' hmem' htype

/-- **C3.** Cloning a not-yet-memoized layout clones its master first
(which clones the master's theme), records the master's new path in the
memo map and the layout's new path in the layout map, and rewrites the
cloned layout's `slideMaster` relationship target to the relative path
of the master's new location; a missing layout relationships file, or a
relationships file without a `slideMaster` relationship, raises an
error. -/
theorem C3_layout_clone_chain (tz : Zip) (p : String) (st : CloneState)
    (hfresh : lookupA st.layoutMap p = none) :
    (zipFile tz (layoutRelationshipsPath p) = none →
      ensureLayoutAssets tz p st =
        .error ("模板布局缺少关系文件：" ++ layoutRelationshipsPath p)) ∧
    (∀ rf, zipFile tz (layoutRelationshipsPath p) = some rf →
      (parseRelationships rf).find?
        (fun rel => rel.relType = REL_TYPE_slideMaster) = none →
      ensureLayoutAssets tz p st = .error ("布局文件未关联母版：" ++ p)) ∧
    (∀ r st', ensureLayoutAssets tz p st = .ok (r, st') →
      ∃ rf masterRel minfo,
        zipFile tz (layoutRelationshipsPath p) = some rf ∧
        (parseRelationships rf).find?
          (fun rel => rel.relType = REL_TYPE_slideMaster) = some masterRel ∧
        lookupA st'.masterMap (resolveRelationshipPath p masterRel.target) =
          some minfo ∧
        lookupA st'.layoutMap p = some r ∧
        ((lookupA st.masterMap (resolveRelationshipPath p masterRel.target) = none ∧
            ThemeInvariant st ∧
            (∃ mrf, zipFile tz (masterRelationshipsPath
                (resolveRelationshipPath p masterRel.target)) = some mrf ∧
              ∃ trel ∈ parseRelationships mrf, trel.relType = REL_TYPE_theme)) →
          ∃ t, minfo.themePath = some t ∧ (zipFile st'.output t).isSome)) ∧
    (∀ nmp r st', copyLayoutFromMaster tz p nmp st = .ok (r, st') →
      ∃ rs, zipFile st'.output (layoutRelationshipsPath r) = some (Content.rels rs) ∧
        ∀ rel ∈ rs, rel.relType = REL_TYPE_slideMaster →
          rel.target = relativePath r nmp) := by
  refine ⟨?_, ?_, ?_, ?_⟩
  · intro hnone
    unfold ensureLayoutAssets
    rw [hfresh, hnone]
  · intro rf hrf hfind
    unfold ensureLayoutAssets
    rw [hfresh, hrf]
    dsimp only
    rw [hfind]
  · intro r st' h
    unfold ensureLayoutAssets at h
    split at h
    · rename_i np hnp
      rw [hfresh] at hnp
      cases hnp
    · split at h
      · cases h
      · rename_i rf hrf
        split at h
        · cases h
        · rename_i masterRel hfind
          split at h
          · cases h
          · rename_i info1 st1 hok
            split at h
            · cases h
            · rename_i np hnp
              rw [Except.ok.injEq, Prod.mk.injEq] at h
              obtain ⟨hi, hs⟩ := h
              subst hi
              subst hs
              refine ⟨rf, masterRel, info1, hrf, hfind, ?_, hnp, ?_⟩
              · exact ensureMasterAssets_ok_lookup tz _ st info1 st1 hok
              · rintro ⟨hm, hinv, mrf, hmrf, hex⟩
                exact ensureMasterAssets_theme tz _ st info1 st1 mrf hm hinv
                  hok hmrf hex
  · intro nmp r st' h
    unfold copyLayoutFromMaster at h
    split at h
    · rename_i np hnp
      rw [hfresh] at hnp
      cases hnp
    · split at h
      · cases h
      · rename_i lf hz
        dsimp only at h
        split at h
        · rename_i rf hrels
          rw [Except.ok.injEq, Prod.mk.injEq] at h
          obtain ⟨hi, hs⟩ := h
          subst hi
          subst hs
          refine ⟨(processLayoutRels tz p
              ("ppt/slideLayouts/slideLayout" ++ toString st.nextLayoutNumber ++
                ".xml") nmp (parseRelationships rf) ({ st with
                nextLayoutNumber := st.nextLayoutNumber + 1,
                output := zipPut st.output
                  ("ppt/slideLayouts/slideLayout" ++ toString st.nextLayoutNumber ++
                    ".xml") lf,
                contentTypes := ensureContentType st.contentTypes
                  ("/" ++ ("ppt/slideLayouts/slideLayout" ++
                    toString st.nextLayoutNumber ++ ".xml"))
                  CONTENT_TYPE_slideLayout } : CloneState)).1, ?_, ?_⟩
          · dsimp only
            rw [zipFile_zipPut_self]
          · intro rel hmem htype
            exact processLayoutRels_slideMaster_target tz p
              ("ppt/slideLayouts/slideLayout" ++ toString st.nextLayoutNumber ++
                ".xml") nmp
              (parseRelationships rf) ({ st with
                nextLayoutNumber := st.nextLayoutNumber + 1,
                output := zipPut st.output
                  ("ppt/slideLayouts/slideLayout" ++ toString st.nextLayoutNumber ++
                    ".xml") lf,
                contentTypes := ensureContentType st.contentTypes
                  ("/" ++ ("ppt/slideLayouts/slideLayout" ++
                    toString st.nextLayoutNumber ++ ".xml"))
                  CONTENT_TYPE_slideLayout } : CloneState) rel hmem htype
        · rename_i hrels
          rw [Except.ok.injEq, Prod.mk.injEq] at h
          obtain ⟨hi, hs⟩ := h
          subst hi
          subst hs
          refine ⟨[], ?_, ?_⟩
          · dsimp only
            rw [zipFile_zipPut_self]
          · intro rel hmem
            simp at hmem

/-- A template whose layout has a relationships file without any
`slideMaster` relationship. -/
def cloneTplNoMaster : Zip := [
  ("ppt/slideLayouts/slideLayout1.xml", .text "<p:sldLayout/>"),
  ("ppt/slideLayouts/_rels/slideLayout1.xml.rels", .rels [
    ⟨"rId1", REL_TYPE_image, "../media/image1.png"⟩])]

/-- Witness for C3 on concrete templates: the two error cases fire with
their exact messages, and on the well-formed template the layout clone
memoizes the master (with its cloned theme present in the output) and
rewrites the `slideMaster` relationship target. -/
theorem C3_witness :
    (ensureLayoutAssets
        [("ppt/slideLayouts/slideLayout1.xml", Content.text "<p:sldLayout/>")]
        "ppt/slideLayouts/slideLayout1.xml" cloneSt0 =
      .error ("模板布局缺少关系文件：" ++
        layoutRelationshipsPath "ppt/slideLayouts/slideLayout1.xml")) ∧
    (ensureLayoutAssets cloneTplNoMaster "ppt/slideLayouts/slideLayout1.xml" cloneSt0 =
      .error ("布局文件未关联母版：ppt/slideLayouts/slideLayout1.xml")) ∧
    (∃ r st', ensureLayoutAssets cloneTpl "ppt/slideLayouts/slideLayout1.xml" cloneSt0 =
        Except.ok (r, st') ∧
      ∃ minfo,
        lookupA st'.masterMap "ppt/slideMasters/slideMaster1.xml" = some minfo ∧
        lookupA st'.layoutMap "ppt/slideLayouts/slideLayout1.xml" = some r ∧
        ∃ t, minfo.themePath = some t ∧ (zipFile st'.output t).isSome) ∧
    (∃ r st', copyLayoutFromMaster cloneTpl "ppt/slideLayouts/slideLayout1.xml"
        "ppt/slideMasters/slideMaster5.xml" cloneSt0 = Except.ok (r, st') ∧
      ∃ rs, zipFile st'.output (layoutRelationshipsPath r) = some (Content.rels rs) ∧
        ∀ rel ∈ rs, rel.relType = REL_TYPE_slideMaster →
          rel.target = relativePath r "ppt/slideMasters/slideMaster5.xml") := by
  have hinv0 : ThemeInvariant cloneSt0 := by
    intro k w hk
    simp [cloneSt0, lookupA] at hk
  refine ⟨?_, ?_, ?_, ?_⟩
  · exact (C3_layout_clone_chain
      [("ppt/slideLayouts/slideLayout1.xml", Content.text "<p:sldLayout/>")]
      "ppt/slideLayouts/slideLayout1.xml" cloneSt0 (by decide)).1 (by decide)
  · exact (C3_layout_clone_chain cloneTplNoMaster
      "ppt/slideLayouts/slideLayout1.xml" cloneSt0 (by decide)).2.1
      (Content.rels [⟨"rId1", REL_TYPE_image, "../media/image1.png"⟩])
      (by decide) (by decide)
  · cases hEq : ensureLayoutAssets cloneTpl "ppt/slideLayouts/slideLayout1.xml"
        cloneSt0 with
    | error e =>
      have hok : exceptOk (ensureLayoutAssets cloneTpl
          "ppt/slideLayouts/slideLayout1.xml" cloneSt0) = true := by decide
      rw [hEq] at hok
      cases hok
    | ok v =>
      obtain ⟨rf, masterRel, minfo, h1, h2, h3, h4, h5⟩ :=
        (C3_layout_clone_chain cloneTpl "ppt/slideLayouts/slideLayout1.xml"
          cloneSt0 (by decide)).2.2.1 v.1 v.2 (by rw [hEq])
      have hrfv : rf = Content.rels
          [⟨"rId1", REL_TYPE_slideMaster, "../slideMasters/slideMaster1.xml"⟩] := by
        have hconc : zipFile cloneTpl
            (layoutRelationshipsPath "ppt/slideLayouts/slideLayout1.xml") =
            some (Content.rels
              [⟨"rId1", REL_TYPE_slideMaster, "../slideMasters/slideMaster1.xml"⟩]) := by
          decide
        rw [hconc] at h1
        exact (Option.some.inj h1).symm
      subst hrfv
      have hmr : masterRel =
          ⟨"rId1", REL_TYPE_slideMaster, "../slideMasters/slideMaster1.xml"⟩ := by
        have hconc : (parseRelationships (Content.rels
            [⟨"rId1", REL_TYPE_slideMaster, "../slideMasters/slideMaster1.xml"⟩])).find?
            (fun rel => rel.relType = REL_TYPE_slideMaster) =
            some ⟨"rId1", REL_TYPE_slideMaster, "../slideMasters/slideMaster1.xml"⟩ := by
          decide
        rw [hconc] at h2
        exact (Option.some.inj h2).symm
      subst hmr
      have hres : resolveRelationshipPath "ppt/slideLayouts/slideLayout1.xml"
          "../slideMasters/slideMaster1.xml" = "ppt/slideMasters/slideMaster1.xml" := by
        decide
      rw [hres] at h3
      refine ⟨v.1, v.2, rfl, minfo, h3, h4, ?_⟩
      refine h5 ⟨by rw [hres]; decide, hinv0, ?_⟩
      refine ⟨Content.rels [
        ⟨"rId1", REL_TYPE_theme, "../theme/theme1.xml"⟩,
        ⟨"rId2", REL_TYPE_slideLayout, "../slideLayouts/slideLayout1.xml"⟩],
        by rw [hres]; decide,
        ⟨"rId1", REL_TYPE_theme, "../theme/theme1.xml"⟩, by decide, rfl⟩
  · cases hEq : copyLayoutFromMaster cloneTpl "ppt/slideLayouts/slideLayout1.xml"
        "ppt/slideMasters/slideMaster5.xml" cloneSt0 with
    | error e =>
      have hok : exceptOk (copyLayoutFromMaster cloneTpl
          "ppt/slideLayouts/slideLayout1.xml" "ppt/slideMasters/slideMaster5.xml"
          cloneSt0) = true := by decide
      rw [hEq] at hok
      cases hok
    | ok v =>
      obtain ⟨rs, h1, h2⟩ :=
        (C3_layout_clone_chain cloneTpl "ppt/slideLayouts/slideLayout1.xml"
          cloneSt0 (by decide)).2.2.2 "ppt/slideMasters/slideMaster5.xml" v.1 v.2
          (by rw [hEq])
      exact ⟨v.1, v.2, rfl, rs, h1, h2⟩

/-! ## Placeholder substitution (`replaceTextInSlidePreferred`, merged.js
lines 1325-1368)

The JavaScript code runs, for each configured key, a global replace over
`(<a:t[^>]*>)([\s\S]*?)(<\/a:t>)` (case-insensitive) and rewrites only
the captured body.  The regex semantics are embedded exactly: a match
starts at the earliest position with a `<a:t`-prefix (case-insensitive)
followed by non-`>` characters and a `>`, and its body extends lazily to
the first subsequent `</a:t>`; on failure the scan advances one
character.  Within a body three patterns are applied in order: the
`{{key}}` form with optional whitespace/NBSP-entity padding and a
consumed trailing run (whose re-appended "suffix" is computed by the
source's literally-escaped regex, which matches only entity/backslash
token text), the `[key]` form, and the bare key with optional padding.
Whitespace runs are matched greedily; for keys that do not begin with a
whitespace token (all keys this engine uses) this coincides with the
backtracking regex. -/

/-- ASCII lower-casing on code points, the case folding performed by the
regex `i` flag on the characters appearing here. -/
def lowerCode (n : ℕ) : ℕ := if 65 ≤ n ∧ n ≤ 90 then n + 32 else n

/-- Case-insensitive character comparison. -/
def charEqCI (a b : Char) : Bool := lowerCode a.toNat = lowerCode b.toNat

/-- Case-insensitive prefix test. -/
def isPrefixCI : List Char → List Char → Bool
  | [], _ => true
  | _ :: _, [] => false
  | p :: ps, c :: cs => charEqCI c p && isPrefixCI ps cs

/-- The character class of JavaScript `\s` together with ` ` (which
the `optionalSpaces` alternation adds separately). -/
def isJsSpace (c : Char) : Bool :=
  let n := c.toNat
  (9 ≤ n ∧ n ≤ 13) || n = 32 || n = 160 || n = 0x1680 ||
    (0x2000 ≤ n ∧ n ≤ 0x200A) || n = 0x2028 || n = 0x2029 || n = 0x202F ||
    n = 0x205F || n = 0x3000 || n = 0xFEFF

/-- `<a:t` — the opening-tag head of the text-run pattern. -/
def openTok : List Char := ['<', 'a', ':', 't']

/-- `</a:t>` — the closing tag of the text-run pattern. -/
def closeTok : List Char := ['<', '/', 'a', ':', 't', '>']

/-- One fragment of a slide document as carved up by the text-run regex:
an unmatched character, or one match `open ++ body ++ close`. -/
inductive Piece
  | raw (c : Char)
  | run (openTag body closeTag : List Char)
  deriving DecidableEq, Repr

/-- Reassemble fragments. -/
def joinPieces : List Piece → List Char
  | [] => []
  | .raw c :: ps => c :: joinPieces ps
  | .run o b cl :: ps => o ++ b ++ cl ++ joinPieces ps

/-- Apply a transformation to every captured body. -/
def mapBodies (T : List Char → List Char) : List Piece → List Piece :=
  List.map (fun pc =>
    match pc with
    | .raw c => .raw c
    | .run o b cl => .run o (T b) cl)

/-- Match `<a:t[^>]*>` at the start of `s`: the greedy `[^>]*` runs to
the first `>`.  Returns the whole opening tag and the remainder. -/
def tryOpen (s : List Char) : Option (List Char × List Char) :=
  if isPrefixCI openTok s then
    let afterTag := s.drop 4
    let attrs := afterTag.takeWhile (fun c => c ≠ '>')
    match afterTag.dropWhile (fun c => c ≠ '>') with
    | '>' :: rest => some (s.take 4 ++ attrs ++ ['>'], rest)
    | _ => none
  else none

/-- Find the first (case-insensitive) occurrence of `</a:t>`: the lazy
`[\s\S]*?` body.  Returns body, the actual closing-tag characters, and
the remainder. -/
def findClose : List Char → Option (List Char × List Char × List Char)
  | [] => none
  | c :: cs =>
    if isPrefixCI closeTok (c :: cs) then
      some ([], (c :: cs).take 6, (c :: cs).drop 6)
    else
      match findClose cs with
      | some (b, cl, a) => some (c :: b, cl, a)
      | none => none

/-- The global text-run scan, with explicit fuel (one unit per consumed
leading character; `scanRuns` supplies enough). -/
def scanF : ℕ → List Char → List Piece
  | 0, _ => []
  | _, [] => []
  | fuel + 1, c :: cs =>
    match tryOpen (c :: cs) with
    | some (o, rest) =>
      match findClose rest with
      | some (b, cl, rest2) => .run o b cl :: scanF fuel rest2
      | none => .raw c :: scanF fuel cs
    | none => .raw c :: scanF fuel cs

/-- Decompose a document into raw characters and text-run matches,
exactly as the global regex does. -/
def scanRuns (s : List Char) : List Piece := scanF s.length s

/-- `"&nbsp;"`. -/
def nbspTok : List Char := ['&', 'n', 'b', 's', 'p', ';']

/-- `"&#160;"`. -/
def amp160Tok : List Char := ['&', '#', '1', '6', '0', ';']

/-- `"&#xA0;"`. -/
def ampxA0Tok : List Char := ['&', '#', 'x', 'A', '0', ';']

/-- Match one `optionalSpaces` unit at the head: a whitespace/NBSP
character or one of the three entity spellings.  Returns the number of
characters consumed. -/
def spUnit (s : List Char) : Option ℕ :=
  match s with
  | [] => none
  | c :: _ =>
    if isJsSpace c then some 1
    else if isPrefixCI nbspTok s then some 6
    else if isPrefixCI amp160Tok s then some 6
    else if isPrefixCI ampxA0Tok s then some 6
    else none

/-- Greedily consume `optionalSpaces`, returning the number of
characters consumed (fuel-driven). -/
def munchSpF : ℕ → List Char → ℕ
  | 0, _ => 0
  | fuel + 1, s =>
    match spUnit s with
    | some k => k + munchSpF fuel (s.drop k)
    | none => 0

/-- Greedy `optionalSpaces` run length. -/
def munchSp (s : List Char) : ℕ := munchSpF s.length s

/-- The token texts matched by the suffix-extraction regex
`/((?:\\s|\\u00A0|&nbsp;|&#160;|&#xA0;)*)$/i` of the placeholder
callback.  Inside a regex literal `\\s` is a literal backslash followed
by `s`, so the first two alternatives match literal `\s` / ` `
text, not whitespace. -/
def sufTokens : List (List Char) :=
  [['\\', 's'], ['\\', 'u', '0', '0', 'A', '0'], nbspTok, amp160Tok, ampxA0Tok]

/-- Whether a string is a concatenation of suffix tokens. -/
def decompF : ℕ → List Char → Bool
  | _, [] => true
  | 0, _ => false
  | fuel + 1, s =>
    sufTokens.any (fun t => isPrefixCI t s && decompF fuel (s.drop t.length))

/-- Whether a string decomposes into suffix tokens. -/
def decomposable (s : List Char) : Bool := decompF s.length s

/-- The longest token-decomposable suffix of the matched text — the
first (leftmost) position from which the anchored suffix regex
matches. -/
def suffixOfAux : List Char → List Char
  | [] => []
  | c :: t => if decomposable (c :: t) then c :: t else suffixOfAux t

/-- The `suffix` recovered by the placeholder replacement callback. -/
def suffixOf (m : List Char) : List Char := suffixOfAux m

/-- Match the placeholder pattern
`\{\{optionalSpaces key optionalSpaces\}\}optionalSpaces` at the start
of `s`.  On success returns the match length and its replacement text
(escaped value followed by the recovered suffix). -/
def tryPh (key ev : List Char) (s : List Char) : Option (ℕ × List Char) :=
  match s with
  | '\x7b' :: '\x7b' :: rest =>
    let i1 := munchSp rest
    let afterSp1 := rest.drop i1
    if isPrefixCI key afterSp1 then
      let afterKey := afterSp1.drop key.length
      let i2 := munchSp afterKey
      match afterKey.drop i2 with
      | '\x7d' :: '\x7d' :: rest2 =>
        let i3 := munchSp rest2
        let total := 2 + i1 + key.length + i2 + 2 + i3
        some (total, ev ++ suffixOf (s.take total))
      | _ => none
    else none
  | _ => none

/-- Match the bracket pattern `\[optionalSpaces key optionalSpaces\]`. -/
def tryBr (key : List Char) (s : List Char) : Option ℕ :=
  match s with
  | '[' :: rest =>
    let i1 := munchSp rest
    let afterSp1 := rest.drop i1
    if isPrefixCI key afterSp1 then
      let afterKey := afterSp1.drop key.length
      let i2 := munchSp afterKey
      match afterKey.drop i2 with
      | ']' :: _ => some (1 + i1 + key.length + i2 + 1)
      | _ => none
    else none
  | _ => none

/-- Match the direct pattern `optionalSpaces key optionalSpaces`. -/
def tryDirect (key : List Char) (s : List Char) : Option ℕ :=
  let i1 := munchSp s
  let afterSp1 := s.drop i1
  if isPrefixCI key afterSp1 then
    let afterKey := afterSp1.drop key.length
    let i2 := munchSp afterKey
    some (i1 + key.length + i2)
  else none

/-- Global leftmost non-overlapping replacement of the placeholder
pattern within one body. -/
def pass1F (key ev : List Char) : ℕ → List Char → List Char
  | 0, s => s
  | _, [] => []
  | fuel + 1, c :: cs =>
    match tryPh key ev (c :: cs) with
    | some (n, rep) => rep ++ pass1F key ev fuel ((c :: cs).drop n)
    | none => c :: pass1F key ev fuel cs

/-- Global replacement of the bracket pattern within one body. -/
def pass2F (key ev : List Char) : ℕ → List Char → List Char
  | 0, s => s
  | _, [] => []
  | fuel + 1, c :: cs =>
    match tryBr key (c :: cs) with
    | some n => ev ++ pass2F key ev fuel ((c :: cs).drop n)
    | none => c :: pass2F key ev fuel cs

/-- Global replacement of the direct pattern within one body. -/
def pass3F (key ev : List Char) : ℕ → List Char → List Char
  | 0, s => s
  | _, [] => []
  | fuel + 1, c :: cs =>
    match tryDirect key (c :: cs) with
    | some n => ev ++ pass3F key ev fuel ((c :: cs).drop n)
    | none => c :: pass3F key ev fuel cs

/-- The three in-body replacements of one key, in source order:
placeholder, bracket, direct. -/
def replaceKeyInBody (key ev : List Char) (b : List Char) : List Char :=
  let b1 := pass1F key ev b.length b
  let b2 := pass2F key ev b1.length b1
  pass3F key ev b2.length b2

/-- One `result.replace(textRunPattern, …)` pass for one key: rewrite
every matched body, leave everything else untouched. -/
def replaceOneKey (key ev : List Char) (s : List Char) : List Char :=
  joinPieces (mapBodies (replaceKeyInBody key ev) (scanRuns s))

/-- `replaceTextInSlidePreferred` (merged.js lines 1325-1368): iterate
the replacement entries; an empty value is skipped unless the key is
`性别` or `年龄`; otherwise the XML-escaped value is substituted inside
every `<a:t>` body. -/
def replaceTextInSlidePreferred (xmlContent : String)
    (replacements : List (String × String)) : String :=
  replacements.foldl
    (fun result kv =>
      if kv.2 = "" ∧ kv.1 ≠ "性别" ∧ kv.1 ≠ "年龄" then result
      else String.mk (replaceOneKey kv.1.toList (escapeXmlValue kv.2).toList
        result.toList))
    xmlContent

/-- `applyCoverPlaceholders` (merged.js lines 1291-1300): the cover-page
field map in source order (missing employee fields default to ""). -/
def applyCoverPlaceholders (xml : String) (name gender age date idNum : String) :
    String :=
  replaceTextInSlidePreferred xml
    [("姓名", name), ("性别", gender), ("年龄", age), ("日期", date), ("工号", idNum)]

/-- The accumulated per-body effect of a whole replacement map. -/
def composedBodyTransform (replacements : List (String × String))
    (b : List Char) : List Char :=
  replacements.foldl
    (fun acc kv =>
      if kv.2 = "" ∧ kv.1 ≠ "性别" ∧ kv.1 ≠ "年龄" then acc
      else replaceKeyInBody kv.1.toList (escapeXmlValue kv.2).toList acc)
    b

/-! ### Lemmas about the scanner and the per-key passes -/

/-- A piece whose body (if any) contains no raw `<` — the shape of
character data in well-formed XML, where `<` is always escaped. -/
def bodyNoLT (pc : Piece) : Bool :=
  match pc with
  | .raw _ => true
  | .run _ b _ => decide ('<' ∉ b)

theorem charEqCI_toNat {a b : Char} (h : charEqCI a b = true) :
    lowerCode a.toNat = lowerCode b.toNat := by
  simpa [charEqCI] using h

theorem charEqCI_ne {a b z : Char}
    (h : charEqCI a b = true) (hz : lowerCode b.toNat ≠ lowerCode z.toNat) :
    a ≠ z := by
  intro he
  exact hz (he ▸ charEqCI_toNat h).symm

theorem lowerCode_eq_sixty {n : ℕ} (h : lowerCode n = 60) : n = 60 := by
  unfold lowerCode at h
  split at h <;> omega

theorem charEqCI_lt {a : Char} (h : charEqCI a '<' = true) : a = '<' := by
  have h1 : lowerCode a.toNat = 60 := charEqCI_toNat h
  have h2 : a.toNat = 60 := lowerCode_eq_sixty h1
  have h3 : a.val = ('<' : Char).val := by
    apply UInt32.ext
    simpa [Char.toNat] using h2
  exact Char.ext h3

theorem isPrefixCI_length {p : List Char} :
    ∀ {s : List Char}, isPrefixCI p s = true → p.length ≤ s.length := by
  induction p with
  | nil => intro s _; simp
  | cons a p ih =>
    intro s h
    cases s with
    | nil => simp [isPrefixCI] at h
    | cons c cs =>
      simp only [isPrefixCI, Bool.and_eq_true] at h
      simpa using ih h.2

theorem isPrefixCI_append_right {p s : List Char} (z : List Char)
    (h : isPrefixCI p s = true) : isPrefixCI p (s ++ z) = true := by
  induction p generalizing s with
  | nil => simp [isPrefixCI]
  | cons a p ih =>
    cases s with
    | nil => simp [isPrefixCI] at h
    | cons c cs =>
      simp only [isPrefixCI, Bool.and_eq_true] at h ⊢
      exact ⟨h.1, ih h.2⟩

theorem isPrefixCI_congr_take {p : List Char} :
    ∀ {s t : List Char}, s.take p.length = t.take p.length →
      isPrefixCI p s = isPrefixCI p t := by
  induction p with
  | nil => intro s t _; simp [isPrefixCI]
  | cons a p ih =>
    intro s t h
    cases s with
    | nil =>
      cases t with
      | nil => rfl
      | cons c cs => simp [List.take] at h
    | cons c cs =>
      cases t with
      | nil => simp [List.take] at h
      | cons d ds =>
        simp only [List.take, List.cons.injEq] at h
        simp only [isPrefixCI, h.1, ih h.2]

theorem gtn_openTok {s : List Char} (h : isPrefixCI openTok s = true) :
    '>' ∉ s.take 4 := by
  cases s with
  | nil => simp
  | cons c0 s =>
  cases s with
  | nil =>
    simp only [isPrefixCI, openTok, Bool.and_eq_true] at h
    simp only [List.take, List.mem_cons, List.not_mem_nil, or_false]
    exact fun he => charEqCI_ne h.1 (by decide) he.symm
  | cons c1 s =>
  cases s with
  | nil =>
    simp only [isPrefixCI, openTok, Bool.and_eq_true] at h
    simp only [List.take, List.mem_cons, List.not_mem_nil, or_false]
    intro he
    rcases he with he | he
    · exact charEqCI_ne h.1 (by decide) he.symm
    · exact charEqCI_ne h.2.1 (by decide) he.symm
  | cons c2 s =>
  cases s with
  | nil =>
    simp only [isPrefixCI, openTok, Bool.and_eq_true] at h
    simp only [List.take, List.mem_cons, List.not_mem_nil, or_false]
    intro he
    rcases he with he | he | he
    · exact charEqCI_ne h.1 (by decide) he.symm
    · exact charEqCI_ne h.2.1 (by decide) he.symm
    · exact charEqCI_ne h.2.2.1 (by decide) he.symm
  | cons c3 s =>
    simp only [isPrefixCI, openTok, Bool.and_eq_true] at h
    simp only [List.take, List.mem_cons, List.not_mem_nil, or_false]
    intro he
    rcases he with he | he | he | he
    · exact charEqCI_ne h.1 (by decide) he.symm
    · exact charEqCI_ne h.2.1 (by decide) he.symm
    · exact charEqCI_ne h.2.2.1 (by decide) he.symm
    · exact charEqCI_ne h.2.2.2.1 (by decide) he.symm

theorem take_app_of_le {α : Type} {X : List α} (Y : List α) {n : ℕ}
    (h : n ≤ X.length) : (X ++ Y).take n = X.take n := by
  rw [List.take_append_eq_append_take, Nat.sub_eq_zero_of_le h, List.take_zero,
    List.append_nil]

theorem takeWhile_all_append {p : Char → Bool} {a : List Char} {y : Char} {z : List Char}
    (ha : ∀ x ∈ a, p x = true) (hy : p y = false) :
    (a ++ y :: z).takeWhile p = a ∧ (a ++ y :: z).dropWhile p = y :: z := by
  induction a with
  | nil => simp [List.takeWhile, List.dropWhile, hy]
  | cons x a ih =>
    have hx : p x = true := ha x (by simp)
    have ih2 := ih (fun c hc => ha c (by simp [hc]))
    constructor
    · show List.takeWhile p (x :: (a ++ y :: z)) = x :: a
      rw [List.takeWhile_cons, if_pos hx, ih2.1]
    · show List.dropWhile p (x :: (a ++ y :: z)) = y :: z
      rw [List.dropWhile_cons, if_pos hx, ih2.2]

theorem tryOpen_eq {s o r : List Char} (h : tryOpen s = some (o, r)) :
    ∃ pre, o = pre ++ ['>'] ∧ s = o ++ r ∧ '>' ∉ pre ∧ 4 ≤ pre.length ∧
      isPrefixCI openTok s = true ∧ pre.take 4 = s.take 4 := by
  unfold tryOpen at h
  split at h
  case isFalse => exact absurd h (by simp)
  case isTrue hp =>
    have h4 : 4 ≤ s.length := by
      have := isPrefixCI_length hp
      simpa [openTok] using this
    have hlt4 : (s.take 4).length = 4 := by
      rw [List.length_take]
      omega
    dsimp only at h
    split at h
    case h_1 rest heq =>
      rw [Option.some.injEq, Prod.mk.injEq] at h
      obtain ⟨ho, hr⟩ := h
      refine ⟨s.take 4 ++ (s.drop 4).takeWhile (fun c => decide (c ≠ '>')),
        ?_, ?_, ?_, ?_, hp, ?_⟩
      · rw [← ho, List.append_assoc]
      · rw [← ho, ← hr]
        have h2 := List.takeWhile_append_dropWhile
          (p := fun c => decide (c ≠ '>')) (l := s.drop 4)
        conv_lhs => rw [← List.take_append_drop 4 s, ← h2]
        rw [heq]
        simp [List.append_assoc]
      · intro hmem
        rcases List.mem_append.mp hmem with hmem | hmem
        · exact gtn_openTok hp hmem
        · have := List.mem_takeWhile_imp hmem
          simp at this
      · rw [List.length_append]
        omega
      · rw [take_app_of_le _ (by omega), List.take_take]
        simp
    case h_2 =>
      exact absurd h (by simp)

theorem tryOpen_extend {s o r : List Char} (h : tryOpen s = some (o, r)) (z : List Char) :
    tryOpen (o ++ z) = some (o, z) := by
  obtain ⟨pre, ho, hs, hgt, hlen, hp, ht2⟩ := tryOpen_eq h
  have htake : (o ++ z).take 4 = s.take 4 := by
    rw [ho, List.append_assoc, take_app_of_le _ (by omega), ht2]
  have hpz : isPrefixCI openTok (o ++ z) = true := by
    have := isPrefixCI_congr_take (p := openTok) (s := o ++ z) (t := s) (by
      show (o ++ z).take openTok.length = s.take openTok.length
      simpa [openTok] using htake)
    rw [this, hp]
  unfold tryOpen
  rw [if_pos hpz]
  have hdrop : (o ++ z).drop 4 = pre.drop 4 ++ '>' :: z := by
    rw [ho, List.append_assoc, List.drop_append_eq_append_drop]
    have h0 : 4 - pre.length = 0 := by omega
    rw [h0]
    simp
  have hta := takeWhile_all_append (p := fun c => decide (c ≠ '>')) (a := pre.drop 4)
    (y := '>') (z := z)
    (fun x hx => by
      have hxp : x ∈ pre := List.drop_subset 4 pre hx
      simp only [decide_eq_true_eq]
      intro he
      exact hgt (he ▸ hxp))
    (by simp)
  dsimp only
  rw [hdrop, hta.1, hta.2]
  have hfin : (o ++ z).take 4 ++ pre.drop 4 ++ ['>'] = o := by
    rw [htake, ← ht2, List.append_assoc, ← List.append_assoc (pre.take 4),
      List.take_append_drop, ho]
  rw [hfin]
  rfl

theorem tryOpen_first_gt {s o r : List Char} {m : ℕ} (h : tryOpen s = some (o, r))
    (hm : '>' ∉ s.take m) : m < o.length := by
  obtain ⟨pre, ho, hs, hgt, hlen, hp, ht2⟩ := tryOpen_eq h
  by_contra hle
  push_neg at hle
  apply hm
  have hslen : s = (pre ++ ['>']) ++ r := by rw [hs, ho]
  rw [hslen, List.take_append_eq_append_take]
  have hlo : o.length = pre.length + 1 := by rw [ho]; simp
  have : (pre ++ ['>']).length ≤ m := by simp; omega
  rw [List.take_of_length_le this]
  exact List.mem_append_left _ (List.mem_append_right _ (by simp))

theorem dropWhile_gtn {l : List Char} (h : '>' ∈ l) :
    ∃ t, l.dropWhile (fun c => decide (c ≠ '>')) = '>' :: t := by
  induction l with
  | nil => simp at h
  | cons c cs ih =>
    by_cases hc : c = '>'
    · subst hc
      exact ⟨cs, by simp [List.dropWhile]⟩
    · have hmem : '>' ∈ cs := by
        rcases List.mem_cons.mp h with h1 | h1
        · exact absurd h1.symm hc
        · exact h1
      obtain ⟨t, ht⟩ := ih hmem
      exact ⟨t, by rw [List.dropWhile_cons, if_pos (by simp [hc]), ht]⟩

theorem tryOpen_none_cases {s : List Char} (h : tryOpen s = none) :
    isPrefixCI openTok s = false ∨ '>' ∉ s.drop 4 := by
  unfold tryOpen at h
  split at h
  case isFalse hp => exact Or.inl (by simpa using hp)
  case isTrue hp =>
    dsimp only at h
    split at h
    case h_1 rest => exact absurd h (by simp)
    case h_2 hne =>
      refine Or.inr (fun hmem => ?_)
      obtain ⟨t, ht⟩ := dropWhile_gtn hmem
      exact hne t ht

theorem findClose_eq :
    ∀ {r b cl r2 : List Char}, findClose r = some (b, cl, r2) →
      r = b ++ cl ++ r2 ∧ isPrefixCI closeTok cl = true ∧ cl.length = 6 := by
  intro r
  induction r with
  | nil => intro b cl r2 h; simp [findClose] at h
  | cons c cs ih =>
    intro b cl r2 h
    unfold findClose at h
    split at h
    case isTrue hp =>
      rw [Option.some.injEq, Prod.mk.injEq, Prod.mk.injEq] at h
      obtain ⟨hb, hcl, hr2⟩ := h
      have hlen : closeTok.length ≤ (c :: cs).length := isPrefixCI_length hp
      simp only [closeTok, List.length_cons, List.length_nil] at hlen
      refine ⟨?_, ?_, ?_⟩
      · rw [← hb, ← hcl, ← hr2]
        simp [List.take_append_drop]
      · rw [← hcl]
        have : ((c :: cs).take 6).take closeTok.length = (c :: cs).take closeTok.length := by
          simp [closeTok, List.take_take]
        rw [isPrefixCI_congr_take this, hp]
      · rw [← hcl]
        simp only [List.length_take, List.length_cons]
        omega
    case isFalse hp =>
      split at h
      case h_1 b' cl' a' heq =>
        rw [Option.some.injEq, Prod.mk.injEq, Prod.mk.injEq] at h
        obtain ⟨hb, hcl, hr2⟩ := h
        obtain ⟨h1, h2, h3⟩ := ih heq
        subst hcl hr2
        refine ⟨?_, h2, h3⟩
        rw [← hb, h1]
        simp
      case h_2 => exact absurd h (by simp)

theorem charEqCI_lt_false {x : Char} (hx : x ≠ '<') : charEqCI x '<' = false := by
  cases hc : charEqCI x '<'
  · rfl
  · exact absurd (charEqCI_lt hc) hx

theorem findClose_emerge {b cl z : List Char} (hb : '<' ∉ b)
    (hcl : isPrefixCI closeTok cl = true) (hlen : cl.length = 6) :
    findClose (b ++ cl ++ z) = some (b, cl, z) := by
  induction b with
  | nil =>
    cases cl with
    | nil => simp at hlen
    | cons c cs =>
      show findClose (c :: (cs ++ z)) = _
      unfold findClose
      have hp : isPrefixCI closeTok (c :: cs ++ z) = true := isPrefixCI_append_right z hcl
      rw [if_pos (by simpa using hp)]
      have h1 : (c :: (cs ++ z)).take 6 = c :: cs := by
        have h' : ((c :: cs) ++ z).take 6 = c :: cs := List.take_left' hlen
        simpa using h'
      have h2 : (c :: (cs ++ z)).drop 6 = z := by
        have h' : ((c :: cs) ++ z).drop 6 = z := List.drop_left' hlen
        simpa using h'
      rw [h1, h2]
  | cons x b ih =>
    have hx : x ≠ '<' := fun he => hb (by simp [he])
    have ihb : '<' ∉ b := fun hc => hb (by simp [hc])
    show findClose (x :: (b ++ cl ++ z)) = _
    unfold findClose
    have hp : ∀ L : List Char, isPrefixCI closeTok (x :: L) = false := fun L => by
      simp only [closeTok, isPrefixCI, charEqCI_lt_false hx, Bool.false_and]
    rw [if_neg (by simp [hp])]
    rw [ih ihb]

theorem findClose_suffix_some :
    ∀ {r t : List Char} {x : List Char × List Char × List Char},
      findClose t = some x → t.IsSuffix r → ∃ y, findClose r = some y := by
  intro r
  induction r with
  | nil =>
    intro t x ht hsuf
    rw [List.suffix_nil.mp hsuf] at ht
    simp [findClose] at ht
  | cons c cs ih =>
    intro t x ht hsuf
    rcases List.suffix_cons_iff.mp hsuf with heq | hsuf'
    · exact ⟨x, heq ▸ ht⟩
    · obtain ⟨y, hy⟩ := ih ht hsuf'
      unfold findClose
      split
      · exact ⟨_, rfl⟩
      · rw [hy]
        exact ⟨_, rfl⟩

theorem findClose_none_suffix {r t : List Char} (h : findClose r = none)
    (hsuf : t.IsSuffix r) : findClose t = none := by
  cases ht : findClose t with
  | none => rfl
  | some x =>
    obtain ⟨y, hy⟩ := findClose_suffix_some ht hsuf
    rw [h] at hy
    exact absurd hy (by simp)

theorem mapBodies_nil (T : List Char → List Char) : mapBodies T [] = [] := rfl

theorem mapBodies_cons_raw (T : List Char → List Char) (c : Char) (ps : List Piece) :
    mapBodies T (.raw c :: ps) = .raw c :: mapBodies T ps := rfl

theorem mapBodies_cons_run (T : List Char → List Char) (o b cl : List Char)
    (ps : List Piece) :
    mapBodies T (.run o b cl :: ps) = .run o (T b) cl :: mapBodies T ps := rfl

theorem joinPieces_cons_raw (c : Char) (ps : List Piece) :
    joinPieces (.raw c :: ps) = c :: joinPieces ps := rfl

theorem joinPieces_cons_run (o b cl : List Char) (ps : List Piece) :
    joinPieces (.run o b cl :: ps) = o ++ b ++ cl ++ joinPieces ps := rfl

theorem join_map_raw (s : List Char) : joinPieces (s.map .raw) = s := by
  induction s with
  | nil => rfl
  | cons c cs ih => simp only [List.map, joinPieces_cons_raw, ih]

theorem mapBodies_map_raw (T : List Char → List Char) (s : List Char) :
    mapBodies T (s.map .raw) = s.map .raw := by
  induction s with
  | nil => rfl
  | cons c cs ih => simp only [List.map, mapBodies_cons_raw, ih]

theorem mapBodies_id (P : List Piece) : mapBodies (fun b => b) P = P := by
  induction P with
  | nil => rfl
  | cons pc ps ih =>
    cases pc with
    | raw c => simp only [mapBodies_cons_raw, ih]
    | run o b cl => simp only [mapBodies_cons_run, ih]

theorem mapBodies_comp (f g : List Char → List Char) (P : List Piece) :
    mapBodies g (mapBodies f P) = mapBodies (fun b => g (f b)) P := by
  induction P with
  | nil => rfl
  | cons pc ps ih =>
    cases pc with
    | raw c => simp only [mapBodies_cons_raw, ih]
    | run o b cl => simp only [mapBodies_cons_run, ih]

theorem scanF_nil : ∀ fuel, scanF fuel [] = [] := by
  intro fuel
  cases fuel <;> rfl

theorem tryOpen_nil : tryOpen [] = none := by decide

theorem scanF_run_step {fuel : ℕ} {s o r b cl r2 : List Char}
    (h1 : tryOpen s = some (o, r)) (h2 : findClose r = some (b, cl, r2)) :
    scanF (fuel + 1) s = .run o b cl :: scanF fuel r2 := by
  cases s with
  | nil => rw [tryOpen_nil] at h1; exact absurd h1 (by simp)
  | cons c cs =>
    show (match tryOpen (c :: cs) with
      | some (o, rest) =>
        match findClose rest with
        | some (b, cl, rest2) => Piece.run o b cl :: scanF fuel rest2
        | none => .raw c :: scanF fuel cs
      | none => .raw c :: scanF fuel cs) = _
    rw [h1]
    dsimp only
    rw [h2]

theorem scanF_raw_step {fuel : ℕ} {c : Char} {cs : List Char}
    (h : tryOpen (c :: cs) = none ∨
      ∃ o r, tryOpen (c :: cs) = some (o, r) ∧ findClose r = none) :
    scanF (fuel + 1) (c :: cs) = .raw c :: scanF fuel cs := by
  show (match tryOpen (c :: cs) with
    | some (o, rest) =>
      match findClose rest with
      | some (b, cl, rest2) => Piece.run o b cl :: scanF fuel rest2
      | none => .raw c :: scanF fuel cs
    | none => .raw c :: scanF fuel cs) = _
  rcases h with h1 | ⟨o, r, h1, h2⟩
  · rw [h1]
  · rw [h1]
    dsimp only
    rw [h2]

theorem tryOpen_parts {s o r : List Char} (h : tryOpen s = some (o, r)) :
    s = o ++ r ∧ 5 ≤ o.length := by
  obtain ⟨pre, ho, hs, hgt, hlen, hp, ht2⟩ := tryOpen_eq h
  refine ⟨hs, ?_⟩
  rw [ho, List.length_append]
  simp only [List.length_cons, List.length_nil]
  omega

theorem join_scanF : ∀ (fuel : ℕ) (s : List Char), s.length ≤ fuel →
    joinPieces (scanF fuel s) = s := by
  intro fuel
  induction fuel with
  | zero =>
    intro s hs
    have : s = [] := List.length_eq_zero.mp (Nat.le_zero.mp hs)
    subst this
    rfl
  | succ fuel ih =>
    intro s hs
    cases s with
    | nil => rfl
    | cons c cs =>
      cases h1 : tryOpen (c :: cs) with
      | none =>
        rw [scanF_raw_step (Or.inl h1), joinPieces_cons_raw,
          ih cs (by simpa using Nat.le_of_succ_le_succ (by simpa using hs))]
      | some pr =>
        obtain ⟨o, r⟩ := pr
        cases h2 : findClose r with
        | none =>
          rw [scanF_raw_step (Or.inr ⟨o, r, h1, h2⟩), joinPieces_cons_raw,
            ih cs (by simpa using Nat.le_of_succ_le_succ (by simpa using hs))]
        | some bclr =>
          obtain ⟨b, cl, r2⟩ := bclr
          obtain ⟨hs1, ho5⟩ := tryOpen_parts h1
          obtain ⟨hr1, _, _⟩ := findClose_eq h2
          have hlen2 : r2.length ≤ fuel := by
            have e1 : (c :: cs).length = o.length + (b.length + (cl.length + r2.length)) := by
              rw [hs1, hr1]
              simp [List.length_append]
            simp only [List.length_cons] at e1 hs
            omega
          rw [scanF_run_step h1 h2, joinPieces_cons_run, ih r2 hlen2]
          rw [hs1, hr1]
          simp [List.append_assoc]

theorem scanF_fuel_irrel : ∀ (f : ℕ) (g : ℕ) (s : List Char),
    s.length ≤ f → s.length ≤ g → scanF f s = scanF g s := by
  intro f
  induction f with
  | zero =>
    intro g s hf hg
    have : s = [] := List.length_eq_zero.mp (Nat.le_zero.mp hf)
    subst this
    rw [scanF_nil, scanF_nil]
  | succ f ih =>
    intro g s hf hg
    cases s with
    | nil => rw [scanF_nil, scanF_nil]
    | cons c cs =>
      cases g with
      | zero => simp at hg
      | succ g =>
        have hcs : cs.length ≤ f := by simp only [List.length_cons] at hf; omega
        have hcs' : cs.length ≤ g := by simp only [List.length_cons] at hg; omega
        cases h1 : tryOpen (c :: cs) with
        | none =>
          rw [scanF_raw_step (Or.inl h1), scanF_raw_step (Or.inl h1), ih g cs hcs hcs']
        | some pr =>
          obtain ⟨o, r⟩ := pr
          cases h2 : findClose r with
          | none =>
            rw [scanF_raw_step (Or.inr ⟨o, r, h1, h2⟩),
              scanF_raw_step (Or.inr ⟨o, r, h1, h2⟩), ih g cs hcs hcs']
          | some bclr =>
            obtain ⟨b, cl, r2⟩ := bclr
            obtain ⟨hs1, ho5⟩ := tryOpen_parts h1
            obtain ⟨hr1, _, _⟩ := findClose_eq h2
            have hlen2 : r2.length ≤ f ∧ r2.length ≤ g := by
              have e1 : (c :: cs).length = o.length + (b.length + (cl.length + r2.length)) := by
                rw [hs1, hr1]
                simp [List.length_append]
              simp only [List.length_cons] at e1 hf hg
              omega
            rw [scanF_run_step h1 h2, scanF_run_step h1 h2, ih g r2 hlen2.1 hlen2.2]

theorem scanF_runs : ∀ (fuel : ℕ) (s o b cl : List Char),
    .run o b cl ∈ scanF fuel s →
      (∀ z, tryOpen (o ++ z) = some (o, z)) ∧ isPrefixCI closeTok cl = true ∧
        cl.length = 6 ∧ 5 ≤ o.length := by
  intro fuel
  induction fuel with
  | zero => intro s o b cl h; simp [scanF] at h
  | succ fuel ih =>
    intro s o b cl h
    cases s with
    | nil => rw [scanF_nil] at h; simp at h
    | cons c cs =>
      cases h1 : tryOpen (c :: cs) with
      | none =>
        rw [scanF_raw_step (Or.inl h1)] at h
        rcases List.mem_cons.mp h with he | hm
        · exact absurd he (by simp)
        · exact ih cs o b cl hm
      | some pr =>
        obtain ⟨o', r⟩ := pr
        cases h2 : findClose r with
        | none =>
          rw [scanF_raw_step (Or.inr ⟨o', r, h1, h2⟩)] at h
          rcases List.mem_cons.mp h with he | hm
          · exact absurd he (by simp)
          · exact ih cs o b cl hm
        | some bclr =>
          obtain ⟨b', cl', r2⟩ := bclr
          rw [scanF_run_step h1 h2] at h
          rcases List.mem_cons.mp h with he | hm
          · rw [Piece.run.injEq] at he
            obtain ⟨heo, heb, hecl⟩ := he
            subst heo; subst hecl
            obtain ⟨hr1, hclp, hcll⟩ := findClose_eq h2
            exact ⟨tryOpen_extend h1, hclp, hcll, (tryOpen_parts h1).2⟩
          · exact ih r2 o b cl hm

theorem take_join_agree (T : List Char → List Char) :
    ∀ (P : List Piece), (∀ o b cl, .run o b cl ∈ P → 4 ≤ o.length) →
      ∀ n, n ≤ 4 →
        (joinPieces (mapBodies T P)).take n = (joinPieces P).take n := by
  intro P
  induction P with
  | nil => intro _ n _; rfl
  | cons pc ps ih =>
    intro h4 n hn
    cases pc with
    | raw c =>
      cases n with
      | zero => rfl
      | succ n =>
        rw [mapBodies_cons_raw, joinPieces_cons_raw, joinPieces_cons_raw,
          List.take_succ_cons, List.take_succ_cons,
          ih (fun o b cl hm => h4 o b cl (by simp [hm])) n (by omega)]
    | run o b cl =>
      have ho4 : 4 ≤ o.length := h4 o b cl (by simp)
      rw [mapBodies_cons_run, joinPieces_cons_run, joinPieces_cons_run,
        List.append_assoc, List.append_assoc, List.append_assoc, List.append_assoc,
        take_app_of_le _ (by omega), take_app_of_le _ (by omega)]

theorem tryOpen_none_of_noGT {s : List Char} (h : '>' ∉ s) : tryOpen s = none := by
  unfold tryOpen
  split
  case isFalse => rfl
  case isTrue hp =>
    have hd : (s.drop 4).dropWhile (fun c => decide (c ≠ '>')) = [] := by
      rw [List.dropWhile_eq_nil_iff]
      intro x hx
      simp only [decide_eq_true_eq]
      intro he
      exact h (he ▸ List.drop_subset 4 s hx)
    dsimp only
    rw [hd]

theorem scanF_of_noGT {s : List Char} (h : '>' ∉ s) :
    ∀ fuel, s.length ≤ fuel → scanF fuel s = s.map .raw := by
  induction s with
  | nil => intro fuel _; rw [scanF_nil]; rfl
  | cons c cs ih =>
    intro fuel hf
    cases fuel with
    | zero => simp at hf
    | succ fuel =>
      have hcs : '>' ∉ cs := fun hm => h (by simp [hm])
      rw [scanF_raw_step (Or.inl (tryOpen_none_of_noGT h)), List.map_cons,
        ih hcs fuel (by simp only [List.length_cons] at hf; omega)]

theorem scanF_all_raw_of_norun {s : List Char}
    (h : ∀ p o r, tryOpen (s.drop p) = some (o, r) → findClose r = none) :
    ∀ fuel, s.length ≤ fuel → scanF fuel s = s.map .raw := by
  induction s with
  | nil => intro fuel _; rw [scanF_nil]; rfl
  | cons c cs ih =>
    intro fuel hf
    cases fuel with
    | zero => simp at hf
    | succ fuel =>
      have hstep : tryOpen (c :: cs) = none ∨
          ∃ o r, tryOpen (c :: cs) = some (o, r) ∧ findClose r = none := by
        cases h1 : tryOpen (c :: cs) with
        | none => exact Or.inl rfl
        | some pr =>
          obtain ⟨o, r⟩ := pr
          refine Or.inr ⟨o, r, rfl, h 0 o r ?_⟩
          rw [List.drop_zero]
          exact h1
      have hcs : ∀ p o r, tryOpen (cs.drop p) = some (o, r) → findClose r = none := by
        intro p o r hp
        refine h (p + 1) o r ?_
        rw [List.drop_succ_cons]
        exact hp
      rw [scanF_raw_step hstep, List.map_cons,
        ih hcs fuel (by simp only [List.length_cons] at hf; omega)]

theorem norun_of_close_none {c : Char} {cs o rest : List Char}
    (h1 : tryOpen (c :: cs) = some (o, rest)) (h2 : findClose rest = none) :
    ∀ p o₂ r₂, tryOpen (cs.drop p) = some (o₂, r₂) → findClose r₂ = none := by
  obtain ⟨pre, ho, hs, hgt, hlen, hp, ht2⟩ := tryOpen_eq h1
  have hs2 : c :: cs = pre ++ '>' :: rest := by
    rw [hs, ho]
    simp [List.append_assoc]
  cases pre with
  | nil => simp at hlen
  | cons c' pa =>
    rw [List.cons_append, List.cons.injEq] at hs2
    obtain ⟨hcc, hcs⟩ := hs2
    have hgtpa : '>' ∉ pa := fun hm => hgt (by simp [hm])
    have hlenpa : 3 ≤ pa.length := by
      simp only [List.length_cons] at hlen
      omega
    intro p o₂ r₂ hto
    obtain ⟨hsplit, ho5⟩ := tryOpen_parts hto
    have hr₂ : r₂ = cs.drop (p + o₂.length) := by
      have : (cs.drop p).drop o₂.length = r₂ := by
        rw [hsplit]
        exact List.drop_left o₂ r₂
      rw [← this, List.drop_drop]
    have hk : pa.length + 1 ≤ p + o₂.length := by
      by_cases hple : p ≤ pa.length
      · have hdp : cs.drop p = pa.drop p ++ '>' :: rest := by
          rw [hcs, List.drop_append_eq_append_drop, Nat.sub_eq_zero_of_le hple,
            List.drop_zero]
        have hnogt : '>' ∉ (cs.drop p).take (pa.length - p) := by
          rw [hdp, take_app_of_le _ (by rw [List.length_drop]),
            List.take_of_length_le (by rw [List.length_drop])]
          intro hm
          exact hgtpa (List.drop_subset p pa hm)
        have := tryOpen_first_gt hto hnogt
        omega
      · omega
    have hsuf : r₂.IsSuffix rest := by
      rw [hr₂, hcs]
      have : pa ++ '>' :: rest = (pa ++ ['>']) ++ rest := by simp [List.append_assoc]
      rw [this]
      have hlen2 : (pa ++ ['>']).length ≤ p + o₂.length := by
        simp only [List.length_append, List.length_cons, List.length_nil]
        omega
      rw [List.drop_append_eq_append_drop, List.drop_eq_nil_of_le hlen2,
        List.nil_append]
      exact List.drop_suffix _ _
    exact findClose_none_suffix h2 hsuf

theorem gtn_take3 {c : Char} {cs : List Char}
    (h : isPrefixCI openTok (c :: cs) = true) : '>' ∉ cs.take 3 := by
  intro hm
  apply gtn_openTok h
  rw [show (4 : ℕ) = 3 + 1 from rfl, List.take_succ_cons]
  exact List.mem_cons_of_mem c hm

/-- The heart of the frame property: re-scanning a document whose
text-run bodies have been rewritten (to bodies without raw `<`)
recovers exactly the rewritten decomposition, so a subsequent per-key
pass sees the same runs and the same surrounding raw text. -/
theorem scanF_stable (T : List Char → List Char)
    (hT : ∀ b, '<' ∉ b → '<' ∉ T b) :
    ∀ (fuel : ℕ) (s : List Char), s.length ≤ fuel →
      (∀ pc ∈ scanF fuel s, bodyNoLT pc = true) →
      scanRuns (joinPieces (mapBodies T (scanF fuel s))) = mapBodies T (scanF fuel s) := by
  intro fuel
  induction fuel with
  | zero =>
    intro s hs _
    have : s = [] := List.length_eq_zero.mp (Nat.le_zero.mp hs)
    subst this
    rfl
  | succ fuel ih =>
    intro s hs hB
    cases s with
    | nil => rfl
    | cons c cs =>
      have hcs : cs.length ≤ fuel := by simp only [List.length_cons] at hs; omega
      cases h1 : tryOpen (c :: cs) with
      | some pr =>
        obtain ⟨o, r⟩ := pr
        cases h2 : findClose r with
        | some bclr =>
          obtain ⟨b, cl, r2⟩ := bclr
          rw [scanF_run_step h1 h2] at hB ⊢
          obtain ⟨hs1, ho5⟩ := tryOpen_parts h1
          obtain ⟨hr1, hclp, hcll⟩ := findClose_eq h2
          have hr2len : r2.length ≤ fuel := by
            have e1 : (c :: cs).length = o.length + (b.length + (cl.length + r2.length)) := by
              rw [hs1, hr1]
              simp [List.length_append]
            simp only [List.length_cons] at e1 hs
            omega
          have hnb : '<' ∉ b := by
            have := hB (.run o b cl) (by simp)
            simpa [bodyNoLT] using this
          have hTb : '<' ∉ T b := hT b hnb
          have ihr := ih r2 hr2len (fun pc hm => hB pc (List.mem_cons_of_mem _ hm))
          rw [mapBodies_cons_run, joinPieces_cons_run]
          set Q := mapBodies T (scanF fuel r2) with hQ
          have hassoc : o ++ T b ++ cl ++ joinPieces Q =
              o ++ (T b ++ cl ++ joinPieces Q) := by
            simp [List.append_assoc]
          rw [hassoc]
          have hto2 : tryOpen (o ++ (T b ++ cl ++ joinPieces Q)) =
              some (o, T b ++ cl ++ joinPieces Q) := tryOpen_extend h1 _
          have hfc2 : findClose (T b ++ cl ++ joinPieces Q) =
              some (T b, cl, joinPieces Q) := findClose_emerge hTb hclp hcll
          have hJpos : 1 ≤ (o ++ (T b ++ cl ++ joinPieces Q)).length := by
            rw [List.length_append]
            omega
          unfold scanRuns
          rw [show (o ++ (T b ++ cl ++ joinPieces Q)).length =
              ((o ++ (T b ++ cl ++ joinPieces Q)).length - 1) + 1 by omega,
            scanF_run_step hto2 hfc2]
          congr 1
          have hle : (joinPieces Q).length ≤
              (o ++ (T b ++ cl ++ joinPieces Q)).length - 1 := by
            simp only [List.length_append]
            omega
          rw [scanF_fuel_irrel _ (joinPieces Q).length _ hle (le_refl _)]
          exact ihr
        | none =>
          rw [scanF_raw_step (Or.inr ⟨o, r, h1, h2⟩)] at hB ⊢
          have hraw : scanF fuel cs = cs.map .raw :=
            scanF_all_raw_of_norun (norun_of_close_none h1 h2) fuel hcs
          rw [hraw, mapBodies_cons_raw, mapBodies_map_raw, joinPieces_cons_raw,
            join_map_raw]
          unfold scanRuns
          rw [show (c :: cs).length = cs.length + 1 from rfl,
            scanF_raw_step (Or.inr ⟨o, r, h1, h2⟩),
            scanF_all_raw_of_norun (norun_of_close_none h1 h2) cs.length (le_refl _)]
      | none =>
        rw [scanF_raw_step (Or.inl h1)] at hB ⊢
        by_cases hpre : isPrefixCI openTok (c :: cs) = true
        · have hgt4 : '>' ∉ (c :: cs).drop 4 := by
            rcases tryOpen_none_cases h1 with hf | hg
            · rw [hpre] at hf; exact absurd hf (by simp)
            · exact hg
          have hnogt : '>' ∉ cs := by
            intro hm
            have hsplit : cs.take 3 ++ cs.drop 3 = cs := List.take_append_drop 3 cs
            rcases List.mem_append.mp (show '>' ∈ cs.take 3 ++ cs.drop 3 by
              rw [hsplit]; exact hm) with hm' | hm'
            · exact gtn_take3 hpre hm'
            · apply hgt4
              rw [show (4 : ℕ) = 3 + 1 from rfl, List.drop_succ_cons]
              exact hm'
          have hraw : scanF fuel cs = cs.map .raw := scanF_of_noGT hnogt fuel hcs
          rw [hraw, mapBodies_cons_raw, mapBodies_map_raw, joinPieces_cons_raw,
            join_map_raw]
          unfold scanRuns
          rw [show (c :: cs).length = cs.length + 1 from rfl,
            scanF_raw_step (Or.inl h1), scanF_of_noGT hnogt cs.length (le_refl _)]
        · have hfalse : isPrefixCI openTok (c :: cs) = false := by
            cases hpp : isPrefixCI openTok (c :: cs)
            · rfl
            · exact absurd hpp hpre
          have ihc := ih cs hcs (fun pc hm => hB pc (List.mem_cons_of_mem _ hm))
          set Q := mapBodies T (scanF fuel cs) with hQ
          have hjoin : joinPieces (scanF fuel cs) = cs := join_scanF fuel cs hcs
          have htagree : (joinPieces Q).take 3 = cs.take 3 := by
            rw [← hjoin]
            exact take_join_agree T (scanF fuel cs)
              (fun o b cl hm => by
                have := (scanF_runs fuel cs o b cl hm).2.2.2
                omega) 3 (by omega)
          have hpre2 : isPrefixCI openTok (c :: joinPieces Q) = false := by
            have e : (c :: joinPieces Q).take openTok.length =
                (c :: cs).take openTok.length := by
              show (c :: joinPieces Q).take 4 = (c :: cs).take 4
              rw [show (4 : ℕ) = 3 + 1 from rfl, List.take_succ_cons,
                List.take_succ_cons, htagree]
            rw [isPrefixCI_congr_take e]
            exact hfalse
          have hto2 : tryOpen (c :: joinPieces Q) = none := by
            unfold tryOpen
            rw [if_neg (by simp [hpre2])]
          rw [mapBodies_cons_raw, joinPieces_cons_raw]
          unfold scanRuns
          rw [show (c :: joinPieces Q).length = (joinPieces Q).length + 1 from rfl,
            scanF_raw_step (Or.inl hto2)]
          exact congrArg (fun l => Piece.raw c :: l) ihc

/-- Restatement of stability at the top-level scan. -/
theorem scanRuns_stable (T : List Char → List Char)
    (hT : ∀ b, '<' ∉ b → '<' ∉ T b) (s : List Char)
    (hB : ∀ pc ∈ scanRuns s, bodyNoLT pc = true) :
    scanRuns (joinPieces (mapBodies T (scanRuns s))) = mapBodies T (scanRuns s) :=
  scanF_stable T hT s.length s (le_refl _) hB

theorem suffixOfAux_subset : ∀ (m : List Char) (c : Char), c ∈ suffixOfAux m → c ∈ m := by
  intro m
  induction m with
  | nil => intro c h; simp [suffixOfAux] at h
  | cons x t ih =>
    intro c h
    unfold suffixOfAux at h
    split at h
    · exact h
    · exact List.mem_cons_of_mem x (ih c h)

theorem tryPh_mem {key ev s : List Char} {n : ℕ} {rep : List Char}
    (h : tryPh key ev s = some (n, rep)) :
    ∀ c ∈ rep, c ∈ ev ∨ c ∈ s := by
  unfold tryPh at h
  split at h
  case h_1 rest =>
    dsimp only at h
    split at h
    case isTrue hk =>
      split at h
      case h_1 rest2 heq =>
        rw [Option.some.injEq, Prod.mk.injEq] at h
        obtain ⟨hn, hrep⟩ := h
        intro c hc
        rw [← hrep] at hc
        rcases List.mem_append.mp hc with hc | hc
        · exact Or.inl hc
        · exact Or.inr (List.take_subset _ _ (suffixOfAux_subset _ c hc))
      case h_2 => exact absurd h (by simp)
    case isFalse => exact absurd h (by simp)
  case h_2 => exact absurd h (by simp)

theorem tryBr_ne_nil {key s : List Char} {n : ℕ} (h : tryBr key s = some n) :
    s ≠ [] := by
  intro he
  subst he
  simp [tryBr] at h

theorem pass1F_step_some {key ev : List Char} {fuel : ℕ} {c : Char} {cs : List Char}
    {n : ℕ} {rep : List Char} (h : tryPh key ev (c :: cs) = some (n, rep)) :
    pass1F key ev (fuel + 1) (c :: cs) = rep ++ pass1F key ev fuel ((c :: cs).drop n) := by
  show (match tryPh key ev (c :: cs) with
    | some (n, rep) => rep ++ pass1F key ev fuel ((c :: cs).drop n)
    | none => c :: pass1F key ev fuel cs) = _
  rw [h]

theorem pass1F_step_none {key ev : List Char} {fuel : ℕ} {c : Char} {cs : List Char}
    (h : tryPh key ev (c :: cs) = none) :
    pass1F key ev (fuel + 1) (c :: cs) = c :: pass1F key ev fuel cs := by
  show (match tryPh key ev (c :: cs) with
    | some (n, rep) => rep ++ pass1F key ev fuel ((c :: cs).drop n)
    | none => c :: pass1F key ev fuel cs) = _
  rw [h]

theorem pass2F_step_some {key ev : List Char} {fuel : ℕ} {c : Char} {cs : List Char}
    {n : ℕ} (h : tryBr key (c :: cs) = some n) :
    pass2F key ev (fuel + 1) (c :: cs) = ev ++ pass2F key ev fuel ((c :: cs).drop n) := by
  show (match tryBr key (c :: cs) with
    | some n => ev ++ pass2F key ev fuel ((c :: cs).drop n)
    | none => c :: pass2F key ev fuel cs) = _
  rw [h]

theorem pass2F_step_none {key ev : List Char} {fuel : ℕ} {c : Char} {cs : List Char}
    (h : tryBr key (c :: cs) = none) :
    pass2F key ev (fuel + 1) (c :: cs) = c :: pass2F key ev fuel cs := by
  show (match tryBr key (c :: cs) with
    | some n => ev ++ pass2F key ev fuel ((c :: cs).drop n)
    | none => c :: pass2F key ev fuel cs) = _
  rw [h]

theorem pass3F_step_some {key ev : List Char} {fuel : ℕ} {c : Char} {cs : List Char}
    {n : ℕ} (h : tryDirect key (c :: cs) = some n) :
    pass3F key ev (fuel + 1) (c :: cs) = ev ++ pass3F key ev fuel ((c :: cs).drop n) := by
  show (match tryDirect key (c :: cs) with
    | some n => ev ++ pass3F key ev fuel ((c :: cs).drop n)
    | none => c :: pass3F key ev fuel cs) = _
  rw [h]

theorem pass3F_step_none {key ev : List Char} {fuel : ℕ} {c : Char} {cs : List Char}
    (h : tryDirect key (c :: cs) = none) :
    pass3F key ev (fuel + 1) (c :: cs) = c :: pass3F key ev fuel cs := by
  show (match tryDirect key (c :: cs) with
    | some n => ev ++ pass3F key ev fuel ((c :: cs).drop n)
    | none => c :: pass3F key ev fuel cs) = _
  rw [h]

theorem pass1F_no_lt {key ev : List Char} (hev : '<' ∉ ev) :
    ∀ (fuel : ℕ) (s : List Char), '<' ∉ s → '<' ∉ pass1F key ev fuel s := by
  intro fuel
  induction fuel with
  | zero => intro s hs; simpa [pass1F] using hs
  | succ fuel ih =>
    intro s hs
    cases s with
    | nil => simp [pass1F]
    | cons c cs =>
      cases h : tryPh key ev (c :: cs) with
      | none =>
        rw [pass1F_step_none h]
        intro hm
        rcases List.mem_cons.mp hm with he | hm'
        · exact hs (List.mem_cons.mpr (Or.inl he))
        · exact ih cs (fun hx => hs (List.mem_cons_of_mem c hx)) hm'
      | some pr =>
        obtain ⟨n, rep⟩ := pr
        rw [pass1F_step_some h]
        intro hm
        rcases List.mem_append.mp hm with hm' | hm'
        · rcases tryPh_mem h '<' hm' with hc | hc
          · exact hev hc
          · exact hs hc
        · exact ih _ (fun hx => hs (List.drop_subset n _ hx)) hm'

theorem pass2F_no_lt {key ev : List Char} (hev : '<' ∉ ev) :
    ∀ (fuel : ℕ) (s : List Char), '<' ∉ s → '<' ∉ pass2F key ev fuel s := by
  intro fuel
  induction fuel with
  | zero => intro s hs; simpa [pass2F] using hs
  | succ fuel ih =>
    intro s hs
    cases s with
    | nil => simp [pass2F]
    | cons c cs =>
      cases h : tryBr key (c :: cs) with
      | none =>
        rw [pass2F_step_none h]
        intro hm
        rcases List.mem_cons.mp hm with he | hm'
        · exact hs (List.mem_cons.mpr (Or.inl he))
        · exact ih cs (fun hx => hs (List.mem_cons_of_mem c hx)) hm'
      | some n =>
        rw [pass2F_step_some h]
        intro hm
        rcases List.mem_append.mp hm with hm' | hm'
        · exact hev hm'
        · exact ih _ (fun hx => hs (List.drop_subset n _ hx)) hm'

theorem pass3F_no_lt {key ev : List Char} (hev : '<' ∉ ev) :
    ∀ (fuel : ℕ) (s : List Char), '<' ∉ s → '<' ∉ pass3F key ev fuel s := by
  intro fuel
  induction fuel with
  | zero => intro s hs; simpa [pass3F] using hs
  | succ fuel ih =>
    intro s hs
    cases s with
    | nil => simp [pass3F]
    | cons c cs =>
      cases h : tryDirect key (c :: cs) with
      | none =>
        rw [pass3F_step_none h]
        intro hm
        rcases List.mem_cons.mp hm with he | hm'
        · exact hs (List.mem_cons.mpr (Or.inl he))
        · exact ih cs (fun hx => hs (List.mem_cons_of_mem c hx)) hm'
      | some n =>
        rw [pass3F_step_some h]
        intro hm
        rcases List.mem_append.mp hm with hm' | hm'
        · exact hev hm'
        · exact ih _ (fun hx => hs (List.drop_subset n _ hx)) hm'

theorem replaceKeyInBody_no_lt {key ev : List Char} (hev : '<' ∉ ev)
    {b : List Char} (hb : '<' ∉ b) : '<' ∉ replaceKeyInBody key ev b := by
  unfold replaceKeyInBody
  exact pass3F_no_lt hev _ _ (pass2F_no_lt hev _ _ (pass1F_no_lt hev _ _ hb))

theorem xmlEntity_no_lt (c : Char) : '<' ∉ xmlEntity c := by
  unfold xmlEntity
  split
  · decide
  split
  · decide
  split
  · decide
  split
  · decide
  split
  · decide
  next h1 h2 h3 h4 h5 =>
    simp only [List.mem_singleton]
    intro he
    exact h2 he.symm

theorem escape_no_lt (v : String) : '<' ∉ (escapeXmlValue v).toList := by
  unfold escapeXmlValue
  split
  · decide
  · dsimp only
    rw [escape_chain_eq, mk_toList]
    intro hm
    obtain ⟨c, _, hmem⟩ := List.mem_flatMap.mp hm
    exact xmlEntity_no_lt c hmem

theorem frame_aux (s : List Char)
    (hB : ∀ pc ∈ scanRuns s, bodyNoLT pc = true) :
    ∀ (reps : List (String × String)) (Tacc : List Char → List Char),
      (∀ b, '<' ∉ b → '<' ∉ Tacc b) →
      (List.foldl
        (fun result kv =>
          if kv.2 = "" ∧ kv.1 ≠ "性别" ∧ kv.1 ≠ "年龄" then result
          else String.mk (replaceOneKey kv.1.toList (escapeXmlValue kv.2).toList
            result.toList))
        (String.mk (joinPieces (mapBodies Tacc (scanRuns s)))) reps).toList =
      joinPieces (mapBodies
        (fun b => List.foldl
          (fun acc kv =>
            if kv.2 = "" ∧ kv.1 ≠ "性别" ∧ kv.1 ≠ "年龄" then acc
            else replaceKeyInBody kv.1.toList (escapeXmlValue kv.2).toList acc)
          (Tacc b) reps)
        (scanRuns s)) := by
  intro reps
  induction reps with
  | nil =>
    intro Tacc _
    simp only [List.foldl_nil, mk_toList]
  | cons kv reps ih =>
    intro Tacc hTacc
    by_cases hskip : kv.2 = "" ∧ kv.1 ≠ "性别" ∧ kv.1 ≠ "年龄"
    · simp only [List.foldl_cons, if_pos hskip]
      exact ih Tacc hTacc
    · simp only [List.foldl_cons, if_neg hskip]
      simp only [replaceOneKey, mk_toList]
      rw [scanRuns_stable Tacc hTacc s hB, mapBodies_comp]
      exact ih _ (fun b hb => replaceKeyInBody_no_lt (escape_no_lt kv.2) (hTacc b hb))

theorem fixed_tail {L x m y : List Char} (h : L = x ++ m ++ y) :
    L.reverse.take y.length = y.reverse := by
  subst h
  rw [List.reverse_append, take_app_of_le _ (by rw [List.length_reverse]),
    List.take_of_length_le (by rw [List.length_reverse])]

/-- **C7** (amended). For every slide XML input whose `<a:t>` text-run
bodies contain no raw `<` (the shape of well-formed XML character data)
and every replacement map, `replaceTextInSlidePreferred` modifies only
the character data between `<a:t>` open tags and their matching `</a:t>`
close tags: the output is exactly the input's text-run decomposition
with each body rewritten by the accumulated per-key transformation and
every byte outside the bodies unchanged.  In particular
`<a:t>{{姓名}}</a:t>` with replacement value `张三` produces
`<a:t>张三</a:t>` with no residual braces.  (Without the
well-formedness restriction the frame property fails, see the
counterexample.) -/
theorem C7_text_run_frame (xml : String) (reps : List (String × String))
    (hB : ∀ pc ∈ scanRuns xml.toList, bodyNoLT pc = true) :
    (replaceTextInSlidePreferred xml reps).toList =
      joinPieces (mapBodies (composedBodyTransform reps) (scanRuns xml.toList)) ∧
    replaceTextInSlidePreferred "<a:t>\x7b\x7b姓名\x7d\x7d</a:t>" [("姓名", "张三")] =
      "<a:t>张三</a:t>" := by
  constructor
  · have hfx := frame_aux xml.toList hB reps (fun b => b) (fun _ hb => hb)
    have hinit : String.mk (joinPieces (mapBodies (fun b => b)
        (scanRuns xml.toList))) = xml := by
      unfold scanRuns
      rw [mapBodies_id, join_scanF _ _ (le_refl _)]
      exact mk_of_toList xml
    rw [hinit] at hfx
    exact hfx
  · decide

/-- Witness for C7: a concrete slide fragment with well-formed bodies;
the substitution output is exactly the body-rewritten decomposition. -/
theorem C7_witness :
    (replaceTextInSlidePreferred "<a:t>你好\x7b\x7b工号\x7d\x7d</a:t>尾部"
        [("工号", "A01")]).toList =
      joinPieces (mapBodies (composedBodyTransform [("工号", "A01")])
        (scanRuns ("<a:t>你好\x7b\x7b工号\x7d\x7d</a:t>尾部").toList)) :=
  (C7_text_run_frame "<a:t>你好\x7b\x7b工号\x7d\x7d</a:t>尾部" [("工号", "A01")]
    (by decide)).1

/-- Counterexample to C7 as stated (no well-formedness restriction on
the input).  The input decomposes into one text run whose body contains
a raw `<`, followed by the raw (outside-any-body) characters
`年龄</a:t>D`.  Replacing `性别` by the empty string fuses body text
into a new `</a:t>`, and the pass for the second key `年龄` then
rewrites the character `年龄` that lay outside every original body: no
choice of rewritten body for the single original run can reproduce the
actual output, because the output no longer ends with the untouched raw
tail. -/
theorem C7_counterexample :
    scanRuns ("<a:t>A</a:\x7b\x7b性别\x7d\x7dt>B<a:tC</a:t>年龄</a:t>D").toList =
      Piece.run ("<a:t>").toList ("A</a:\x7b\x7b性别\x7d\x7dt>B<a:tC").toList
          ("</a:t>").toList ::
        ("年龄</a:t>D").toList.map Piece.raw ∧
    ¬ ∃ newBody : List Char,
      (replaceTextInSlidePreferred "<a:t>A</a:\x7b\x7b性别\x7d\x7dt>B<a:tC</a:t>年龄</a:t>D"
          [("性别", ""), ("年龄", "X")]).toList =
        ("<a:t>").toList ++ newBody ++ ("</a:t>年龄</a:t>D").toList := by
  constructor
  · decide
  · rintro ⟨nb, h⟩
    have ht := fixed_tail h
    revert ht
    decide

/-- **C9.** For every placeholder key with an empty-string value: a key
other than `性别`/`年龄` is skipped entirely (the slide XML is returned
unchanged, placeholder text and all), while for `性别` and `年龄` the
substitution proceeds with the empty replacement string, so the
placeholder text disappears; concrete slides confirm both behaviours,
including through `applyCoverPlaceholders`. -/
theorem C9_empty_value_policy :
    (∀ (xml : String) (k : String), k ≠ "性别" → k ≠ "年龄" →
        replaceTextInSlidePreferred xml [(k, "")] = xml) ∧
    (∀ (xml : String) (k : String), k = "性别" ∨ k = "年龄" →
        replaceTextInSlidePreferred xml [(k, "")] =
          String.mk (replaceOneKey k.toList [] xml.toList)) ∧
    replaceTextInSlidePreferred "<a:t>\x7b\x7b性别\x7d\x7d</a:t>" [("性别", "")] =
      "<a:t></a:t>" ∧
    replaceTextInSlidePreferred "<a:t>\x7b\x7b年龄\x7d\x7d</a:t>" [("年龄", "")] =
      "<a:t></a:t>" ∧
    applyCoverPlaceholders "<a:t>\x7b\x7b姓名\x7d\x7d，\x7b\x7b性别\x7d\x7d，\x7b\x7b日期\x7d\x7d</a:t>"
        "张三" "" "" "" "" =
      "<a:t>张三，，\x7b\x7b日期\x7d\x7d</a:t>" := by
  refine ⟨?_, ?_, by decide, by decide, by decide⟩
  · intro xml k h1 h2
    show List.foldl _ xml [(k, "")] = xml
    simp only [List.foldl_cons, List.foldl_nil]
    have hc : True ∧ k ≠ "性别" ∧ k ≠ "年龄" := ⟨trivial, h1, h2⟩
    rw [if_pos hc]
  · intro xml k hk
    show List.foldl _ xml [(k, "")] = _
    simp only [List.foldl_cons, List.foldl_nil]
    rw [if_neg (by rcases hk with h | h <;> simp [h])]
    have he : (escapeXmlValue "").toList = [] := by decide
    rw [he]

/-- Witness for C9: the empty `日期` value leaves its placeholder
untouched, while the empty `性别` value is substituted (as the escaped
empty string). -/
theorem C9_witness :
    replaceTextInSlidePreferred "<a:t>\x7b\x7b日期\x7d\x7d</a:t>" [("日期", "")] =
      "<a:t>\x7b\x7b日期\x7d\x7d</a:t>" ∧
    replaceTextInSlidePreferred "计" [("性别", "")] =
      String.mk (replaceOneKey ("性别").toList [] ("计").toList) :=
  ⟨C9_empty_value_policy.1 "<a:t>\x7b\x7b日期\x7d\x7d</a:t>" "日期" (by decide) (by decide),
   C9_empty_value_policy.2.1 "计" "性别" (Or.inl rfl)⟩

end AiHealthCheck
